import Mathlib

/-! In-place memory analysis of the nGraph MLIR backend.

A shallow embedding of `src/contrib/mlir/backend/analysis/memory_analysis.cpp`:
the cannot-alias relation (`AliasRelation`), the liveness tracker
(`LivenessAnalysis`) and the backward sweep of `MemoryAssignment`.

Conventions of the embedding.
* A `Value*` and an `Operation*` are identities; a value is a natural number and
  an operation is its position in the single block of the region.
* `std::unordered_map` is an association list searched front to back; a new key
  is put in front.  Theorems that depend on the enumeration order of a map are
  stated for every such list.
* `SmallVector` is `List`; a read at an index is `getD`, a write is `List.set`.
  The theorems prove the matrices square, so that every index the code uses is
  in range.
* `int` and `unsigned` counters are unbounded (`Int`, `Nat`): the counters grow
  by one per operation of the region and never get near `2^31`.
* `NGRAPH_CHECK` failing is the result `none`.
-/

set_option maxRecDepth 100000

namespace NGraph

/-- Identity of an `mlir::Value`. -/
abbrev Value := Nat

/-! ## Counted loops -/

/-- The loop `for (i = 0; i < n; i++) s = body(i, s)`. -/
def forLoop {σ : Type} (n : Nat) (body : Nat → σ → σ) (s : σ) : σ :=
  (List.range n).foldl (fun acc i => body i acc) s

/-! ## The type `int` -/

/-- The value of an `int` that holds the integer `x`: `x` reduced to 32 bits, two's
complement.  This is the conversion of a 64-bit value to `int` (the assignment
`opndOffset += getNumElements()` of line 265) and the sum of two `int` as the
hardware computes it (`baseOffset + opndOffsets[i]`, lines 291 and 360). -/
def wrapInt32 (x : Int) : Int := (x + 2147483648) % 4294967296 - 2147483648

/-- The integer `x` is a value of the type `int`. -/
def InInt32 (x : Int) : Prop := -2147483648 ≤ x ∧ x < 2147483648

/-! ## The reachability matrix -/

/-- One row of the matrix: `SmallVector<int8_t, 10>`. -/
abbrev Row := List Int

/-- The matrix `SmallVector<Row, 10>`. -/
abbrev Matrix := List Row

/-- Read `m[i][j]`. -/
def Matrix.at (m : Matrix) (i j : Nat) : Int := (m.getD i []).getD j 0

/-- Write `m[i][j] = v`. -/
def Matrix.put (m : Matrix) (i j : Nat) (v : Int) : Matrix :=
  m.set i ((m.getD i []).set j v)

/-- Append one zero entry to row `i`: `m[i].push_back(0)`. -/
def Matrix.pushBack (m : Matrix) (i : Nat) : Matrix :=
  m.set i (m.getD i [] ++ [0])

/-! ## AliasRelation -/

/-- The class `AliasRelation` (lines 66-85). -/
structure AliasRelation where
  m_valueToIdx : List (Value × Nat)
  m_reachability : Matrix
  m_maxIdx : Nat
  m_needsTransitiveClosure : Bool
deriving DecidableEq, Repr

namespace AliasRelation

/-- The constructor (lines 461-470): no value, empty matrix, flag clear. -/
def empty : AliasRelation :=
  { m_valueToIdx := [], m_reachability := [], m_maxIdx := 0,
    m_needsTransitiveClosure := false }

/-- The method `canAlias` (lines 471-484); `none` is the failed `NGRAPH_CHECK`. -/
def canAlias (r : AliasRelation) (a b : Value) : Option Bool :=
  if r.m_needsTransitiveClosure then none
  else
    match r.m_valueToIdx.lookup a, r.m_valueToIdx.lookup b with
    | some aIdx, some bIdx =>
        some (r.m_reachability.at aIdx bIdx == 0 && r.m_reachability.at bIdx aIdx != 0)
    | _, _ => some true

/-- Lines 490-500 and 502-512: find the index of `v`, or give it the next one.
Returns the index, the map, the counter and the number of rows to add. -/
def findOrAdd (map : List (Value × Nat)) (maxIdx : Nat) (v : Value) :
    Nat × List (Value × Nat) × Nat × Nat :=
  match map.lookup v with
  | none => (maxIdx, (v, maxIdx) :: map, maxIdx + 1, 1)
  | some idx => (idx, map, maxIdx, 0)

/-- Lines 514-531: widen the existing rows and append the new rows. -/
def growMatrix (m : Matrix) (maxIdx rowsToAdd : Nat) : Matrix :=
  if rowsToAdd = 0 then m
  else
    let widened := forLoop (maxIdx - rowsToAdd)
      (fun i acc =>
        let pushed := acc.pushBack i
        if rowsToAdd > 1 then pushed.pushBack i else pushed)
      m
    let one := widened ++ [List.replicate maxIdx 0]
    if rowsToAdd > 1 then one ++ [List.replicate maxIdx 0] else one

/-- Lines 487-534 of `insertNoAlias`: everything before the closure is computed. -/
def insertEdge (r : AliasRelation) (a b : Value) : AliasRelation :=
  let fa := findOrAdd r.m_valueToIdx r.m_maxIdx a
  let fb := findOrAdd fa.2.1 fa.2.2.1 b
  let aIdx := fa.1
  let bIdx := fb.1
  let maxIdx := fb.2.2.1
  let rowsToAdd := fa.2.2.2 + fb.2.2.2
  let grown := growMatrix r.m_reachability maxIdx rowsToAdd
  { m_valueToIdx := fb.2.1
    m_reachability := (grown.put aIdx bIdx 1).put bIdx aIdx 1
    m_maxIdx := maxIdx
    m_needsTransitiveClosure := true }

/-- The body of the innermost loop of `computeTransitiveClosure` (lines 550-553). -/
def relax (k i j : Nat) (m : Matrix) : Matrix :=
  if m.at i k ≠ 0 ∧ m.at k j ≠ 0 then m.put i j 1 else m

/-- The `i` and `j` loops of `computeTransitiveClosure` for one `k`. -/
def closureStep (n k : Nat) (m : Matrix) : Matrix :=
  forLoop n (fun i mi => forLoop n (fun j mj => relax k i j mj) mi) m

/-- The method `computeTransitiveClosure` (lines 542-558). -/
def computeTransitiveClosure (r : AliasRelation) : AliasRelation :=
  { r with
    m_reachability := forLoop r.m_maxIdx (fun k m => closureStep r.m_maxIdx k m) r.m_reachability
    m_needsTransitiveClosure := false }

/-- The method `insertNoAlias` (lines 485-540). -/
def insertNoAlias (r : AliasRelation) (a b : Value) : AliasRelation :=
  computeTransitiveClosure (insertEdge r a b)

/-- The debug method `checkInvariance` (lines 561-577): `true` when no check fails. -/
def checkInvariance (r : AliasRelation) : Bool :=
  decide (r.m_reachability.length = r.m_maxIdx) &&
  r.m_reachability.all (fun v => decide (v.length = r.m_maxIdx)) &&
  (List.range r.m_maxIdx).all (fun i =>
    (List.range r.m_maxIdx).all (fun j =>
      decide (r.m_reachability.at i j = r.m_reachability.at j i)))

/-- The relation after a sequence of `insertNoAlias` calls on the empty relation. -/
def afterInserts (calls : List (Value × Value)) : AliasRelation :=
  calls.foldl (fun r c => r.insertNoAlias c.1 c.2) empty

end AliasRelation


/-! ## LivenessAnalysis -/

/-- The class `LivenessAnalysis` (lines 87-100). -/
structure LivenessAnalysis where
  m_maxIdx : Nat
  m_liveness : List Bool
  m_valueToIdx : List (Value × Nat)
deriving DecidableEq, Repr

namespace LivenessAnalysis

/-- The tracker of a new pass: nothing observed. -/
def empty : LivenessAnalysis := { m_maxIdx := 0, m_liveness := [], m_valueToIdx := [] }

/-- The method `reset` (lines 580-585). -/
def reset (_l : LivenessAnalysis) : LivenessAnalysis :=
  { m_maxIdx := 0, m_liveness := [], m_valueToIdx := [] }

/-- The method `getLiveValues` (lines 587-596), on an empty output vector. -/
def getLiveValues (l : LivenessAnalysis) : List Value :=
  l.m_valueToIdx.foldl
    (fun values entry => if l.m_liveness.getD entry.2 false then values ++ [entry.1] else values) []

/-- The method `isLive` (lines 598-606). -/
def isLive (l : LivenessAnalysis) (v : Value) : Bool :=
  match l.m_valueToIdx.lookup v with
  | none => false
  | some idx => l.m_liveness.getD idx false

/-- The method `setLive` (lines 608-621); `none` is the failed `NGRAPH_CHECK`. -/
def setLive (l : LivenessAnalysis) (v : Value) : Option LivenessAnalysis :=
  match l.m_valueToIdx.lookup v with
  | none =>
      let l1 : LivenessAnalysis :=
        { m_maxIdx := l.m_maxIdx + 1
          m_liveness := l.m_liveness ++ [true]
          m_valueToIdx := (v, l.m_maxIdx) :: l.m_valueToIdx }
      if l1.m_liveness.length = l1.m_maxIdx then some l1 else none
  | some idx => some { l with m_liveness := l.m_liveness.set idx true }

/-- The method `kill` (lines 623-632). -/
def kill (l : LivenessAnalysis) (v : Value) : LivenessAnalysis :=
  match l.m_valueToIdx.lookup v with
  | none => l
  | some idx => { l with m_liveness := l.m_liveness.set idx false }

/-- The loop `for (auto uit : operands) setLive(uit)` (lines 206-209). -/
def setLiveAll : List Value → LivenessAnalysis → Option LivenessAnalysis
  | [], l => some l
  | v :: vs, l => (l.setLive v).bind (setLiveAll vs)

/-- The loop `for (auto dit : results) kill(dit)` (lines 202-205). -/
def killAll (vs : List Value) (l : LivenessAnalysis) : LivenessAnalysis :=
  vs.foldl kill l

end LivenessAnalysis

/-! ## The region -/

/-- An `mlir::Operation` as far as the pass looks at it.  The dialect's operation
classes are not part of the analysis: whether the operation is an `NGConcatOp`
or an `NGReturnOp`, and the concatenation axis, are fields. -/
structure Operation where
  name : String
  operands : List Value
  results : List Value
  isConcat : Bool
  isReturn : Bool
  concatAxis : Nat
deriving DecidableEq, Repr

/-- The single block of the function, with the tensor type of every value:
its static shape and its number of elements. -/
structure Block where
  ops : List Operation
  shape : Value → List Int
  numElements : Value → Int

/-- A function is its list of blocks. -/
abbrev FuncOp := List Block

/-- A module is its list of functions. -/
abbrev ModuleOp := List FuncOp

/-- Search of the operation that has `v` among its results, from position `i` on. -/
def findDefiningOp (v : Value) : List Operation → Nat → Option Nat
  | [], _ => none
  | op :: rest, i => if op.results.contains v then some i else findDefiningOp v rest (i + 1)

/-- The call `value->getDefiningOp()`: `none` for a block argument. -/
def Block.getDefiningOp (blk : Block) (v : Value) : Option Nat :=
  findDefiningOp v blk.ops 0

/-- The number of uses of `v`, as counted by the loop over `opnd->getUses()`
(lines 384-388): one per operand slot that holds `v`. -/
def Block.countUses (blk : Block) (v : Value) : Int :=
  blk.ops.foldl (fun uses op => uses + (op.operands.count v : Nat)) 0

/-- The method `isInputOrOutputValue` (lines 425-452). -/
def Block.isInputOrOutputValue (blk : Block) (v : Value) : Bool :=
  match blk.getDefiningOp v with
  | none => true
  | some _ => blk.ops.any (fun useOp => useOp.operands.contains v && useOp.isReturn)

/-! ## The buffer assignment map -/

/-- Modelled from the spec: the struct `BufferInfo` of `memory_analysis.hpp`, which
is not among the sources: a buffer id and an offset.  The id `-1` marks the
absent assignment; it is the value `processConcat` itself uses for "no buffer
yet" (line 223). -/
structure BufferInfo where
  m_bufferId : Int
  m_offset : Int
deriving DecidableEq, Repr

/-- Modelled from the spec: `BufferInfo::isValid`, the validity flag. -/
def BufferInfo.isValid (b : BufferInfo) : Bool := b.m_bufferId != -1

/-- Modelled from the spec: the `BufferInfo` of an operation without assignment. -/
def BufferInfo.invalid : BufferInfo := { m_bufferId := -1, m_offset := 0 }

/-- Modelled from the spec: the Buffer Assignment Map of `MemoryAnalysis`
(`memory_analysis.hpp`), a map from operations to `BufferInfo`. -/
abbrev MemoryAnalysis := List (Nat × BufferInfo)

/-- Modelled from the spec: `getBufferInfo(op)`, possibly invalid. -/
def MemoryAnalysis.getBufferInfo (m : MemoryAnalysis) (op : Nat) : BufferInfo :=
  (m.lookup op).getD BufferInfo.invalid

/-- Modelled from the spec: `setBufferInfo(op, info)` overwrites or inserts. -/
def MemoryAnalysis.setBufferInfo (m : MemoryAnalysis) (op : Nat) (info : BufferInfo) :
    MemoryAnalysis :=
  (op, info) :: m

/-- The calls of `setBufferInfo` are the entries of the list, the last call in
front.  This is `true` when every call either targets an operation that has no
valid `BufferInfo` at that moment or writes the `BufferInfo` it already has. -/
def MemoryAnalysis.writesConsistent : MemoryAnalysis → Bool
  | [] => true
  | (op, info) :: rest =>
      (!(MemoryAnalysis.getBufferInfo rest op).isValid ||
        decide (MemoryAnalysis.getBufferInfo rest op = info)) &&
      MemoryAnalysis.writesConsistent rest

/-- The call `getBufferInfo(value->getDefiningOp())`; a null operation is never a
key of the map. -/
def MemoryAnalysis.getBufferInfoOf (m : MemoryAnalysis) (defOp : Option Nat) : BufferInfo :=
  match defOp with
  | none => BufferInfo.invalid
  | some d => m.getBufferInfo d

/-- The call `setBufferInfo(value->getDefiningOp(), info)`; an entry under the null
operation belongs to no operation and is left out. -/
def MemoryAnalysis.setBufferInfoOf (m : MemoryAnalysis) (defOp : Option Nat) (info : BufferInfo) :
    MemoryAnalysis :=
  match defOp with
  | none => m
  | some d => m.setBufferInfo d info

/-! ## MemoryAssignment -/

/-- The three command line switches (lines 39-52). -/
structure Switches where
  clEnableNgInPlaceMemory : Bool
  clEnableNgInPlaceConcat : Bool
  clEnableNgInPlaceEltWise : Bool
deriving DecidableEq, Repr

/-- The class `MemoryAssignment` (lines 105-129); `m_memAnalysis` is the map the
pointer refers to.  The table `m_inplaceOps` comes from `op_lowerers.inc`, which
is not among the sources, and is given at construction. -/
structure MemoryAssignment where
  m_liveness : LivenessAnalysis
  m_aliasRelation : AliasRelation
  m_inplaceOps : List (String × Bool)
  m_bufferId : Int
  m_memAnalysis : MemoryAnalysis
deriving DecidableEq, Repr

namespace MemoryAssignment

/-- The constructor (lines 108-116). -/
def init (inplaceOps : List (String × Bool)) : MemoryAssignment :=
  { m_liveness := LivenessAnalysis.empty
    m_aliasRelation := AliasRelation.empty
    m_inplaceOps := inplaceOps
    m_bufferId := 0
    m_memAnalysis := [] }

/-- The method `isSafeInPlace` (lines 454-459). -/
def isSafeInPlace (s : MemoryAssignment) (op : Operation) : Bool :=
  match s.m_inplaceOps.lookup op.name with
  | some inplace => inplace
  | none => false

/-- The axis loop of `processConcat` (lines 231-241): `false` is the `return`. -/
def axisLoop (concatAxis : Nat) : List Int → Nat → Bool
  | [], _ => true
  | d :: rest, i =>
      if i = concatAxis then true
      else if d ≠ 1 then false
      else axisLoop concatAxis rest (i + 1)

/-- The operand loop of `processConcat` (lines 245-251): `some false` is the
`return`, `none` the failed check inside `canAlias`. -/
def aliasLoop (blk : Block) (rel : AliasRelation) (result : Value) : List Value → Option Bool
  | [] => some true
  | opnd :: rest =>
      match rel.canAlias result opnd with
      | none => none
      | some can =>
          if !can || blk.isInputOrOutputValue opnd then some false
          else aliasLoop blk rel result rest

/-- The offset loop of `processConcat` (lines 254-268): the pair of `opndOffset`
and `opndOffsets`.  `opndOffset` is an `int` and the element count a 64-bit
integer: the sum is converted back to `int` at every round. -/
def offsetLoop (blk : Block) (operands : List Value) : Int × List Int :=
  forLoop operands.length
    (fun i st =>
      if i = 0 then (st.1, st.2 ++ [0])
      else
        let opndOffset := wrapInt32 (st.1 + blk.numElements (operands.getD (i - 1) 0))
        (opndOffset, st.2 ++ [opndOffset]))
    (0, [])

/-- The loop of lines 283-301, over the operand positions still to visit:
`some false` is the `return`, `none` the failed `NGRAPH_CHECK`.  The expected
offset `bufferOffset` is the sum of two `int`. -/
def matchLoop (blk : Block) (m : MemoryAnalysis) (operands : List Value) (opndOffsets : List Int)
    (bufferId baseOffset : Int) : List Nat → Option Bool
  | [] => some true
  | i :: rest =>
      match blk.getDefiningOp (operands.getD i 0) with
      | none => none
      | some defOp =>
          let bufferOffset := wrapInt32 (baseOffset + opndOffsets.getD i 0)
          let bufferInfo := m.getBufferInfo defOp
          if bufferInfo.isValid &&
              (bufferInfo.m_bufferId != bufferId || bufferInfo.m_offset != bufferOffset) then
            some false
          else matchLoop blk m operands opndOffsets bufferId baseOffset rest

/-- The loop of lines 338-344: `false` is the `return`. -/
def unassignedLoop (blk : Block) (m : MemoryAnalysis) : List Value → Bool
  | [] => true
  | opnd :: rest =>
      if (m.getBufferInfoOf (blk.getDefiningOp opnd)).isValid then false
      else unassignedLoop blk m rest

/-- The loop of lines 356-362, over the operand positions still to visit.  The
offset written is the sum of two `int`. -/
def commitLoop (blk : Block) (operands : List Value) (opndOffsets : List Int)
    (bufferId baseOffset : Int) : List Nat → MemoryAnalysis → Option MemoryAnalysis
  | [], m => some m
  | i :: rest, m =>
      match blk.getDefiningOp (operands.getD i 0) with
      | none => none
      | some defOp =>
          commitLoop blk operands opndOffsets bufferId baseOffset rest
            (m.setBufferInfo defOp
              { m_bufferId := bufferId
                m_offset := wrapInt32 (baseOffset + opndOffsets.getD i 0) })

/-- Lines 346-362 of `processConcat`: take a new buffer id if none was found and
write the assignment of the destination and of the operands. -/
def commitConcat (blk : Block) (s : MemoryAssignment) (op : Nat) (operands : List Value)
    (opndOffsets : List Int) (bufferId baseOffset : Int) : Option MemoryAssignment :=
  let fresh := bufferId == -1
  let bufferId1 := if fresh then s.m_bufferId else bufferId
  let baseOffset1 := if fresh then 0 else baseOffset
  let counter := if fresh then s.m_bufferId + 1 else s.m_bufferId
  let m1 := s.m_memAnalysis.setBufferInfo op { m_bufferId := bufferId1, m_offset := baseOffset1 }
  match commitLoop blk operands opndOffsets bufferId1 baseOffset1 (List.range operands.length) m1 with
  | none => none
  | some m2 => some { s with m_bufferId := counter, m_memAnalysis := m2 }

/-- The method `processConcat` (lines 213-364) on the operation at position `op`.
A silent `return` gives the state back unchanged; `none` is a failed check. -/
def processConcat (blk : Block) (s : MemoryAssignment) (op : Nat) (concat : Operation) :
    Option MemoryAssignment :=
  match concat.results with
  | [] => none
  | result :: _ =>
      if blk.isInputOrOutputValue result then some s
      else if !axisLoop concat.concatAxis (blk.shape result) 0 then some s
      else
        match aliasLoop blk s.m_aliasRelation result concat.operands with
        | none => none
        | some false => some s
        | some true =>
            let opndOffsets := (offsetLoop blk concat.operands).2
            let bufferInfo := s.m_memAnalysis.getBufferInfo op
            if bufferInfo.isValid then
              match matchLoop blk s.m_memAnalysis concat.operands opndOffsets
                  bufferInfo.m_bufferId bufferInfo.m_offset (List.range concat.operands.length) with
              | none => none
              | some false => some s
              | some true =>
                  commitConcat blk s op concat.operands opndOffsets
                    bufferInfo.m_bufferId bufferInfo.m_offset
            else if !unassignedLoop blk s.m_memAnalysis concat.operands then some s
            else commitConcat blk s op concat.operands opndOffsets (-1) 0

/-- The operand loop of `processDestructiveInPlace` (lines 380-394): the pair of
`use` and `useCount` after the loop.  The code never assigns `useCount`. -/
def selectLoop (blk : Block) (live : LivenessAnalysis) (operands : List Value) :
    Option Value × Int :=
  operands.foldl
    (fun st opnd =>
      if !live.isLive opnd && !blk.isInputOrOutputValue opnd then
        let uses := blk.countUses opnd
        if st.2 == -1 || uses < st.2 then (some opnd, st.2) else st
      else st)
    (none, -1)

/-- Lines 400-414 of `processDestructiveInPlace`: the assignment of the
destination `op` and of the defining operation of `use`. -/
def assignInPlace (blk : Block) (s : MemoryAssignment) (op : Nat) (use : Value) :
    MemoryAssignment :=
  let bufferInfo := s.m_memAnalysis.getBufferInfo op
  if !bufferInfo.isValid then
    let m1 := s.m_memAnalysis.setBufferInfo op { m_bufferId := s.m_bufferId, m_offset := 0 }
    let m2 := m1.setBufferInfoOf (blk.getDefiningOp use) { m_bufferId := s.m_bufferId, m_offset := 0 }
    { s with m_memAnalysis := m2, m_bufferId := s.m_bufferId + 1 }
  else
    { s with m_memAnalysis := s.m_memAnalysis.setBufferInfoOf (blk.getDefiningOp use) bufferInfo }

/-- Lines 416-423 of `processDestructiveInPlace`: `use` cannot alias a live value. -/
def noAliasLive (s : MemoryAssignment) (use : Value) : MemoryAssignment :=
  { s with
    m_aliasRelation :=
      s.m_liveness.getLiveValues.foldl (fun rel value => rel.insertNoAlias use value)
        s.m_aliasRelation }

/-- The method `processDestructiveInPlace` (lines 366-424) on the operation at
position `op`.  A silent `return` gives the state back unchanged; `none` is the
failed `NGRAPH_CHECK`. -/
def processDestructiveInPlace (blk : Block) (s : MemoryAssignment) (op : Nat)
    (operation : Operation) : Option MemoryAssignment :=
  match operation.results with
  | [result] =>
      if blk.isInputOrOutputValue result then some s
      else
        match (selectLoop blk s.m_liveness operation.operands).1 with
        | none => some s
        | some use => some (noAliasLive (assignInPlace blk s op use) use)
  | _ => none

/-- Lines 186-199 of `run`: the reuse attempt for the operation at position `i`. -/
def dispatch (sw : Switches) (blk : Block) (s : MemoryAssignment) (i : Nat) (op : Operation) :
    Option MemoryAssignment :=
  if s.isSafeInPlace op then
    if op.isConcat then
      if sw.clEnableNgInPlaceConcat then processConcat blk s i op else some s
    else
      if sw.clEnableNgInPlaceEltWise then processDestructiveInPlace blk s i op else some s
  else some s

/-- The body of the backward loop of `run` (lines 184-209) for the operation at
position `i`: the reuse attempt, then the liveness update. -/
def visit (sw : Switches) (blk : Block) (s : MemoryAssignment) (i : Nat) (op : Operation) :
    Option MemoryAssignment :=
  match dispatch sw blk s i op with
  | none => none
  | some s1 =>
      match (s1.m_liveness.killAll op.results).setLiveAll op.operands with
      | none => none
      | some live => some { s1 with m_liveness := live }

/-- The backward loop of `run` over the operations still to visit, last first. -/
def sweep (sw : Switches) (blk : Block) : List (Nat × Operation) → MemoryAssignment →
    Option MemoryAssignment
  | [], s => some s
  | (i, op) :: rest, s => (visit sw blk s i op).bind (sweep sw blk rest)

/-- The state of the pass when the loop of `run` has processed the operations at
positions `p` and above. -/
def sweepFrom (sw : Switches) (blk : Block) (p : Nat) (s : MemoryAssignment) :
    Option MemoryAssignment :=
  sweep sw blk ((blk.ops.enum.drop p).reverse) s

/-- The method `run` (lines 158-211).  A module without function makes the code
read the last element of an empty vector; that is `none`. -/
def run (sw : Switches) (module : ModuleOp) (s : MemoryAssignment) : Option MemoryAssignment :=
  if !sw.clEnableNgInPlaceMemory then some s
  else if module.length > 1 then some s
  else
    match module.getLast? with
    | none => none
    | some f =>
        match f with
        | [blk] => sweepFrom sw blk 0 s
        | _ => some s

end MemoryAssignment

/-- The constructor of `MemoryAnalysis` (lines 637-643): run the pass on a new
`MemoryAssignment` and keep the map. -/
def memoryAnalysis (sw : Switches) (inplaceOps : List (String × Bool)) (module : ModuleOp) :
    Option MemoryAnalysis :=
  ((MemoryAssignment.init inplaceOps).run sw module).map (fun s => s.m_memAnalysis)

/-! ## Invariants of the alias relation -/

/-- Append `c` zero entries to row `i`. -/
def Matrix.pushCols (m : Matrix) (i c : Nat) : Matrix :=
  m.set i (m.getD i [] ++ List.replicate c 0)

/-- A matrix with `n` rows of `n` entries. -/
def Square (n : Nat) (m : Matrix) : Prop := m.length = n ∧ ∀ row ∈ m, row.length = n

/-- Every entry is 0 or 1. -/
def Matrix.Binary (m : Matrix) : Prop := ∀ i j, m.at i j = 0 ∨ m.at i j = 1

/-- The matrix equals its transpose. -/
def Matrix.Symmetric (m : Matrix) : Prop := ∀ i j, m.at i j = m.at j i

/-- The relation is transitive through every middle index below `K`. -/
def Matrix.TransitiveBelow (K : Nat) (m : Matrix) : Prop :=
  ∀ l i j, l < K → m.at i l ≠ 0 → m.at l j ≠ 0 → m.at i j ≠ 0

/-- The shape invariant of the alias relation: a square 0/1 symmetric matrix
over the indices given out so far. -/
structure AliasRelation.WF (r : AliasRelation) : Prop where
  square : Square r.m_maxIdx r.m_reachability
  idx_lt : ∀ v i, r.m_valueToIdx.lookup v = some i → i < r.m_maxIdx
  binary : r.m_reachability.Binary
  symmetric : r.m_reachability.Symmetric

/-- The relation is transitive. -/
def Matrix.Transitive (m : Matrix) : Prop :=
  ∀ i j k, m.at i k ≠ 0 → m.at k j ≠ 0 → m.at i j ≠ 0

/-- The invariant between two calls: well formed, transitively closed, flag clear. -/
structure AliasRelation.Closed (r : AliasRelation) : Prop where
  wf : r.WF
  transitive : r.m_reachability.Transitive
  flag : r.m_needsTransitiveClosure = false

/-! ## Invariants of the liveness tracker -/

/-- The shape invariant of the liveness tracker. -/
structure LivenessAnalysis.WF (l : LivenessAnalysis) : Prop where
  size : l.m_liveness.length = l.m_maxIdx
  idx_lt : ∀ v i, l.m_valueToIdx.lookup v = some i → i < l.m_maxIdx
  inj : ∀ v w i, l.m_valueToIdx.lookup v = some i → l.m_valueToIdx.lookup w = some i → v = w
  keys : (l.m_valueToIdx.map Prod.fst).Nodup


/-! ## Notions for the concat reuse -/

/-- The sum of the element counts of the first `i` operands. -/
def Block.prefixCount (blk : Block) (operands : List Value) (i : Nat) : Int :=
  ((operands.take i).map blk.numElements).sum

/-- Every operand position has a defining operation. -/
def MemoryAssignment.OperandsDefined (blk : Block) (operands : List Value) : Prop :=
  ∀ i, i < operands.length → ∃ d, blk.getDefiningOp (operands.getD i 0) = some d

/-- The conditions under which `processConcat` reaches its commit. -/
structure MemoryAssignment.ConcatAccepted (blk : Block) (s : MemoryAssignment) (op : Nat) (concat : Operation)
    (result : Value) : Prop where
  result_eq : concat.results.head? = some result
  not_boundary : blk.isInputOrOutputValue result = false
  axis_ok : MemoryAssignment.axisLoop concat.concatAxis (blk.shape result) 0 = true
  alias_ok : MemoryAssignment.aliasLoop blk s.m_aliasRelation result concat.operands = some true
  consistent :
    if (s.m_memAnalysis.getBufferInfo op).isValid then
      MemoryAssignment.matchLoop blk s.m_memAnalysis concat.operands (MemoryAssignment.offsetLoop blk concat.operands).2
        (s.m_memAnalysis.getBufferInfo op).m_bufferId (s.m_memAnalysis.getBufferInfo op).m_offset
        (List.range concat.operands.length) = some true
    else MemoryAssignment.unassignedLoop blk s.m_memAnalysis concat.operands = true


/-! ## Notions for the backward loop -/

/-- Every operation the table marks as in-place has exactly one result: the
condition `processDestructiveInPlace` checks, and the arity of a concat. -/
def Block.ResultsChecked (tbl : List (String × Bool)) (blk : Block) : Prop :=
  ∀ op ∈ blk.ops, tbl.lookup op.name = some true → op.results.length = 1

/-- The invariant of the backward loop of `run`. -/
structure MemoryAssignment.Inv (tbl : List (String × Bool)) (s : MemoryAssignment) : Prop where
  live : s.m_liveness.WF
  rel : s.m_aliasRelation.Closed
  table : s.m_inplaceOps = tbl

/-- Some operation at position `p` or later has `v` as an operand. -/
def Block.usedFrom (blk : Block) (p : Nat) (v : Value) : Bool :=
  (blk.ops.drop p).any (fun op => op.operands.contains v)

/-- Some operation at position `p` or later has `v` as a result. -/
def Block.definedFrom (blk : Block) (p : Nat) (v : Value) : Bool :=
  (blk.ops.drop p).any (fun op => op.results.contains v)

/-- The full-scan oracle in the words of the specification: some instruction
strictly after position `p` uses `v`, and `v` is not defined at `p` or later. -/
def Block.specLive (blk : Block) (p : Nat) (v : Value) : Bool :=
  blk.usedFrom (p + 1) v && !blk.definedFrom p v

/-- The full-scan oracle with the instruction at `p` counted among the users:
some instruction at position `p` or later uses `v`, and `v` is not defined at
`p` or later. -/
def Block.scanLive (blk : Block) (p : Nat) (v : Value) : Bool :=
  blk.usedFrom p v && !blk.definedFrom p v

/-- A well-formed straight-line region: every value is defined once, and before
its uses. -/
structure Block.WellFormed (blk : Block) : Prop where
  single_def : ∀ (d1 d2 : Nat) (op1 op2 : Operation) (v : Value), blk.ops[d1]? = some op1 → blk.ops[d2]? = some op2 →
    v ∈ op1.results → v ∈ op2.results → d1 = d2
  def_before_use : ∀ (d u : Nat) (opd opu : Operation) (v : Value), blk.ops[d]? = some opd → blk.ops[u]? = some opu →
    v ∈ opd.results → v ∈ opu.operands → d < u


/-! ## Checking a region -/

/-- A decision procedure for `Block.WellFormed`. -/
def Block.wfCheck (blk : Block) : Bool :=
  blk.ops.enum.all fun a => blk.ops.enum.all fun b =>
    a.2.results.all fun v =>
      (!b.2.results.contains v || a.1 == b.1) && (!b.2.operands.contains v || decide (a.1 < b.1))


/-! ## Program points -/

/-- The concat passes the boundary, axis and alias checks of `processConcat`
(lines 225-251). -/
structure MemoryAssignment.ConcatChecked (blk : Block) (s : MemoryAssignment)
    (concat : Operation) (result : Value) : Prop where
  result_eq : concat.results.head? = some result
  not_boundary : blk.isInputOrOutputValue result = false
  axis_ok : MemoryAssignment.axisLoop concat.concatAxis (blk.shape result) 0 = true
  alias_ok : MemoryAssignment.aliasLoop blk s.m_aliasRelation result concat.operands = some true

/-! ## Sequences of calls on the liveness tracker -/

/-- A call of one of the mutating methods of `LivenessAnalysis`. -/
inductive LivenessAnalysis.Call where
  | reset
  | setLive (v : Value)
  | kill (v : Value)
deriving DecidableEq, Repr

/-- The tracker after one call; `none` is the failed `NGRAPH_CHECK` of `setLive`. -/
def LivenessAnalysis.call (l : LivenessAnalysis) : LivenessAnalysis.Call → Option LivenessAnalysis
  | .reset => some l.reset
  | .setLive v => l.setLive v
  | .kill v => some (l.kill v)

/-- The tracker after a sequence of calls, first call first. -/
def LivenessAnalysis.afterCalls : List LivenessAnalysis.Call → LivenessAnalysis →
    Option LivenessAnalysis
  | [], l => some l
  | c :: cs, l => (l.call c).bind (LivenessAnalysis.afterCalls cs)

/-! ## The output handle of `node_output.hpp` -/

/-- The handle `Output` of `node_output.hpp`: the address of the node and the
index of the output. -/
structure Output where
  m_node : Nat
  m_index : Nat
deriving DecidableEq, Repr

namespace Output

/-- The operator `==` (lines 87-90). -/
def eq (a other : Output) : Bool :=
  a.m_node == other.m_node && a.m_index == other.m_index

/-- The operator `!=` (lines 91-94). -/
def ne (a other : Output) : Bool :=
  a.m_node != other.m_node || a.m_index != other.m_index

/-- The operator `<` (lines 95-98). -/
def lt (a other : Output) : Bool :=
  decide (a.m_node < other.m_node) ||
    (a.m_node == other.m_node && decide (a.m_index < other.m_index))

/-- The operator `>` (lines 99-102). -/
def gt (a other : Output) : Bool :=
  decide (a.m_node > other.m_node) ||
    (a.m_node == other.m_node && decide (a.m_index > other.m_index))

/-- The operator `<=` (lines 103-106). -/
def le (a other : Output) : Bool :=
  decide (a.m_node ≤ other.m_node) ||
    (a.m_node == other.m_node && decide (a.m_index ≤ other.m_index))

/-- The operator `>=` (lines 107-110). -/
def ge (a other : Output) : Bool :=
  decide (a.m_node ≥ other.m_node) ||
    (a.m_node == other.m_node && decide (a.m_index ≥ other.m_index))

/-- The lexicographic order on the pair of node address and output index, in the
words of the specification. -/
def lexLt (a b : Output) : Prop :=
  a.m_node < b.m_node ∨ (a.m_node = b.m_node ∧ a.m_index < b.m_index)

end Output

/-! ## What the calls of `insertNoAlias` imply -/

/-- The value `v` has been an argument of one of the calls. -/
def AliasRelation.Seen (calls : List (Value × Value)) (v : Value) : Prop :=
  ∃ c ∈ calls, c.1 = v ∨ c.2 = v

/-- The values `a` and `b` lie in the same connected component of the undirected
graph of the inserted pairs. -/
def AliasRelation.Connected (calls : List (Value × Value)) (a b : Value) : Prop :=
  Relation.EqvGen (fun x y => (x, y) ∈ calls) a b

/-- The number of values among `a` and `b` that have no index yet. -/
def AliasRelation.unseenCount (r : AliasRelation) (a b : Value) : Nat :=
  (if r.m_valueToIdx.lookup a = none then 1 else 0) +
    (if r.m_valueToIdx.lookup b = none ∧ b ≠ a then 1 else 0)

/-- The index map gives out the indices below `n`, each to one value. -/
structure IndexMap (map : List (Value × Nat)) (n : Nat) : Prop where
  idx_lt : ∀ v i, map.lookup v = some i → i < n
  inj : ∀ v w i, map.lookup v = some i → map.lookup w = some i → v = w
  onto : ∀ i, i < n → ∃ v, map.lookup v = some i

/-- The relation holds what the calls imply, and nothing else. -/
structure AliasRelation.Exact (calls : List (Value × Value)) (r : AliasRelation) : Prop where
  closed : r.Closed
  index : IndexMap r.m_valueToIdx r.m_maxIdx
  known : ∀ v, (∃ i, r.m_valueToIdx.lookup v = some i) ↔ AliasRelation.Seen calls v
  sound : ∀ a b ai bi, r.m_valueToIdx.lookup a = some ai → r.m_valueToIdx.lookup b = some bi →
    r.m_reachability.at ai bi ≠ 0 → AliasRelation.Connected calls a b
  edges : ∀ c ∈ calls, ∃ ai bi, r.m_valueToIdx.lookup c.1 = some ai ∧
    r.m_valueToIdx.lookup c.2 = some bi ∧ r.m_reachability.at ai bi ≠ 0
  diag : ∀ v i, r.m_valueToIdx.lookup v = some i → r.m_reachability.at i i ≠ 0

/-! ## The range of the assignments -/

/-- The range invariant of the assignments: the counter is not negative, and
every valid `BufferInfo` has an id from 0 up to the counter, the counter excluded,
and an offset that is not negative. -/
structure MemoryAssignment.RangeInv (s : MemoryAssignment) : Prop where
  counter : 0 ≤ s.m_bufferId
  range : ∀ o, (s.m_memAnalysis.getBufferInfo o).isValid = true →
    0 ≤ (s.m_memAnalysis.getBufferInfo o).m_bufferId ∧
    (s.m_memAnalysis.getBufferInfo o).m_bufferId < s.m_bufferId ∧
    0 ≤ (s.m_memAnalysis.getBufferInfo o).m_offset

/-- The element counts of the operands of the operation, if it is a concat: what
its offset loop adds up. -/
def Block.concatCount (blk : Block) (op : Operation) : Int :=
  if op.isConcat then (op.operands.map blk.numElements).sum else 0

/-- The element counts that the offset loops of the concat operations at position
`q` and later add up. -/
def Block.concatElements (blk : Block) (q : Nat) : Int :=
  ((blk.ops.drop q).map blk.concatCount).sum

/-- Every valid `BufferInfo` has an offset of at most `B`. -/
def MemoryAssignment.OffsetsBelow (B : Int) (s : MemoryAssignment) : Prop :=
  ∀ o, (s.m_memAnalysis.getBufferInfo o).isValid = true →
    (s.m_memAnalysis.getBufferInfo o).m_offset ≤ B

/-- No offset overflows: in every state the backward loop of `run` reaches, for a
concat the pass accepts there, the sum of the base offset (the offset of the
destination if it has a valid `BufferInfo`, 0 otherwise) and the element counts
of the operands before each operand is a value of the type `int`. -/
def MemoryAssignment.NoOverflow (sw : Switches) (blk : Block) (tbl : List (String × Bool)) : Prop :=
  ∀ q op t result, blk.ops[q]? = some op →
    MemoryAssignment.sweepFrom sw blk (q + 1) (MemoryAssignment.init tbl) = some t →
    op.isConcat = true → MemoryAssignment.ConcatAccepted blk t q op result →
    ∀ j, j < op.operands.length →
      InInt32 ((if (t.m_memAnalysis.getBufferInfo q).isValid
        then (t.m_memAnalysis.getBufferInfo q).m_offset else 0) + blk.prefixCount op.operands j)

/-- The range invariant of the buffer ids: the counter is not negative, and every
valid `BufferInfo` has an id from 0 up to the counter, the counter excluded. -/
structure MemoryAssignment.IdInv (s : MemoryAssignment) : Prop where
  counter : 0 ≤ s.m_bufferId
  range : ∀ o, (s.m_memAnalysis.getBufferInfo o).isValid = true →
    0 ≤ (s.m_memAnalysis.getBufferInfo o).m_bufferId ∧
    (s.m_memAnalysis.getBufferInfo o).m_bufferId < s.m_bufferId

/-! ## Example regions -/

/-- The table of the examples. -/
def exampleTable : List (String × Bool) :=
  [("ng.relu", true), ("ng.add", true), ("ng.concat", true)]

/-- An operation that is neither a concat nor a return. -/
def plainOp (name : String) (operands results : List Value) : Operation :=
  { name := name, operands := operands, results := results, isConcat := false,
    isReturn := false, concatAxis := 0 }

/-- A return. -/
def returnOp (operands : List Value) : Operation :=
  { name := "ng.return", operands := operands, results := [], isConcat := false,
    isReturn := true, concatAxis := 0 }

/-- A concat. -/
def concatOp (axis : Nat) (operands : List Value) (result : Value) : Operation :=
  { name := "ng.concat", operands := operands, results := [result], isConcat := true,
    isReturn := false, concatAxis := axis }

/-- All three switches on. -/
def allOn : Switches :=
  { clEnableNgInPlaceMemory := true, clEnableNgInPlaceConcat := true,
    clEnableNgInPlaceEltWise := true }

/-- The region `v0 = param; v1 = relu v0; v2 = relu v1; v3 = relu v2; return v3`. -/
def chainBlock : Block :=
  { ops := [plainOp "ng.param" [] [0], plainOp "ng.relu" [0] [1], plainOp "ng.relu" [1] [2],
      plainOp "ng.relu" [2] [3], returnOp [3]]
    shape := fun _ => [4]
    numElements := fun _ => 4 }


/-- The master switch and the concat switch on, the elementwise switch off. -/
def concatOnly : Switches :=
  { clEnableNgInPlaceMemory := true, clEnableNgInPlaceConcat := true,
    clEnableNgInPlaceEltWise := false }

/-- The master switch and the elementwise switch on, the concat switch off. -/
def eltwiseOnly : Switches :=
  { clEnableNgInPlaceMemory := true, clEnableNgInPlaceConcat := false,
    clEnableNgInPlaceEltWise := true }

/-- The region `v0 = param; v1 = param; v2 = relu v1; v3 = add v0 v1; v4 = relu v3;
return v4 v2`: at the `add` both operands are dead, `v0` has one use and `v1` two. -/
def pickBlock : Block :=
  { ops := [plainOp "ng.param" [] [0], plainOp "ng.param" [] [1], plainOp "ng.relu" [1] [2],
      plainOp "ng.add" [0, 1] [3], plainOp "ng.relu" [3] [4], returnOp [4, 2]]
    shape := fun _ => [4]
    numElements := fun _ => 4 }

/-- The region `v0 = param; v1 = concat(v0) along axis 1; v2 = relu v1; return v2`
with the shape `[1, 1, 4]` for every value. -/
def unitAxisBlock : Block :=
  { ops := [plainOp "ng.param" [] [0], concatOp 1 [0] 1, plainOp "ng.relu" [1] [2],
      returnOp [2]]
    shape := fun _ => [1, 1, 4]
    numElements := fun _ => 4 }

/-- The region `v0 = param; v1 = param; v2 = concat(v0, v1) along axis 1;
v3 = relu v2; v4 = relu v3; return v4`; the operands have the shape `[2, 3]` and
the other values the shape `[2, 6]`. -/
def reusedConcatBlock : Block :=
  { ops := [plainOp "ng.param" [] [0], plainOp "ng.param" [] [1], concatOp 1 [0, 1] 2,
      plainOp "ng.relu" [2] [3], plainOp "ng.relu" [3] [4], returnOp [4]]
    shape := fun v => if v < 2 then [2, 3] else [2, 6]
    numElements := fun v => if v < 2 then 6 else 12 }

/-- The region `v0 = param; v1 = param; v2 = param; v3 = concat(v0, v1, v2) along
axis 1; v4 = relu v3; return v4`; the operands have 2, 3 and 4 elements. -/
def concatBlock : Block :=
  { ops := [plainOp "ng.param" [] [0], plainOp "ng.param" [] [1], plainOp "ng.param" [] [2],
      concatOp 1 [0, 1, 2] 3, plainOp "ng.relu" [3] [4], returnOp [4]]
    shape := fun v => if v = 0 then [1, 2] else if v = 1 then [1, 3] else if v = 2 then [1, 4]
      else [1, 9]
    numElements := fun v => if v = 0 then 2 else if v = 1 then 3 else if v = 2 then 4 else 9 }

/-- The most-significant axis with extent greater than one, in the words of the
specification. -/
def mostSignificantNonUnitAxis (shape : List Int) : Option Nat :=
  shape.findIdx? (fun d => decide (1 < d))

/-- The state of the pass on `chainBlock`, all switches on, when the loop of `run`
has visited the return and `v3 = relu v2`: only `v2` is live. -/
def chainState : MemoryAssignment :=
  { m_liveness := { m_maxIdx := 2, m_liveness := [false, true], m_valueToIdx := [(2, 1), (3, 0)] }
    m_aliasRelation := AliasRelation.empty
    m_inplaceOps := exampleTable
    m_bufferId := 0
    m_memAnalysis := [] }

/-- The region `v0 = param; v1 = relu v0; v2 = relu v1; v3 = relu v2; v4 = relu v3;
return v4`. -/
def longChainBlock : Block :=
  { ops := [plainOp "ng.param" [] [0], plainOp "ng.relu" [0] [1], plainOp "ng.relu" [1] [2],
      plainOp "ng.relu" [2] [3], plainOp "ng.relu" [3] [4], returnOp [4]]
    shape := fun _ => [4]
    numElements := fun _ => 4 }

/-- The region `v0 = param; v1 = concat(v0, v0) along axis 0; v2 = relu v1;
return v2`: the concat has the same operand twice; `v0` has 4 elements. -/
def selfConcatBlock : Block :=
  { ops := [plainOp "ng.param" [] [0], concatOp 0 [0, 0] 1, plainOp "ng.relu" [1] [2],
      returnOp [2]]
    shape := fun v => if v = 0 then [4] else [8]
    numElements := fun v => if v = 0 then 4 else 8 }

/-- The region `(v0, v1) = split; v2 = relu v1; v3 = relu v2; return v0 v3`: the
first operation defines two values, one of them an output. -/
def twoResultBlock : Block :=
  { ops := [plainOp "ng.split" [] [0, 1], plainOp "ng.relu" [1] [2], plainOp "ng.relu" [2] [3],
      returnOp [0, 3]]
    shape := fun _ => [4]
    numElements := fun _ => 4 }

/-- The region of the elementwise scenario: `v1 = relu v0; v2 = relu v1;
v3 = relu v2; return v3`, where `v0` is a region input. -/
def inputChainBlock : Block :=
  { ops := [plainOp "ng.relu" [0] [1], plainOp "ng.relu" [1] [2], plainOp "ng.relu" [2] [3],
      returnOp [3]]
    shape := fun _ => [4]
    numElements := fun _ => 4 }

/-- The region `v0 = param; v1 = param; v2 = param; v3 = param;
v4 = concat(v0, v1, v2) along axis 1; v5 = relu v3; v6 = add v4 v0 v5; return v6`:
the result and the first operand of the concat are live across `v5 = relu v3`. -/
def crossingBlock : Block :=
  { ops := [plainOp "ng.param" [] [0], plainOp "ng.param" [] [1], plainOp "ng.param" [] [2],
      plainOp "ng.param" [] [3], concatOp 1 [0, 1, 2] 4, plainOp "ng.relu" [3] [5],
      plainOp "ng.add" [4, 0, 5] [6], returnOp [6]]
    shape := fun v => if v = 0 then [1, 2] else if v = 1 then [1, 3] else if v = 2 then [1, 4]
      else [1, 9]
    numElements := fun v => if v = 0 then 2 else if v = 1 then 3 else if v = 2 then 4 else 9 }

/-- The region of the elementwise scenario with arbitrary operations and values:
`v1 = a v0; v2 = b v1; v3 = c v2; return v3`. -/
def unaryChain (a b c : String) (v0 v1 v2 v3 : Value) (shape : Value → List Int)
    (numElements : Value → Int) : Block :=
  { ops := [plainOp a [v0] [v1], plainOp b [v1] [v2], plainOp c [v2] [v3], returnOp [v3]]
    shape := shape
    numElements := numElements }

/-- The region `v0 = param; (v1, v2) = relu v0; v3 = add v1 v2; v4 = relu v3;
return v4`: the operation at position 1 is in the in-place table and has two
results. -/
def multiDefBlock : Block :=
  { ops := [plainOp "ng.param" [] [0], plainOp "ng.relu" [0] [1, 2], plainOp "ng.add" [1, 2] [3],
      plainOp "ng.relu" [3] [4], returnOp [4]]
    shape := fun _ => [4]
    numElements := fun _ => 4 }

/-- The region `v0 = param; v1 = param; v2 = concat(v0, v1) along axis 0;
v3 = relu v2; return v3`; each operand has 3000000000 elements. -/
def hugeConcatBlock : Block :=
  { ops := [plainOp "ng.param" [] [0], plainOp "ng.param" [] [1], concatOp 0 [0, 1] 2,
      plainOp "ng.relu" [2] [3], returnOp [3]]
    shape := fun v => if v < 2 then [3000000000] else [6000000000]
    numElements := fun v => if v < 2 then 3000000000 else 6000000000 }

/-- The region `v0 = param; v1 = param; v2 = param; v3 = concat(v0, v1, v2) along
axis 0; v4 = relu v3; return v4`; each operand has 3000000000 elements. -/
def hugeTripleBlock : Block :=
  { ops := [plainOp "ng.param" [] [0], plainOp "ng.param" [] [1], plainOp "ng.param" [] [2],
      concatOp 0 [0, 1, 2] 3, plainOp "ng.relu" [3] [4], returnOp [4]]
    shape := fun v => if v < 3 then [3000000000] else [9000000000]
    numElements := fun v => if v < 3 then 3000000000 else 9000000000 }

/-! ## Loops and matrices -/

theorem forLoop_zero {σ : Type} (body : Nat → σ → σ) (s : σ) : forLoop 0 body s = s := rfl

theorem forLoop_succ {σ : Type} (n : Nat) (body : Nat → σ → σ) (s : σ) :
    forLoop (n + 1) body s = body n (forLoop n body s) := by
  simp [forLoop, List.range_succ, List.foldl_append]

theorem getD_set_eq {α : Type} (l : List α) (i j : Nat) (v d : α) :
    (l.set i v).getD j d = if i = j ∧ i < l.length then v else l.getD j d := by
  simp only [List.getD_eq_getElem?_getD, List.getElem?_set]
  by_cases h : i = j
  · subst h
    by_cases h2 : i < l.length
    · simp [h2]
    · simp [h2]
      simp [List.getElem?_eq_none (Nat.le_of_not_lt h2)]
  · simp [h]

theorem Square.row_length {n : Nat} {m : Matrix} (h : Square n m) {i : Nat} (hi : i < n) :
    (m.getD i []).length = n := by
  apply h.2
  rw [List.getD_eq_getElem?_getD, List.getElem?_eq_getElem (by rw [h.1]; exact hi)]
  simp

theorem Square.put {n : Nat} {m : Matrix} (h : Square n m) (i j : Nat) (v : Int) :
    Square n (m.put i j v) := by
  by_cases hi : i < n
  · refine ⟨by simp [Matrix.put, h.1], ?_⟩
    intro row hrow
    simp only [Matrix.put] at hrow
    rcases List.mem_or_eq_of_mem_set hrow with hm | he
    · exact h.2 row hm
    · subst he
      rw [List.length_set]
      exact h.row_length hi
  · have hsame : m.put i j v = m := by
      unfold Matrix.put
      exact List.set_eq_of_length_le (by rw [h.1]; omega)
    rw [hsame]
    exact h

theorem Matrix.at_put {n : Nat} {m : Matrix} (h : Square n m) {i j : Nat} (hi : i < n)
    (hj : j < n) (v : Int) (i2 j2 : Nat) :
    (m.put i j v).at i2 j2 = if i2 = i ∧ j2 = j then v else m.at i2 j2 := by
  unfold Matrix.at Matrix.put
  rw [getD_set_eq]
  by_cases h1 : i = i2
  · subst h1
    simp only [true_and, h.1, hi, if_true]
    rw [getD_set_eq, h.row_length hi]
    by_cases h2 : j = j2
    · subst h2; simp [hj]
    · simp [h2, Ne.symm h2]
  · simp [h1, Ne.symm h1]

namespace AliasRelation

theorem relax_square {n : Nat} {m : Matrix} (h : Square n m) (k i j : Nat) :
    Square n (relax k i j m) := by
  unfold relax
  split
  · exact h.put i j 1
  · exact h

theorem relax_at {n : Nat} {m : Matrix} (h : Square n m) (k : Nat) {i j : Nat} (hi : i < n)
    (hj : j < n) (i2 j2 : Nat) :
    (relax k i j m).at i2 j2 =
      if i2 = i ∧ j2 = j ∧ m.at i k ≠ 0 ∧ m.at k j ≠ 0 then 1 else m.at i2 j2 := by
  unfold relax
  by_cases hc : m.at i k ≠ 0 ∧ m.at k j ≠ 0
  · rw [if_pos hc, Matrix.at_put h hi hj]
    by_cases h1 : i2 = i ∧ j2 = j
    · rw [if_pos h1, if_pos ⟨h1.1, h1.2, hc⟩]
    · rw [if_neg h1, if_neg (fun hx => h1 ⟨hx.1, hx.2.1⟩)]
  · rw [if_neg hc, if_neg (fun hx => hc hx.2.2)]

/-- The `j` loop for a row `i`, after its first `J` rounds. -/
theorem rowLoop_spec {n : Nat} {m : Matrix} (h : Square n m) (k : Nat) {i : Nat} (hi : i < n)
    (J : Nat) (hJ : J ≤ n) :
    Square n (forLoop J (fun j mj => relax k i j mj) m) ∧
    ∀ i2 j2, (forLoop J (fun j mj => relax k i j mj) m).at i2 j2 =
      if i2 = i ∧ j2 < J ∧ m.at i k ≠ 0 ∧ m.at k j2 ≠ 0 then 1 else m.at i2 j2 := by
  induction J with
  | zero => exact ⟨h, fun i2 j2 => by simp [forLoop_zero]⟩
  | succ J ih =>
      obtain ⟨hsq, hat⟩ := ih (Nat.le_of_succ_le hJ)
      have hJn : J < n := hJ
      rw [forLoop_succ]
      refine ⟨relax_square hsq k i J, fun i2 j2 => ?_⟩
      have t1 : (forLoop J (fun j mj => relax k i j mj) m).at i k ≠ 0 ↔ m.at i k ≠ 0 := by
        rw [hat i k]
        by_cases e : m.at i k = 0
        · simp [e]
        · simp only [ne_eq, e, not_false_eq_true, iff_true]
          split <;> simp [e]
      have t2 : (forLoop J (fun j mj => relax k i j mj) m).at k J = m.at k J := by
        rw [hat k J]
        simp
      rw [relax_at hsq k hi hJn]
      simp only [t1, t2, hat i2 j2]
      by_cases e1 : i2 = i ∧ m.at i k ≠ 0
      · obtain ⟨e1a, e1b⟩ := e1
        by_cases e2 : j2 = J
        · subst e2
          by_cases e5 : m.at k j2 = 0
          · simp [e5]
          · simp [e1a, e1b, e5]
        · have e3 : j2 < J + 1 ↔ j2 < J := by omega
          simp [e2, e3]
      · have n1 : ¬ (i2 = i ∧ j2 = J ∧ m.at i k ≠ 0 ∧ m.at k J ≠ 0) := fun hx => e1 ⟨hx.1, hx.2.2.1⟩
        have n2 : ¬ (i2 = i ∧ j2 < J ∧ m.at i k ≠ 0 ∧ m.at k j2 ≠ 0) := fun hx => e1 ⟨hx.1, hx.2.2.1⟩
        have n3 : ¬ (i2 = i ∧ j2 < J + 1 ∧ m.at i k ≠ 0 ∧ m.at k j2 ≠ 0) :=
          fun hx => e1 ⟨hx.1, hx.2.2.1⟩
        rw [if_neg n1, if_neg n2, if_neg n3]

/-- The `i` loop for a pivot `k`, after its first `I` rounds. -/
theorem colLoop_spec {n : Nat} {m : Matrix} (h : Square n m) (k : Nat) (I : Nat) (hI : I ≤ n) :
    Square n (forLoop I (fun i mi => forLoop n (fun j mj => relax k i j mj) mi) m) ∧
    ∀ i2 j2, (forLoop I (fun i mi => forLoop n (fun j mj => relax k i j mj) mi) m).at i2 j2 =
      if i2 < I ∧ j2 < n ∧ m.at i2 k ≠ 0 ∧ m.at k j2 ≠ 0 then 1 else m.at i2 j2 := by
  induction I with
  | zero => exact ⟨h, fun i2 j2 => by simp [forLoop_zero]⟩
  | succ I ih =>
      obtain ⟨hsq, hat⟩ := ih (Nat.le_of_succ_le hI)
      have hIn : I < n := hI
      rw [forLoop_succ]
      obtain ⟨hsq2, hat2⟩ := rowLoop_spec hsq k hIn n (Nat.le_refl n)
      refine ⟨hsq2, fun i2 j2 => ?_⟩
      have t1 : (forLoop I (fun i mi => forLoop n (fun j mj => relax k i j mj) mi) m).at I k
          = m.at I k := by
        rw [hat I k]
        simp
      have t2 : (forLoop I (fun i mi => forLoop n (fun j mj => relax k i j mj) mi) m).at k j2 ≠ 0
          ↔ m.at k j2 ≠ 0 := by
        rw [hat k j2]
        by_cases e : m.at k j2 = 0
        · simp [e]
        · simp only [ne_eq, e, not_false_eq_true, iff_true]
          split <;> simp [e]
      rw [hat2 i2 j2]
      simp only [t1, t2, hat i2 j2]
      by_cases e1 : i2 = I
      · subst e1
        by_cases e2 : j2 < n ∧ m.at i2 k ≠ 0 ∧ m.at k j2 ≠ 0
        · simp [e2]
        · have n1 : ¬ (i2 = i2 ∧ j2 < n ∧ m.at i2 k ≠ 0 ∧ m.at k j2 ≠ 0) := fun hx => e2 hx.2
          have n2 : ¬ (i2 < i2 ∧ j2 < n ∧ m.at i2 k ≠ 0 ∧ m.at k j2 ≠ 0) :=
            fun hx => e2 hx.2
          have n3 : ¬ (i2 < i2 + 1 ∧ j2 < n ∧ m.at i2 k ≠ 0 ∧ m.at k j2 ≠ 0) :=
            fun hx => e2 hx.2
          rw [if_neg n1, if_neg n2, if_neg n3]
      · have e3 : i2 < I + 1 ↔ i2 < I := by omega
        simp [e1, e3]

/-- One pivot of the closure adds exactly the pairs joined through the pivot. -/
theorem closureStep_spec {n : Nat} {m : Matrix} (h : Square n m) (k : Nat) :
    Square n (closureStep n k m) ∧
    ∀ i j, (closureStep n k m).at i j =
      if i < n ∧ j < n ∧ m.at i k ≠ 0 ∧ m.at k j ≠ 0 then 1 else m.at i j :=
  colLoop_spec h k n (Nat.le_refl n)

theorem at_ne_zero_lt {n : Nat} {m : Matrix} (h : Square n m) {i j : Nat}
    (hne : m.at i j ≠ 0) : i < n ∧ j < n := by
  by_cases hi : i < n
  · refine ⟨hi, ?_⟩
    by_contra hj
    apply hne
    unfold Matrix.at
    rw [List.getD_eq_getElem?_getD, List.getElem?_eq_none (by rw [h.row_length hi]; omega)]
    rfl
  · exfalso
    apply hne
    unfold Matrix.at
    rw [List.getD_eq_getElem?_getD (l := m), List.getElem?_eq_none (by rw [h.1]; omega)]
    rfl

theorem closureStep_ne_zero {n : Nat} {m : Matrix} (h : Square n m) (k i j : Nat) :
    (closureStep n k m).at i j ≠ 0 ↔ m.at i j ≠ 0 ∨ (m.at i k ≠ 0 ∧ m.at k j ≠ 0) := by
  rw [(closureStep_spec h k).2 i j]
  by_cases c : m.at i k ≠ 0 ∧ m.at k j ≠ 0
  · have hi := (at_ne_zero_lt h c.1).1
    have hj := (at_ne_zero_lt h c.2).2
    rw [if_pos ⟨hi, hj, c⟩]
    simp [c]
  · rw [if_neg (fun hx => c hx.2.2)]
    simp only [c, or_false]

theorem closureStep_binary {n : Nat} {m : Matrix} (h : Square n m) (k : Nat) (hb : m.Binary) :
    (closureStep n k m).Binary := by
  intro i j
  rw [(closureStep_spec h k).2 i j]
  split
  · exact Or.inr rfl
  · exact hb i j

theorem closureStep_symmetric {n : Nat} {m : Matrix} (h : Square n m) (k : Nat)
    (hs : m.Symmetric) : (closureStep n k m).Symmetric := by
  intro i j
  rw [(closureStep_spec h k).2 i j, (closureStep_spec h k).2 j i, hs i k, hs k j, hs i j]
  by_cases c : i < n ∧ j < n ∧ m.at k i ≠ 0 ∧ m.at j k ≠ 0
  · rw [if_pos c, if_pos ⟨c.2.1, c.1, c.2.2.2, c.2.2.1⟩]
  · rw [if_neg c, if_neg (fun hx => c ⟨hx.2.1, hx.1, hx.2.2.2, hx.2.2.1⟩)]

theorem closureStep_transitiveBelow {n : Nat} {m : Matrix} (h : Square n m) (K : Nat)
    (ht : m.TransitiveBelow K) : (closureStep n K m).TransitiveBelow (K + 1) := by
  intro l i j hl h1 h2
  rw [closureStep_ne_zero h] at h1 h2 ⊢
  by_cases e : l = K
  · subst e
    tauto
  · have hlK : l < K := by omega
    have a1 := ht l i j hlK
    have a2 := ht l i K hlK
    have a3 := ht l K j hlK
    tauto

/-- The `k` loop of the closure after its first `K` rounds. -/
theorem closureLoop_spec {n : Nat} {m : Matrix} (h : Square n m) (K : Nat) :
    Square n (forLoop K (fun k mk => closureStep n k mk) m) ∧
    (forLoop K (fun k mk => closureStep n k mk) m).TransitiveBelow K ∧
    (m.Binary → (forLoop K (fun k mk => closureStep n k mk) m).Binary) ∧
    (m.Symmetric → (forLoop K (fun k mk => closureStep n k mk) m).Symmetric) ∧
    (∀ i j, m.at i j ≠ 0 → (forLoop K (fun k mk => closureStep n k mk) m).at i j ≠ 0) := by
  induction K with
  | zero =>
      refine ⟨h, ?_, fun hb => hb, fun hs => hs, fun i j hne => hne⟩
      intro l i j hl
      omega
  | succ K ih =>
      obtain ⟨hsq, htr, hbin, hsym, hmono⟩ := ih
      rw [forLoop_succ]
      refine ⟨(closureStep_spec hsq K).1, closureStep_transitiveBelow hsq K htr,
        fun hb => closureStep_binary hsq K (hbin hb),
        fun hs => closureStep_symmetric hsq K (hsym hs), fun i j hne => ?_⟩
      rw [closureStep_ne_zero hsq]
      exact Or.inl (hmono i j hne)

theorem getD_replicate_zero (k j : Nat) : (List.replicate k (0 : Int)).getD j 0 = 0 := by
  rw [List.getD_eq_getElem?_getD, List.getElem?_replicate]
  split <;> rfl

theorem Square.of_getD {n : Nat} {m : Matrix} (hlen : m.length = n)
    (hrow : ∀ i, i < n → (m.getD i []).length = n) : Square n m := by
  refine ⟨hlen, fun row hmem => ?_⟩
  obtain ⟨i, hi, he⟩ := List.getElem_of_mem hmem
  have := hrow i (by rw [← hlen]; exact hi)
  rw [List.getD_eq_getElem m [] hi, he] at this
  exact this

theorem at_eq_zero_of_row_ge {n : Nat} {m : Matrix} (h : Square n m) {i : Nat} (hi : n ≤ i)
    (j : Nat) : m.at i j = 0 := by
  by_contra hne
  have := (at_ne_zero_lt h hne).1
  omega

theorem at_eq_zero_of_col_ge {n : Nat} {m : Matrix} (h : Square n m) (i : Nat) {j : Nat}
    (hj : n ≤ j) : m.at i j = 0 := by
  by_contra hne
  have := (at_ne_zero_lt h hne).2
  omega

theorem pushCols_length (m : Matrix) (i c : Nat) : (m.pushCols i c).length = m.length := by
  simp [Matrix.pushCols]

theorem pushCols_getD (m : Matrix) (i c k : Nat) :
    (m.pushCols i c).getD k [] =
      if i = k ∧ i < m.length then m.getD i [] ++ List.replicate c 0 else m.getD k [] := by
  unfold Matrix.pushCols
  exact getD_set_eq m i k _ _

theorem pushBack_eq (m : Matrix) (i : Nat) : m.pushBack i = m.pushCols i 1 := rfl

theorem pushBack_pushBack (m : Matrix) (i : Nat) :
    (m.pushBack i).pushBack i = m.pushCols i 2 := by
  unfold Matrix.pushBack Matrix.pushCols
  by_cases hi : i < m.length
  · rw [getD_set_eq, if_pos ⟨rfl, hi⟩, List.set_set, List.append_assoc]
    rfl
  · rw [List.set_eq_of_length_le (Nat.le_of_not_lt hi),
      List.set_eq_of_length_le (Nat.le_of_not_lt hi),
      List.set_eq_of_length_le (Nat.le_of_not_lt hi)]

/-- The body of the widening loop appends `rowsToAdd` zeros when that is 1 or 2. -/
theorem widenBody_eq (c : Nat) (h0 : c ≠ 0) (hc : c ≤ 2) :
    (fun (i : Nat) (acc : Matrix) =>
      let pushed := acc.pushBack i
      if c > 1 then pushed.pushBack i else pushed)
    = fun i acc => acc.pushCols i c := by
  funext i acc
  by_cases h1 : c > 1
  · have hc2 : c = 2 := by omega
    subst hc2
    simp only [gt_iff_lt, Nat.one_lt_ofNat, if_true]
    exact pushBack_pushBack acc i
  · have hc1 : c = 1 := by omega
    subst hc1
    simp only [gt_iff_lt, Nat.lt_irrefl, if_false]
    exact pushBack_eq acc i

/-- The widening loop of `growMatrix` after its first `I` rounds. -/
theorem widen_spec {n : Nat} {m : Matrix} (h : Square n m) (c I : Nat) (hI : I ≤ n) :
    (forLoop I (fun i acc => acc.pushCols i c) m).length = n ∧
    ∀ i, (forLoop I (fun i acc => acc.pushCols i c) m).getD i [] =
      if i < I then m.getD i [] ++ List.replicate c 0 else m.getD i [] := by
  induction I with
  | zero => exact ⟨h.1, fun i => by simp [forLoop_zero]⟩
  | succ I ih =>
      obtain ⟨hlen, hget⟩ := ih (Nat.le_of_succ_le hI)
      rw [forLoop_succ]
      refine ⟨by rw [pushCols_length, hlen], fun i => ?_⟩
      rw [pushCols_getD, hlen, hget I, hget i]
      by_cases e : I = i
      · subst e
        have hIn : I < n := hI
        simp [hIn]
      · have e3 : i < I + 1 ↔ i < I := by omega
        simp [e, e3]

theorem at_append_zeros (w : Matrix) (k c i j : Nat) :
    Matrix.at (w ++ List.replicate c (List.replicate k 0)) i j = w.at i j := by
  unfold Matrix.at
  by_cases hi : i < w.length
  · rw [List.getD_eq_getElem?_getD _ i, List.getElem?_append_left hi,
      ← List.getD_eq_getElem?_getD]
  · rw [List.getD_eq_getElem?_getD _ i, List.getElem?_append_right (Nat.le_of_not_lt hi),
      List.getD_eq_getElem?_getD w i, List.getElem?_eq_none (Nat.le_of_not_lt hi),
      List.getElem?_replicate]
    split
    · simp [getD_replicate_zero]
    · rfl

theorem growMatrix_spec {n : Nat} {m : Matrix} (h : Square n m) (c : Nat) (hc : c ≤ 2) :
    Square (n + c) (growMatrix m (n + c) c) ∧
    ∀ i j, (growMatrix m (n + c) c).at i j = m.at i j := by
  by_cases h0 : c = 0
  · subst h0
    simp only [growMatrix, if_true, Nat.add_zero]
    exact ⟨h, fun _ _ => trivial⟩
  · obtain ⟨hlen, hget⟩ := widen_spec h c n (Nat.le_refl n)
    have hshape : growMatrix m (n + c) c =
        forLoop n (fun i acc => acc.pushCols i c) m ++
          List.replicate c (List.replicate (n + c) 0) := by
      unfold growMatrix
      rw [if_neg h0]
      simp only [Nat.add_sub_cancel]
      rw [widenBody_eq c h0 hc]
      by_cases h1 : c > 1
      · have hc2 : c = 2 := by omega
        subst hc2
        simp [List.replicate]
      · have hc1 : c = 1 := by omega
        subst hc1
        simp [List.replicate]
    have hwat : ∀ i j, (forLoop n (fun i acc => acc.pushCols i c) m).at i j = m.at i j := by
      intro i j
      unfold Matrix.at
      rw [hget i]
      by_cases hi : i < n
      · rw [if_pos hi]
        by_cases hj : j < n
        · rw [List.getD_eq_getElem?_getD _ j,
            List.getElem?_append_left (by rw [h.row_length hi]; exact hj),
            ← List.getD_eq_getElem?_getD]
        · have hz := at_eq_zero_of_col_ge h i (Nat.le_of_not_lt hj)
          unfold Matrix.at at hz
          rw [List.getD_eq_getElem?_getD _ j,
            List.getElem?_append_right (by rw [h.row_length hi]; omega),
            ← List.getD_eq_getElem?_getD, getD_replicate_zero, hz]
      · rw [if_neg hi]
    rw [hshape]
    refine ⟨⟨by simp [hlen], fun row hrow => ?_⟩, fun i j => ?_⟩
    · rcases List.mem_append.mp hrow with hw | hz
      · obtain ⟨i, hi, he⟩ := List.getElem_of_mem hw
        have hin : i < n := by rw [← hlen]; exact hi
        have := hget i
        rw [List.getD_eq_getElem _ _ hi, he, if_pos hin] at this
        rw [this, List.length_append, h.row_length hin, List.length_replicate]
      · rw [(List.mem_replicate.mp hz).2, List.length_replicate]
    · rw [at_append_zeros, hwat]

theorem findOrAdd_spec (map : List (Value × Nat)) (maxIdx : Nat) (v : Value)
    (hidx : ∀ w i, map.lookup w = some i → i < maxIdx) :
    (findOrAdd map maxIdx v).2.2.1 = maxIdx + (findOrAdd map maxIdx v).2.2.2 ∧
    (findOrAdd map maxIdx v).2.2.2 ≤ 1 ∧
    (findOrAdd map maxIdx v).1 < (findOrAdd map maxIdx v).2.2.1 ∧
    (findOrAdd map maxIdx v).2.1.lookup v = some (findOrAdd map maxIdx v).1 ∧
    (∀ w i, map.lookup w = some i → (findOrAdd map maxIdx v).2.1.lookup w = some i) ∧
    (∀ w i, (findOrAdd map maxIdx v).2.1.lookup w = some i →
      i < (findOrAdd map maxIdx v).2.2.1) := by
  unfold findOrAdd
  cases hl : map.lookup v with
  | none =>
      simp only [List.lookup_cons, beq_self_eq_true]
      refine ⟨trivial, Nat.le_refl 1, Nat.lt_succ_self _, trivial, ?_, ?_⟩
      · intro w i hw
        by_cases e : w = v
        · subst e
          rw [hl] at hw
          cases hw
        · have : (w == v) = false := by simpa using e
          rw [this]
          exact hw
      · intro w i hw
        by_cases e : w = v
        · subst e
          simp only [beq_self_eq_true, Option.some.injEq] at hw
          omega
        · have : (w == v) = false := by simpa using e
          rw [this] at hw
          exact Nat.lt_succ_of_lt (hidx w i hw)
  | some idx =>
      exact ⟨rfl, Nat.zero_le 1, hidx v idx hl, hl, fun w i hw => hw, hidx⟩

/-- What lines 487-534 of `insertNoAlias` establish. -/
theorem insertEdge_spec {r : AliasRelation} (h : r.WF) (a b : Value) :
    (insertEdge r a b).WF ∧
    (insertEdge r a b).m_needsTransitiveClosure = true ∧
    (∃ ai bi, (insertEdge r a b).m_valueToIdx.lookup a = some ai ∧
      (insertEdge r a b).m_valueToIdx.lookup b = some bi ∧
      (insertEdge r a b).m_reachability.at ai bi = 1 ∧
      (insertEdge r a b).m_reachability.at bi ai = 1) ∧
    (∀ w i, r.m_valueToIdx.lookup w = some i →
      (insertEdge r a b).m_valueToIdx.lookup w = some i) ∧
    (∀ i j, r.m_reachability.at i j ≠ 0 → (insertEdge r a b).m_reachability.at i j ≠ 0) := by
  obtain ⟨fa1, fa2, fa3, fa4, fa5, fa6⟩ := findOrAdd_spec r.m_valueToIdx r.m_maxIdx a h.idx_lt
  obtain ⟨fb1, fb2, fb3, fb4, fb5, fb6⟩ :=
    findOrAdd_spec (findOrAdd r.m_valueToIdx r.m_maxIdx a).2.1
      (findOrAdd r.m_valueToIdx r.m_maxIdx a).2.2.1 b fa6
  unfold insertEdge
  simp only []
  generalize findOrAdd r.m_valueToIdx r.m_maxIdx a = fa at *
  generalize findOrAdd fa.2.1 fa.2.2.1 b = fb at *
  have hmax : fb.2.2.1 = r.m_maxIdx + (fa.2.2.2 + fb.2.2.2) := by omega
  have hai : fa.1 < fb.2.2.1 := by omega
  obtain ⟨gsq, gat⟩ := growMatrix_spec h.square (fa.2.2.2 + fb.2.2.2) (by omega)
  rw [← hmax] at gsq gat
  have psq := gsq.put fa.1 fb.1 1
  have hat : ∀ i j, Matrix.at (Matrix.put (Matrix.put
        (growMatrix r.m_reachability fb.2.2.1 (fa.2.2.2 + fb.2.2.2)) fa.1 fb.1 1) fb.1 fa.1 1) i j
      = if i = fb.1 ∧ j = fa.1 then 1 else if i = fa.1 ∧ j = fb.1 then 1
        else r.m_reachability.at i j := by
    intro i j
    rw [Matrix.at_put psq fb3 hai, Matrix.at_put gsq hai fb3, gat]
  refine ⟨⟨psq.put fb.1 fa.1 1, fb6, ?_, ?_⟩, trivial, ⟨fa.1, fb.1, fb5 a fa.1 fa4, fb4, ?_, ?_⟩,
    fun w i hw => fb5 w i (fa5 w i hw), ?_⟩
  · intro i j
    simp only [hat i j]
    split
    · exact Or.inr rfl
    · split
      · exact Or.inr rfl
      · exact h.binary i j
  · intro i j
    simp only [hat i j, hat j i, h.symmetric i j]
    by_cases e1 : i = fb.1 ∧ j = fa.1
    · by_cases e2 : j = fb.1 ∧ i = fa.1
      · simp [e1]
      · simp [e1]
    · by_cases e2 : i = fa.1 ∧ j = fb.1
      · simp [e2]
      · rw [if_neg e1, if_neg e2, if_neg (fun hx => e2 ⟨hx.2, hx.1⟩),
          if_neg (fun hx => e1 ⟨hx.2, hx.1⟩)]
  · simp only [hat]
    simp
  · simp only [hat]
    simp
  · intro i j hne
    simp only [hat i j]
    split
    · exact one_ne_zero
    · split
      · exact one_ne_zero
      · exact hne

/-- What a call of `insertNoAlias` establishes. -/
theorem insertNoAlias_spec {r : AliasRelation} (h : r.WF) (a b : Value) :
    (insertNoAlias r a b).Closed ∧
    (∃ ai bi, (insertNoAlias r a b).m_valueToIdx.lookup a = some ai ∧
      (insertNoAlias r a b).m_valueToIdx.lookup b = some bi ∧
      (insertNoAlias r a b).m_reachability.at ai bi ≠ 0 ∧
      (insertNoAlias r a b).m_reachability.at bi ai ≠ 0) ∧
    (∀ w i, r.m_valueToIdx.lookup w = some i →
      (insertNoAlias r a b).m_valueToIdx.lookup w = some i) ∧
    (∀ i j, r.m_reachability.at i j ≠ 0 → (insertNoAlias r a b).m_reachability.at i j ≠ 0) := by
  obtain ⟨ewf, -, ⟨ai, bi, ea, eb, e1, e2⟩, elook, emono⟩ := insertEdge_spec h a b
  obtain ⟨csq, ctr, cbin, csym, cmono⟩ :=
    closureLoop_spec ewf.square (insertEdge r a b).m_maxIdx
  unfold insertNoAlias computeTransitiveClosure
  refine ⟨⟨⟨csq, ewf.idx_lt, cbin ewf.binary, csym ewf.symmetric⟩, ?_, rfl⟩,
    ⟨ai, bi, ea, eb, cmono ai bi (by rw [e1]; exact one_ne_zero),
      cmono bi ai (by rw [e2]; exact one_ne_zero)⟩,
    elook, fun i j hne => cmono i j (emono i j hne)⟩
  intro i j k h1 h2
  exact ctr k i j (at_ne_zero_lt csq h1).2 h1 h2

theorem empty_closed : empty.Closed := by
  have hat : ∀ i j, Matrix.at [] i j = 0 := fun i j => rfl
  have hsq : Square 0 ([] : Matrix) := ⟨rfl, fun row hrow => nomatch hrow⟩
  have hidx : ∀ (v : Value) (i : Nat), List.lookup v ([] : List (Value × Nat)) = some i → i < 0 :=
    fun v i hv => nomatch hv
  have hsym : Matrix.Symmetric [] := fun i j => (hat i j).trans (hat j i).symm
  refine ⟨⟨hsq, hidx, fun i j => Or.inl (hat i j), hsym⟩, ?_, rfl⟩
  intro i j k h1
  exact absurd (hat i k) h1

theorem insertAll_closed (calls : List (Value × Value)) (r : AliasRelation) (h : r.Closed) :
    (calls.foldl (fun acc c => acc.insertNoAlias c.1 c.2) r).Closed := by
  induction calls generalizing r with
  | nil => exact h
  | cons c rest ih => exact ih _ (insertNoAlias_spec h.wf c.1 c.2).1

theorem afterInserts_closed (calls : List (Value × Value)) : (afterInserts calls).Closed :=
  insertAll_closed calls empty empty_closed

/-- On a symmetric relation with the flag clear, `canAlias` answers `false` for
every two values that have an index. -/
theorem canAlias_of_known {r : AliasRelation} (hs : r.m_reachability.Symmetric)
    (hf : r.m_needsTransitiveClosure = false) {a b : Value} {ai bi : Nat}
    (ha : r.m_valueToIdx.lookup a = some ai) (hb : r.m_valueToIdx.lookup b = some bi) :
    r.canAlias a b = some false := by
  unfold canAlias
  rw [hf, ha, hb]
  simp only [Bool.false_eq_true, if_false, hs bi ai]
  by_cases e : r.m_reachability.at ai bi = 0
  · simp [e]
  · simp [e]

theorem canAlias_comm_of_symmetric {r : AliasRelation} (hs : r.m_reachability.Symmetric)
    (a b : Value) : r.canAlias a b = r.canAlias b a := by
  cases hf : r.m_needsTransitiveClosure with
  | true => simp [canAlias, hf]
  | false =>
      cases ha : r.m_valueToIdx.lookup a with
      | none =>
          cases hb : r.m_valueToIdx.lookup b with
          | none => simp [canAlias, hf, ha, hb]
          | some bi => simp [canAlias, hf, ha, hb]
      | some ai =>
          cases hb : r.m_valueToIdx.lookup b with
          | none => simp [canAlias, hf, ha, hb]
          | some bi => rw [canAlias_of_known hs hf ha hb, canAlias_of_known hs hf hb ha]

theorem checkInvariance_of_wf {r : AliasRelation} (h : r.WF) : r.checkInvariance = true := by
  unfold checkInvariance
  simp only [Bool.and_eq_true, decide_eq_true_eq, List.all_eq_true]
  exact ⟨⟨h.square.1, fun row hrow => h.square.2 row hrow⟩,
    fun i _ j _ => h.symmetric i j⟩

end AliasRelation

/-! ## The liveness tracker -/

namespace LivenessAnalysis

theorem empty_wf : empty.WF :=
  ⟨rfl, fun _ _ hv => (nomatch hv), fun _ _ _ hv => (nomatch hv), List.nodup_nil⟩

theorem lookup_none_not_mem {map : List (Value × Nat)} {v : Value}
    (h : map.lookup v = none) : v ∉ map.map Prod.fst := by
  induction map with
  | nil => simp
  | cons e rest ih =>
      obtain ⟨k, x⟩ := e
      rw [List.lookup_cons] at h
      by_cases e1 : v = k
      · subst e1
        simp at h
      · have hb : (v == k) = false := by simpa using e1
        rw [hb] at h
        simp only [List.map_cons, List.mem_cons, not_or]
        exact ⟨e1, ih h⟩

theorem setLive_spec {l : LivenessAnalysis} (h : l.WF) (v : Value) :
    ∃ l2, l.setLive v = some l2 ∧ l2.WF ∧
      ∀ w, l2.isLive w = if w = v then true else l.isLive w := by
  unfold setLive
  cases hl : l.m_valueToIdx.lookup v with
  | none =>
      simp only [List.length_append, List.length_singleton, h.size, if_true]
      refine ⟨_, rfl, ⟨by simp [h.size], ?_, ?_, ?_⟩, ?_⟩
      · intro w i hw
        simp only [List.lookup_cons] at hw
        by_cases e : w = v
        · subst e
          simp only [beq_self_eq_true, Option.some.injEq] at hw
          show i < l.m_maxIdx + 1
          omega
        · have hb : (w == v) = false := by simpa using e
          rw [hb] at hw
          exact Nat.lt_succ_of_lt (h.idx_lt w i hw)
      · intro w1 w2 i h1 h2
        simp only [List.lookup_cons] at h1 h2
        by_cases e1 : w1 = v
        · by_cases e2 : w2 = v
          · rw [e1, e2]
          · have hb : (w2 == v) = false := by simpa using e2
            rw [hb] at h2
            subst e1
            simp only [beq_self_eq_true, Option.some.injEq] at h1
            have := h.idx_lt w2 i h2
            omega
        · have hb1 : (w1 == v) = false := by simpa using e1
          rw [hb1] at h1
          by_cases e2 : w2 = v
          · subst e2
            simp only [beq_self_eq_true, Option.some.injEq] at h2
            have := h.idx_lt w1 i h1
            omega
          · have hb : (w2 == v) = false := by simpa using e2
            rw [hb] at h2
            exact h.inj w1 w2 i h1 h2
      · simp only [List.map_cons, List.nodup_cons]
        exact ⟨lookup_none_not_mem hl, h.keys⟩
      · intro w
        unfold isLive
        simp only [List.lookup_cons]
        by_cases e : w = v
        · subst e
          simp only [beq_self_eq_true, if_true]
          rw [List.getD_eq_getElem?_getD, List.getElem?_append_right (by rw [h.size]), h.size]
          simp
        · have hb : (w == v) = false := by simpa using e
          rw [hb, if_neg e]
          cases hw : l.m_valueToIdx.lookup w with
          | none => rfl
          | some i =>
              simp only []
              rw [List.getD_eq_getElem?_getD,
                List.getElem?_append_left (by rw [h.size]; exact h.idx_lt w i hw),
                ← List.getD_eq_getElem?_getD]
  | some idx =>
      refine ⟨_, rfl, ⟨by simp [h.size], h.idx_lt, h.inj, h.keys⟩, ?_⟩
      intro w
      unfold isLive
      simp only []
      by_cases e : w = v
      · subst e
        rw [hl, if_pos rfl]
        simp only []
        rw [getD_set_eq, if_pos ⟨rfl, by rw [h.size]; exact h.idx_lt w idx hl⟩]
      · rw [if_neg e]
        cases hw : l.m_valueToIdx.lookup w with
        | none => rfl
        | some i =>
            simp only []
            rw [getD_set_eq, if_neg]
            intro hx
            exact e (h.inj w v i hw (hx.1 ▸ hl))

theorem kill_spec {l : LivenessAnalysis} (h : l.WF) (v : Value) :
    (l.kill v).WF ∧ ∀ w, (l.kill v).isLive w = if w = v then false else l.isLive w := by
  unfold kill
  cases hl : l.m_valueToIdx.lookup v with
  | none =>
      refine ⟨h, fun w => ?_⟩
      by_cases e : w = v
      · subst e
        rw [if_pos rfl]
        unfold isLive
        simp only [hl]
      · rw [if_neg e]
  | some idx =>
      refine ⟨⟨by simp [h.size], h.idx_lt, h.inj, h.keys⟩, fun w => ?_⟩
      unfold isLive
      simp only []
      by_cases e : w = v
      · subst e
        rw [hl, if_pos rfl]
        simp only []
        rw [getD_set_eq, if_pos ⟨rfl, by rw [h.size]; exact h.idx_lt w idx hl⟩]
      · rw [if_neg e]
        cases hw : l.m_valueToIdx.lookup w with
        | none => rfl
        | some i =>
            simp only []
            rw [getD_set_eq, if_neg]
            intro hx
            exact e (h.inj w v i hw (hx.1 ▸ hl))

theorem killAll_spec (vs : List Value) {l : LivenessAnalysis} (h : l.WF) :
    (l.killAll vs).WF ∧ ∀ w, (l.killAll vs).isLive w = if w ∈ vs then false else l.isLive w := by
  induction vs generalizing l with
  | nil => exact ⟨h, fun w => by simp [killAll]⟩
  | cons v rest ih =>
      obtain ⟨h1, e1⟩ := kill_spec h v
      obtain ⟨h2, e2⟩ := ih h1
      refine ⟨h2, fun w => ?_⟩
      have := e2 w
      unfold killAll at this ⊢
      rw [List.foldl_cons, this, e1 w]
      by_cases c1 : w ∈ rest
      · simp [c1]
      · by_cases c2 : w = v
        · simp [c2]
        · simp [c1, c2]

theorem setLiveAll_spec (vs : List Value) {l : LivenessAnalysis} (h : l.WF) :
    ∃ l2, l.setLiveAll vs = some l2 ∧ l2.WF ∧
      ∀ w, l2.isLive w = if w ∈ vs then true else l.isLive w := by
  induction vs generalizing l with
  | nil => exact ⟨l, rfl, h, fun w => by simp⟩
  | cons v rest ih =>
      obtain ⟨l1, s1, h1, e1⟩ := setLive_spec h v
      obtain ⟨l2, s2, h2, e2⟩ := ih h1
      refine ⟨l2, ?_, h2, fun w => ?_⟩
      · unfold setLiveAll
        rw [s1]
        exact s2
      · rw [e2 w, e1 w]
        by_cases c1 : w ∈ rest
        · simp [c1]
        · by_cases c2 : w = v
          · simp [c2]
          · simp [c1, c2]

end LivenessAnalysis

/-! ## Destructive in-place reuse -/

theorem getBufferInfo_set (m : MemoryAnalysis) (k : Nat) (info : BufferInfo) (k2 : Nat) :
    (m.setBufferInfo k info).getBufferInfo k2 = if k2 = k then info else m.getBufferInfo k2 := by
  unfold MemoryAnalysis.setBufferInfo MemoryAnalysis.getBufferInfo
  rw [List.lookup_cons]
  by_cases e : k2 = k
  · subst e
    simp
  · have hb : (k2 == k) = false := by simpa using e
    rw [hb, if_neg e]

theorem isInputOrOutputValue_false_def {blk : Block} {v : Value}
    (h : blk.isInputOrOutputValue v = false) : ∃ d, blk.getDefiningOp v = some d := by
  unfold Block.isInputOrOutputValue at h
  cases hd : blk.getDefiningOp v with
  | none => rw [hd] at h; cases h
  | some d => exact ⟨d, rfl⟩

theorem lookup_eq_some_iff_mem {map : List (Value × Nat)} (hnd : (map.map Prod.fst).Nodup)
    (w : Value) (i : Nat) : map.lookup w = some i ↔ (w, i) ∈ map := by
  induction map with
  | nil => simp
  | cons e rest ih =>
      obtain ⟨k, x⟩ := e
      simp only [List.map_cons, List.nodup_cons] at hnd
      rw [List.lookup_cons, List.mem_cons]
      by_cases e1 : w = k
      · subst e1
        simp only [beq_self_eq_true, Option.some.injEq, Prod.mk.injEq, true_and]
        constructor
        · intro hx
          exact Or.inl hx.symm
        · rintro (hx | hx)
          · exact hx.symm
          · exact absurd (List.mem_map_of_mem Prod.fst hx) hnd.1
      · have hb : (w == k) = false := by simpa using e1
        rw [hb]
        simp only [Prod.mk.injEq, e1, false_and, false_or]
        exact ih hnd.2

theorem liveValues_fold (p : Value × Nat → Bool) (map : List (Value × Nat)) (acc : List Value) :
    map.foldl (fun values entry => if p entry then values ++ [entry.1] else values) acc
      = acc ++ (map.filter p).map Prod.fst := by
  induction map generalizing acc with
  | nil => simp
  | cons e rest ih =>
      rw [List.foldl_cons, ih]
      cases c : p e with
      | true => simp [List.filter_cons_of_pos c]
      | false => simp [c]

theorem LivenessAnalysis.mem_getLiveValues {l : LivenessAnalysis} (h : l.WF) (w : Value) :
    w ∈ l.getLiveValues ↔ l.isLive w = true := by
  unfold LivenessAnalysis.getLiveValues LivenessAnalysis.isLive
  rw [liveValues_fold (fun entry => l.m_liveness.getD entry.2 false)]
  simp only [List.nil_append, List.mem_map, List.mem_filter, Prod.exists, exists_and_right,
    exists_eq_right]
  constructor
  · rintro ⟨i, hm, hl⟩
    rw [(lookup_eq_some_iff_mem h.keys w i).mpr hm]
    exact hl
  · intro hl
    cases hw : l.m_valueToIdx.lookup w with
    | none => rw [hw] at hl; cases hl
    | some i =>
        rw [hw] at hl
        exact ⟨i, (lookup_eq_some_iff_mem h.keys w i).mp hw, hl⟩

/-- After `insertNoAlias(use, w)` for every `w` of a list, the relation is closed
and knows `use` and every `w`. -/
theorem AliasRelation.insertUse_spec (use : Value) (ws : List Value) {r : AliasRelation}
    (h : r.Closed) :
    (ws.foldl (fun rel value => rel.insertNoAlias use value) r).Closed ∧
    (∀ x i, r.m_valueToIdx.lookup x = some i →
      (ws.foldl (fun rel value => rel.insertNoAlias use value) r).m_valueToIdx.lookup x = some i) ∧
    (∀ w, w ∈ ws → ∃ ui wi,
      (ws.foldl (fun rel value => rel.insertNoAlias use value) r).m_valueToIdx.lookup use = some ui ∧
      (ws.foldl (fun rel value => rel.insertNoAlias use value) r).m_valueToIdx.lookup w = some wi) := by
  induction ws generalizing r with
  | nil => exact ⟨h, fun x i hx => hx, fun w hw => nomatch hw⟩
  | cons v rest ih =>
      obtain ⟨c1, ⟨ui, vi, hu, hv, -, -⟩, k1, -⟩ := AliasRelation.insertNoAlias_spec h.wf use v
      obtain ⟨c2, k2, m2⟩ := ih c1
      rw [List.foldl_cons]
      refine ⟨c2, fun x i hx => k2 x i (k1 x i hx), fun w hw => ?_⟩
      rcases List.mem_cons.mp hw with e | hm
      · subst e
        exact ⟨ui, vi, k2 use ui hu, k2 w vi hv⟩
      · exact m2 w hm

namespace MemoryAssignment

theorem getLast?_cons_or (o : Value) (l : List Value) :
    (o :: l).getLast? = l.getLast?.or (some o) := by
  cases l with
  | nil => rfl
  | cons a t =>
      rw [List.getLast?_cons_cons, List.getLast?_eq_getLast _ (List.cons_ne_nil a t)]
      rfl

/-- A loop that overwrites its choice at every candidate keeps the last one. -/
theorem lastCandidate_fold (p : Value → Bool) (cnt : Value → Int) (operands : List Value)
    (use0 : Option Value) :
    operands.foldl
      (fun (st : Option Value × Int) opnd =>
        if p opnd then
          if st.2 == -1 || cnt opnd < st.2 then (some opnd, st.2) else st
        else st)
      (use0, (-1 : Int))
    = ((operands.filter p).getLast?.or use0, -1) := by
  induction operands generalizing use0 with
  | nil => simp
  | cons o rest ih =>
      rw [List.foldl_cons]
      cases c : p o with
      | true =>
          simp only [if_true, beq_self_eq_true, Bool.true_or]
          rw [ih, List.filter_cons_of_pos c, getLast?_cons_or]
          cases (rest.filter p).getLast? <;> rfl
      | false =>
          simp only [Bool.false_eq_true, if_false]
          rw [List.filter_cons_of_neg (by simp [c])]
          exact ih use0

/-- The operand `selectLoop` returns is the last operand that is dead and not an
input or output value. -/
theorem selectLoop_eq (blk : Block) (live : LivenessAnalysis) (operands : List Value) :
    (selectLoop blk live operands).1 =
      (operands.filter
        (fun opnd => !live.isLive opnd && !blk.isInputOrOutputValue opnd)).getLast? := by
  unfold selectLoop
  have := lastCandidate_fold (fun opnd => !live.isLive opnd && !blk.isInputOrOutputValue opnd)
    blk.countUses operands none
  simp only [] at this ⊢
  rw [this]
  simp

theorem selectLoop_some {blk : Block} {live : LivenessAnalysis} {operands : List Value}
    {u : Value} (h : (selectLoop blk live operands).1 = some u) :
    u ∈ operands ∧ live.isLive u = false ∧ blk.isInputOrOutputValue u = false := by
  rw [selectLoop_eq] at h
  have hm := List.mem_of_getLast?_eq_some h
  rw [List.mem_filter] at hm
  refine ⟨hm.1, ?_, ?_⟩
  · have := hm.2
    simp only [Bool.and_eq_true, Bool.not_eq_true'] at this
    exact this.1
  · have := hm.2
    simp only [Bool.and_eq_true, Bool.not_eq_true'] at this
    exact this.2

theorem assignInPlace_valid (blk : Block) (s : MemoryAssignment) (op : Nat) (use : Value)
    (hv : (s.m_memAnalysis.getBufferInfo op).isValid = true) :
    assignInPlace blk s op use =
      { s with m_memAnalysis :=
          (s.m_memAnalysis.setBufferInfoOf (blk.getDefiningOp use)
            (s.m_memAnalysis.getBufferInfo op)) } := by
  unfold assignInPlace
  simp [hv]

theorem assignInPlace_invalid (blk : Block) (s : MemoryAssignment) (op : Nat) (use : Value)
    (hv : (s.m_memAnalysis.getBufferInfo op).isValid = false) :
    assignInPlace blk s op use =
      { s with
        m_memAnalysis :=
          ((s.m_memAnalysis.setBufferInfo op
            { m_bufferId := s.m_bufferId, m_offset := 0 }).setBufferInfoOf
              (blk.getDefiningOp use) { m_bufferId := s.m_bufferId, m_offset := 0 })
        m_bufferId := s.m_bufferId + 1 } := by
  unfold assignInPlace
  simp [hv]

theorem assignInPlace_fields (blk : Block) (s : MemoryAssignment) (op : Nat) (use : Value) :
    (assignInPlace blk s op use).m_liveness = s.m_liveness ∧
    (assignInPlace blk s op use).m_aliasRelation = s.m_aliasRelation ∧
    (assignInPlace blk s op use).m_inplaceOps = s.m_inplaceOps := by
  cases hv : (s.m_memAnalysis.getBufferInfo op).isValid with
  | true => rw [assignInPlace_valid blk s op use hv]; exact ⟨rfl, rfl, rfl⟩
  | false => rw [assignInPlace_invalid blk s op use hv]; exact ⟨rfl, rfl, rfl⟩

/-- What the assignment of lines 400-414 leaves in the map and in the counter. -/
theorem assignInPlace_spec (blk : Block) (s : MemoryAssignment) (op : Nat) (use : Value)
    (d : Nat) (hd : blk.getDefiningOp use = some d) :
    (assignInPlace blk s op use).m_memAnalysis.getBufferInfo op =
      (assignInPlace blk s op use).m_memAnalysis.getBufferInfo d ∧
    ((s.m_memAnalysis.getBufferInfo op).isValid = true →
      (assignInPlace blk s op use).m_memAnalysis.getBufferInfo op
        = s.m_memAnalysis.getBufferInfo op ∧
      (assignInPlace blk s op use).m_bufferId = s.m_bufferId) ∧
    ((s.m_memAnalysis.getBufferInfo op).isValid = false →
      (assignInPlace blk s op use).m_memAnalysis.getBufferInfo op
        = { m_bufferId := s.m_bufferId, m_offset := 0 } ∧
      (assignInPlace blk s op use).m_bufferId = s.m_bufferId + 1) ∧
    (∀ o, o ≠ op → o ≠ d →
      (assignInPlace blk s op use).m_memAnalysis.getBufferInfo o
        = s.m_memAnalysis.getBufferInfo o) := by
  cases hv : (s.m_memAnalysis.getBufferInfo op).isValid with
  | true =>
      rw [assignInPlace_valid blk s op use hv, hd]
      simp only [MemoryAnalysis.setBufferInfoOf, getBufferInfo_set, if_true]
      refine ⟨?_, fun _ => ⟨?_, trivial⟩, fun hx => (nomatch hx), fun o _ ho2 => ?_⟩
      · split <;> rfl
      · split <;> rfl
      · rw [if_neg ho2]
  | false =>
      rw [assignInPlace_invalid blk s op use hv, hd]
      simp only [MemoryAnalysis.setBufferInfoOf, getBufferInfo_set, if_true]
      refine ⟨?_, fun hx => (nomatch hx), fun _ => ⟨?_, trivial⟩, fun o ho1 ho2 => ?_⟩
      · split <;> rfl
      · split <;> rfl
      · rw [if_neg ho2, if_neg ho1]

end MemoryAssignment

/-! ## Concat reuse -/

theorem prefixCount_succ (blk : Block) (operands : List Value) {k : Nat}
    (hk : k < operands.length) :
    blk.prefixCount operands (k + 1) =
      blk.prefixCount operands k + blk.numElements (operands.getD k 0) := by
  unfold Block.prefixCount
  rw [List.take_succ, List.getElem?_eq_getElem hk, List.getD_eq_getElem operands 0 hk]
  simp only [Option.toList, List.map_append, List.sum_append, List.map_cons, List.map_nil,
    List.sum_cons, List.sum_nil, add_zero]

/-- A value of the type `int` is its own reduction. -/
theorem wrapInt32_of_inInt32 {x : Int} (h : InInt32 x) : wrapInt32 x = x := by
  unfold InInt32 at h
  unfold wrapInt32
  omega

theorem wrapInt32_zero : wrapInt32 0 = 0 := by decide

/-- Reducing a summand first does not change the reduced sum. -/
theorem wrapInt32_add_left (a b : Int) : wrapInt32 (wrapInt32 a + b) = wrapInt32 (a + b) := by
  unfold wrapInt32
  omega

theorem wrapInt32_add_right (a b : Int) : wrapInt32 (a + wrapInt32 b) = wrapInt32 (a + b) := by
  unfold wrapInt32
  omega

theorem wrapInt32_inInt32 (x : Int) : InInt32 (wrapInt32 x) := by
  unfold InInt32 wrapInt32
  omega

namespace MemoryAssignment

/-- The offset loop after its first `n` rounds. -/
theorem offsetLoop_rounds (blk : Block) (operands : List Value) (n : Nat)
    (hn : n ≤ operands.length) :
    forLoop n
      (fun i (st : Int × List Int) =>
        if i = 0 then (st.1, st.2 ++ [0])
        else
          let opndOffset := wrapInt32 (st.1 + blk.numElements (operands.getD (i - 1) 0))
          (opndOffset, st.2 ++ [opndOffset]))
      (0, [])
    = (wrapInt32 (blk.prefixCount operands (n - 1)),
        (List.range n).map (fun i => wrapInt32 (blk.prefixCount operands i))) := by
  induction n with
  | zero => simp [forLoop_zero, Block.prefixCount, wrapInt32_zero]
  | succ n ih =>
      rw [forLoop_succ, ih (Nat.le_of_succ_le hn)]
      cases n with
      | zero =>
          show ((0 : Int), [(0 : Int)]) = (wrapInt32 (blk.prefixCount operands 0),
            [wrapInt32 (blk.prefixCount operands 0)])
          have h0 : blk.prefixCount operands 0 = 0 := by simp [Block.prefixCount]
          rw [h0, wrapInt32_zero]
      | succ k =>
          have hk : k < operands.length := by omega
          simp only [Nat.add_one_ne_zero, if_false, Nat.add_sub_cancel]
          rw [wrapInt32_add_left, ← prefixCount_succ blk operands hk,
            List.range_succ (n := k + 1), List.map_append]
          simp

/-- The offsets computed by `processConcat`: one per operand, each the sum of the
element counts of the operands before it, reduced to an `int`. -/
theorem offsetLoop_spec (blk : Block) (operands : List Value) :
    (offsetLoop blk operands).2 =
      (List.range operands.length).map (fun i => wrapInt32 (blk.prefixCount operands i)) := by
  unfold offsetLoop
  rw [offsetLoop_rounds blk operands operands.length (Nat.le_refl _)]

theorem offsetLoop_getD (blk : Block) (operands : List Value) {i : Nat}
    (hi : i < operands.length) :
    (offsetLoop blk operands).2.getD i 0 = wrapInt32 (blk.prefixCount operands i) := by
  rw [offsetLoop_spec, List.getD_eq_getElem _ _ (by simpa using hi)]
  simp

theorem aliasLoop_ne_none (blk : Block) {rel : AliasRelation}
    (hf : rel.m_needsTransitiveClosure = false) (result : Value) (operands : List Value) :
    aliasLoop blk rel result operands ≠ none := by
  induction operands with
  | nil => simp [aliasLoop]
  | cons o rest ih =>
      unfold aliasLoop
      cases hc : rel.canAlias result o with
      | none =>
          unfold AliasRelation.canAlias at hc
          rw [hf] at hc
          simp only [Bool.false_eq_true, if_false] at hc
          split at hc <;> cases hc
      | some can =>
          simp only []
          split
          · simp
          · exact ih

theorem aliasLoop_true {blk : Block} {rel : AliasRelation} {result : Value}
    {operands : List Value} (h : aliasLoop blk rel result operands = some true) :
    ∀ opnd ∈ operands, rel.canAlias result opnd = some true ∧
      blk.isInputOrOutputValue opnd = false := by
  induction operands with
  | nil => intro opnd ho; cases ho
  | cons o rest ih =>
      unfold aliasLoop at h
      cases hc : rel.canAlias result o with
      | none => rw [hc] at h; cases h
      | some can =>
          rw [hc] at h
          simp only [] at h
          by_cases hcond : (!can || blk.isInputOrOutputValue o) = true
          · rw [if_pos hcond] at h
            cases h
          · rw [if_neg hcond] at h
            simp only [Bool.or_eq_true, Bool.not_eq_true', not_or, Bool.not_eq_false,
              Bool.not_eq_true] at hcond
            intro opnd ho
            rcases List.mem_cons.mp ho with e | hm
            · subst e
              rw [hcond.1] at hc
              exact ⟨hc, hcond.2⟩
            · exact ih h opnd hm

theorem operandsDefined_of_aliasLoop {blk : Block} {rel : AliasRelation} {result : Value}
    {operands : List Value} (h : aliasLoop blk rel result operands = some true) :
    OperandsDefined blk operands := by
  intro i hi
  have hm : operands.getD i 0 ∈ operands := by
    rw [List.getD_eq_getElem operands 0 hi]
    exact List.getElem_mem hi
  exact isInputOrOutputValue_false_def (aliasLoop_true h _ hm).2

theorem matchLoop_ne_none (blk : Block) (m : MemoryAnalysis) (operands : List Value)
    (opndOffsets : List Int) (bufferId baseOffset : Int) (hdef : OperandsDefined blk operands)
    (is : List Nat) (his : ∀ i ∈ is, i < operands.length) :
    matchLoop blk m operands opndOffsets bufferId baseOffset is ≠ none := by
  induction is with
  | nil => simp [matchLoop]
  | cons i rest ih =>
      obtain ⟨d, hd⟩ := hdef i (his i (List.mem_cons_self i rest))
      unfold matchLoop
      rw [hd]
      simp only []
      split
      · simp
      · exact ih (fun j hj => his j (List.mem_cons_of_mem i hj))

/-- What the commit loop writes: nothing for an operation that defines none of
the visited operands, and the buffer at its offset for the defining operation of
a visited operand that no other visited position shares. -/
theorem commitLoop_spec (blk : Block) (operands : List Value) (opndOffsets : List Int)
    (bufferId baseOffset : Int) (hdef : OperandsDefined blk operands)
    (is : List Nat) (his : ∀ i ∈ is, i < operands.length) (hnd : is.Nodup) (m : MemoryAnalysis) :
    ∃ m2, commitLoop blk operands opndOffsets bufferId baseOffset is m = some m2 ∧
      (∀ o, (∀ i ∈ is, blk.getDefiningOp (operands.getD i 0) ≠ some o) →
        m2.getBufferInfo o = m.getBufferInfo o) ∧
      (∀ i ∈ is, ∀ d, blk.getDefiningOp (operands.getD i 0) = some d →
        (∀ j ∈ is, blk.getDefiningOp (operands.getD j 0) = some d → j = i) →
        m2.getBufferInfo d =
          { m_bufferId := bufferId
            m_offset := wrapInt32 (baseOffset + opndOffsets.getD i 0) }) := by
  induction is generalizing m with
  | nil => exact ⟨m, rfl, fun o _ => rfl, fun i hi => nomatch hi⟩
  | cons i rest ih =>
      obtain ⟨d, hd⟩ := hdef i (his i (List.mem_cons_self i rest))
      rw [List.nodup_cons] at hnd
      obtain ⟨m2, hm2, hother, hset⟩ :=
        ih (fun j hj => his j (List.mem_cons_of_mem i hj)) hnd.2
          (m.setBufferInfo d
            { m_bufferId := bufferId
              m_offset := wrapInt32 (baseOffset + opndOffsets.getD i 0) })
      refine ⟨m2, ?_, ?_, ?_⟩
      · unfold commitLoop
        rw [hd]
        exact hm2
      · intro o ho
        rw [hother o (fun j hj => ho j (List.mem_cons_of_mem i hj)), getBufferInfo_set, if_neg]
        intro e
        exact ho i (List.mem_cons_self i rest) (e ▸ hd)
      · intro j hj d2 hd2 huniq
        rcases List.mem_cons.mp hj with e | hm
        · subst e
          have hdd : d2 = d := by
            rw [hd] at hd2
            exact (Option.some.inj hd2).symm
          subst hdd
          rw [hother d2 ?_, getBufferInfo_set, if_pos rfl]
          intro k hk hkd
          have := huniq k (List.mem_cons_of_mem j hk) hkd
          subst this
          exact hnd.1 hk
        · exact hset j hm d2 hd2 (fun k hk hkd => huniq k (List.mem_cons_of_mem i hk) hkd)

/-- What lines 346-362 leave in the map and in the counter. -/
theorem commitConcat_spec (blk : Block) (s : MemoryAssignment) (op : Nat) (operands : List Value)
    (opndOffsets : List Int) (bufferId baseOffset : Int) (hdef : OperandsDefined blk operands) :
    ∃ s2, commitConcat blk s op operands opndOffsets bufferId baseOffset = some s2 ∧
      s2.m_liveness = s.m_liveness ∧ s2.m_aliasRelation = s.m_aliasRelation ∧
      s2.m_inplaceOps = s.m_inplaceOps ∧
      s2.m_bufferId = (if bufferId = -1 then s.m_bufferId + 1 else s.m_bufferId) ∧
      (∀ o, o ≠ op → (∀ i, i < operands.length →
          blk.getDefiningOp (operands.getD i 0) ≠ some o) →
        s2.m_memAnalysis.getBufferInfo o = s.m_memAnalysis.getBufferInfo o) ∧
      ((∀ i, i < operands.length → blk.getDefiningOp (operands.getD i 0) ≠ some op) →
        s2.m_memAnalysis.getBufferInfo op =
          { m_bufferId := if bufferId = -1 then s.m_bufferId else bufferId
            m_offset := if bufferId = -1 then 0 else baseOffset }) ∧
      (∀ i, i < operands.length → ∀ d, blk.getDefiningOp (operands.getD i 0) = some d →
        (∀ j, j < operands.length → blk.getDefiningOp (operands.getD j 0) = some d → j = i) →
        s2.m_memAnalysis.getBufferInfo d =
          { m_bufferId := if bufferId = -1 then s.m_bufferId else bufferId
            m_offset :=
              wrapInt32 ((if bufferId = -1 then 0 else baseOffset) + opndOffsets.getD i 0) }) := by
  obtain ⟨m2, hm2, hother, hset⟩ :=
    commitLoop_spec blk operands opndOffsets (if bufferId = -1 then s.m_bufferId else bufferId)
      (if bufferId = -1 then 0 else baseOffset) hdef (List.range operands.length)
      (fun i hi => List.mem_range.mp hi) (List.nodup_range _)
      (s.m_memAnalysis.setBufferInfo op
        { m_bufferId := if bufferId = -1 then s.m_bufferId else bufferId
          m_offset := if bufferId = -1 then 0 else baseOffset })
  refine ⟨{ s with
      m_bufferId := if bufferId = -1 then s.m_bufferId + 1 else s.m_bufferId
      m_memAnalysis := m2 }, ?_, rfl, rfl, rfl, rfl, ?_, ?_, ?_⟩
  · unfold commitConcat
    simp only [beq_iff_eq, decide_eq_true_eq]
    rw [hm2]
  · intro o ho hnone
    show m2.getBufferInfo o = _
    rw [hother o (fun i hi => hnone i (List.mem_range.mp hi)), getBufferInfo_set, if_neg ho]
  · intro hnone
    show m2.getBufferInfo op = _
    rw [hother op (fun i hi => hnone i (List.mem_range.mp hi)), getBufferInfo_set, if_pos rfl]
  · intro i hi d hd huniq
    exact hset i (List.mem_range.mpr hi) d hd
      (fun j hj hjd => huniq j (List.mem_range.mp hj) hjd)

theorem processConcat_accepted {blk : Block} {s : MemoryAssignment} {op : Nat}
    {concat : Operation} {result : Value} (h : ConcatAccepted blk s op concat result) :
    processConcat blk s op concat =
      commitConcat blk s op concat.operands (offsetLoop blk concat.operands).2
        (if (s.m_memAnalysis.getBufferInfo op).isValid
          then (s.m_memAnalysis.getBufferInfo op).m_bufferId else -1)
        (if (s.m_memAnalysis.getBufferInfo op).isValid
          then (s.m_memAnalysis.getBufferInfo op).m_offset else 0) := by
  have hre := h.result_eq
  have hcons := h.consistent
  unfold processConcat
  cases hr : concat.results with
  | nil => rw [hr] at hre; cases hre
  | cons r rest =>
      rw [hr] at hre
      simp only [List.head?_cons, Option.some.injEq] at hre
      subst hre
      simp only [h.not_boundary, h.axis_ok, h.alias_ok, Bool.false_eq_true, if_false, Bool.not_true]
      cases hv : (s.m_memAnalysis.getBufferInfo op).isValid with
      | true =>
          rw [hv] at hcons
          simp only [if_true] at hcons
          simp only [if_true, hcons]
      | false =>
          rw [hv] at hcons
          simp only [Bool.false_eq_true, if_false] at hcons
          simp only [Bool.false_eq_true, if_false, hcons, Bool.not_true]

/-- A concat whose axis loop returns is left without any change. -/
theorem processConcat_axis_reject (blk : Block) (s : MemoryAssignment) (op : Nat)
    (concat : Operation) (result : Value) (hres : concat.results.head? = some result)
    (haxis : axisLoop concat.concatAxis (blk.shape result) 0 = false) :
    processConcat blk s op concat = some s := by
  unfold processConcat
  cases hr : concat.results with
  | nil => rw [hr] at hres; cases hres
  | cons r rest =>
      rw [hr] at hres
      simp only [List.head?_cons, Option.some.injEq] at hres
      subst hres
      simp only [haxis, Bool.not_false, if_true]
      split <;> rfl

/-- `processConcat` always comes back when the closure flag is clear and the
concat has a result; it touches neither the liveness nor the alias relation, and
in the map only the concat and the defining operations of its operands. -/
theorem processConcat_total (blk : Block) (s : MemoryAssignment) (op : Nat) (concat : Operation)
    (hf : s.m_aliasRelation.m_needsTransitiveClosure = false) (hres : concat.results ≠ []) :
    ∃ s2, processConcat blk s op concat = some s2 ∧
      s2.m_liveness = s.m_liveness ∧ s2.m_aliasRelation = s.m_aliasRelation ∧
      s2.m_inplaceOps = s.m_inplaceOps ∧
      (∀ o, o ≠ op → (∀ i, i < concat.operands.length →
          blk.getDefiningOp (concat.operands.getD i 0) ≠ some o) →
        s2.m_memAnalysis.getBufferInfo o = s.m_memAnalysis.getBufferInfo o) := by
  have hsame : ∃ s2, some s = some s2 ∧
      s2.m_liveness = s.m_liveness ∧ s2.m_aliasRelation = s.m_aliasRelation ∧
      s2.m_inplaceOps = s.m_inplaceOps ∧
      (∀ o, o ≠ op → (∀ i, i < concat.operands.length →
          blk.getDefiningOp (concat.operands.getD i 0) ≠ some o) →
        s2.m_memAnalysis.getBufferInfo o = s.m_memAnalysis.getBufferInfo o) :=
    ⟨s, rfl, rfl, rfl, rfl, fun _ _ _ => rfl⟩
  unfold processConcat
  cases hr : concat.results with
  | nil => exact absurd hr hres
  | cons r rest =>
      simp only []
      by_cases h1 : blk.isInputOrOutputValue r = true
      · rw [if_pos h1]; exact hsame
      · rw [if_neg h1]
        by_cases h2 : (!axisLoop concat.concatAxis (blk.shape r) 0) = true
        · rw [if_pos h2]; exact hsame
        · rw [if_neg h2]
          cases ha : aliasLoop blk s.m_aliasRelation r concat.operands with
          | none => exact absurd ha (aliasLoop_ne_none blk hf r concat.operands)
          | some b =>
              cases b with
              | false => exact hsame
              | true =>
                  have hdef := operandsDefined_of_aliasLoop ha
                  simp only []
                  by_cases h3 : (s.m_memAnalysis.getBufferInfo op).isValid = true
                  · rw [if_pos h3]
                    cases hm : matchLoop blk s.m_memAnalysis concat.operands
                        (offsetLoop blk concat.operands).2
                        (s.m_memAnalysis.getBufferInfo op).m_bufferId
                        (s.m_memAnalysis.getBufferInfo op).m_offset
                        (List.range concat.operands.length) with
                    | none =>
                        exact absurd hm (matchLoop_ne_none blk _ _ _ _ _ hdef _
                          (fun i hi => List.mem_range.mp hi))
                    | some b2 =>
                        cases b2 with
                        | false => exact hsame
                        | true =>
                            obtain ⟨s2, e, q1, q2, q3, -, q5, -, -⟩ :=
                              commitConcat_spec blk s op concat.operands
                                (offsetLoop blk concat.operands).2
                                (s.m_memAnalysis.getBufferInfo op).m_bufferId
                                (s.m_memAnalysis.getBufferInfo op).m_offset hdef
                            exact ⟨s2, e, q1, q2, q3, q5⟩
                  · rw [if_neg h3]
                    by_cases h4 : (!unassignedLoop blk s.m_memAnalysis concat.operands) = true
                    · rw [if_pos h4]; exact hsame
                    · rw [if_neg h4]
                      obtain ⟨s2, e, q1, q2, q3, -, q5, -, -⟩ :=
                        commitConcat_spec blk s op concat.operands
                          (offsetLoop blk concat.operands).2 (-1) 0 hdef
                      exact ⟨s2, e, q1, q2, q3, q5⟩

end MemoryAssignment

/-! ## Rejection and acceptance of a concat -/

namespace MemoryAssignment

theorem canAlias_isSome {rel : AliasRelation} (hf : rel.m_needsTransitiveClosure = false)
    (a b : Value) : ∃ can, rel.canAlias a b = some can := by
  unfold AliasRelation.canAlias
  rw [hf]
  simp only [Bool.false_eq_true, if_false]
  split
  · exact ⟨_, rfl⟩
  · exact ⟨true, rfl⟩

/-- The operand loop returns as soon as an operand fails the alias check or is an
input or output value. -/
theorem aliasLoop_false_of_exists (blk : Block) {rel : AliasRelation}
    (hf : rel.m_needsTransitiveClosure = false) (result : Value) (operands : List Value)
    (h : ∃ opnd ∈ operands, rel.canAlias result opnd = some false ∨
      blk.isInputOrOutputValue opnd = true) :
    aliasLoop blk rel result operands = some false := by
  induction operands with
  | nil =>
      obtain ⟨opnd, hm, -⟩ := h
      cases hm
  | cons o rest ih =>
      unfold aliasLoop
      obtain ⟨can, hcan⟩ := canAlias_isSome hf result o
      rw [hcan]
      simp only []
      by_cases hc : (!can || blk.isInputOrOutputValue o) = true
      · rw [if_pos hc]
      · rw [if_neg hc]
        apply ih
        obtain ⟨opnd, hm, hbad⟩ := h
        rcases List.mem_cons.mp hm with e | hm2
        · exfalso
          subst e
          apply hc
          rcases hbad with h1 | h2
          · rw [hcan] at h1
            rw [Option.some.inj h1]
            rfl
          · rw [h2]
            simp
        · exact ⟨opnd, hm2, hbad⟩

theorem processConcat_boundary_reject (blk : Block) (s : MemoryAssignment) (op : Nat)
    (concat : Operation) (result : Value) (hres : concat.results.head? = some result)
    (hb : blk.isInputOrOutputValue result = true) :
    processConcat blk s op concat = some s := by
  unfold processConcat
  cases hr : concat.results with
  | nil => rw [hr] at hres; cases hres
  | cons r rest =>
      rw [hr] at hres
      simp only [List.head?_cons, Option.some.injEq] at hres
      subst hres
      simp only [hb, if_true]

theorem processConcat_alias_reject (blk : Block) (s : MemoryAssignment) (op : Nat)
    (concat : Operation) (result : Value) (hres : concat.results.head? = some result)
    (ha : aliasLoop blk s.m_aliasRelation result concat.operands = some false) :
    processConcat blk s op concat = some s := by
  unfold processConcat
  cases hr : concat.results with
  | nil => rw [hr] at hres; cases hres
  | cons r rest =>
      rw [hr] at hres
      simp only [List.head?_cons, Option.some.injEq] at hres
      subst hres
      simp only [ha]
      split
      · rfl
      · split <;> rfl

end MemoryAssignment

namespace MemoryAssignment

theorem mismatch_iff (info : BufferInfo) (bufferId offset : Int) :
    (info.isValid && (info.m_bufferId != bufferId || info.m_offset != offset)) = true ↔
      info.isValid = true ∧ (info.m_bufferId ≠ bufferId ∨ info.m_offset ≠ offset) := by
  simp

/-- The commit loop leaves alone every operation that defines none of the
visited operands. -/
theorem commitLoop_frame (blk : Block) (operands : List Value) (opndOffsets : List Int)
    (bufferId baseOffset : Int) (is : List Nat) (m m2 : MemoryAnalysis)
    (h : commitLoop blk operands opndOffsets bufferId baseOffset is m = some m2) :
    ∀ o, (∀ i ∈ is, blk.getDefiningOp (operands.getD i 0) ≠ some o) →
      m2.getBufferInfo o = m.getBufferInfo o := by
  induction is generalizing m with
  | nil =>
      intro o _
      unfold commitLoop at h
      rw [Option.some.inj h]
  | cons k rest ih =>
      intro o ho
      unfold commitLoop at h
      cases hdk : blk.getDefiningOp (operands.getD k 0) with
      | none => rw [hdk] at h; cases h
      | some dk =>
          rw [hdk] at h
          simp only [] at h
          rw [ih _ h o (fun j hj => ho j (List.mem_cons_of_mem k hj)), getBufferInfo_set, if_neg]
          intro e
          exact ho k (List.mem_cons_self k rest) (e ▸ hdk)

/-- The loop of lines 283-301 returns exactly when a visited operand has a
defining operation with a valid `BufferInfo` of another buffer or offset. -/
theorem matchLoop_false_iff (blk : Block) (m : MemoryAnalysis) (operands : List Value)
    (opndOffsets : List Int) (bufferId baseOffset : Int) (hdef : OperandsDefined blk operands)
    (is : List Nat) (his : ∀ i ∈ is, i < operands.length) :
    (matchLoop blk m operands opndOffsets bufferId baseOffset is = some false ↔
      ∃ i ∈ is, ∃ d, blk.getDefiningOp (operands.getD i 0) = some d ∧
        (m.getBufferInfo d).isValid = true ∧
        ((m.getBufferInfo d).m_bufferId ≠ bufferId ∨
          (m.getBufferInfo d).m_offset ≠ wrapInt32 (baseOffset + opndOffsets.getD i 0))) ∧
    (matchLoop blk m operands opndOffsets bufferId baseOffset is = some false ∨
      matchLoop blk m operands opndOffsets bufferId baseOffset is = some true) := by
  induction is with
  | nil =>
      refine ⟨⟨fun h => ?_, fun h => ?_⟩, Or.inr rfl⟩
      · simp [matchLoop] at h
      · obtain ⟨i, hi, -⟩ := h
        cases hi
  | cons i rest ih =>
      obtain ⟨d, hd⟩ := hdef i (his i (List.mem_cons_self i rest))
      obtain ⟨ih1, ih2⟩ := ih (fun j hj => his j (List.mem_cons_of_mem i hj))
      unfold matchLoop
      rw [hd]
      simp only []
      by_cases hc : ((m.getBufferInfo d).isValid &&
          ((m.getBufferInfo d).m_bufferId != bufferId ||
            (m.getBufferInfo d).m_offset != wrapInt32 (baseOffset + opndOffsets.getD i 0))) = true
      · rw [if_pos hc]
        exact ⟨⟨fun _ => ⟨i, List.mem_cons_self i rest, d, hd, (mismatch_iff _ _ _).mp hc⟩,
          fun _ => rfl⟩, Or.inl rfl⟩
      · rw [if_neg hc]
        refine ⟨⟨fun h => ?_, fun h => ?_⟩, ih2⟩
        · obtain ⟨j, hj, x⟩ := ih1.mp h
          exact ⟨j, List.mem_cons_of_mem i hj, x⟩
        · apply ih1.mpr
          obtain ⟨j, hj, d2, hd2, hv, hne⟩ := h
          rcases List.mem_cons.mp hj with e | hm
          · exfalso
            subst e
            rw [hd] at hd2
            have hdd := Option.some.inj hd2
            subst hdd
            exact hc ((mismatch_iff _ _ _).mpr ⟨hv, hne⟩)
          · exact ⟨j, hm, d2, hd2, hv, hne⟩

/-- The loop of lines 338-344 returns exactly when the defining operation of an
operand has a valid `BufferInfo`. -/
theorem unassignedLoop_false_iff (blk : Block) (m : MemoryAnalysis) (operands : List Value) :
    unassignedLoop blk m operands = false ↔
      ∃ opnd ∈ operands, (m.getBufferInfoOf (blk.getDefiningOp opnd)).isValid = true := by
  induction operands with
  | nil => simp [unassignedLoop]
  | cons o rest ih =>
      unfold unassignedLoop
      by_cases hc : (m.getBufferInfoOf (blk.getDefiningOp o)).isValid = true
      · rw [if_pos hc]
        simp only [true_iff]
        exact ⟨o, List.mem_cons_self o rest, hc⟩
      · rw [if_neg hc, ih]
        constructor
        · rintro ⟨x, hx, hv⟩
          exact ⟨x, List.mem_cons_of_mem o hx, hv⟩
        · rintro ⟨x, hx, hv⟩
          rcases List.mem_cons.mp hx with e | hm
          · exact absurd (e ▸ hv) hc
          · exact ⟨x, hm, hv⟩

/-- What the commit loop leaves at the defining operation of a visited operand,
whether or not operands share a defining operation: the buffer at the offset of
one of the visited positions with that defining operation. -/
theorem commitLoop_written (blk : Block) (operands : List Value) (opndOffsets : List Int)
    (bufferId baseOffset : Int) (hdef : OperandsDefined blk operands)
    (is : List Nat) (his : ∀ i ∈ is, i < operands.length) (m m2 : MemoryAnalysis)
    (h : commitLoop blk operands opndOffsets bufferId baseOffset is m = some m2) :
    ∀ i ∈ is, ∀ d, blk.getDefiningOp (operands.getD i 0) = some d →
      ∃ j ∈ is, blk.getDefiningOp (operands.getD j 0) = some d ∧
        m2.getBufferInfo d =
          { m_bufferId := bufferId
            m_offset := wrapInt32 (baseOffset + opndOffsets.getD j 0) } := by
  induction is generalizing m with
  | nil => intro i hi; cases hi
  | cons k rest ih =>
      obtain ⟨dk, hdk⟩ := hdef k (his k (List.mem_cons_self k rest))
      unfold commitLoop at h
      rw [hdk] at h
      simp only [] at h
      have hrest := ih (fun j hj => his j (List.mem_cons_of_mem k hj)) _ h
      intro i hi d hd
      by_cases hex : ∃ j ∈ rest, blk.getDefiningOp (operands.getD j 0) = some d
      · obtain ⟨j, hj, hjd⟩ := hex
        obtain ⟨j2, hj2, e1, e2⟩ := hrest j hj d hjd
        exact ⟨j2, List.mem_cons_of_mem k hj2, e1, e2⟩
      · have hnone : ∀ j ∈ rest, blk.getDefiningOp (operands.getD j 0) ≠ some d :=
          fun j hj hjd => hex ⟨j, hj, hjd⟩
        have hik : i = k := by
          rcases List.mem_cons.mp hi with e | hm
          · exact e
          · exact absurd hd (hnone i hm)
        subst hik
        have hdd : d = dk := by
          rw [hdk] at hd
          exact (Option.some.inj hd).symm
        subst hdd
        refine ⟨i, List.mem_cons_self i rest, hdk, ?_⟩
        rw [commitLoop_frame blk operands opndOffsets bufferId baseOffset rest _ m2 h d hnone,
          getBufferInfo_set, if_pos rfl]

theorem commitConcat_eq {blk : Block} {s s2 : MemoryAssignment} {op : Nat}
    {operands : List Value} {opndOffsets : List Int} {bufferId baseOffset : Int}
    (h : commitConcat blk s op operands opndOffsets bufferId baseOffset = some s2) :
    ∃ m2, commitLoop blk operands opndOffsets (if bufferId = -1 then s.m_bufferId else bufferId)
        (if bufferId = -1 then 0 else baseOffset) (List.range operands.length)
        (s.m_memAnalysis.setBufferInfo op
          { m_bufferId := if bufferId = -1 then s.m_bufferId else bufferId
            m_offset := if bufferId = -1 then 0 else baseOffset }) = some m2 ∧
      s2 = { s with
        m_bufferId := if bufferId = -1 then s.m_bufferId + 1 else s.m_bufferId
        m_memAnalysis := m2 } := by
  unfold commitConcat at h
  simp only [beq_iff_eq] at h
  split at h
  · cases h
  · rename_i m2 hm2
    exact ⟨m2, hm2, (Option.some.inj h).symm⟩

/-- With the checks passed and a valid destination, `processConcat` is the match
loop followed by the commit. -/
theorem processConcat_valid_dest {blk : Block} {s : MemoryAssignment} {op : Nat}
    {concat : Operation} {result : Value} (h : ConcatChecked blk s concat result)
    (hv : (s.m_memAnalysis.getBufferInfo op).isValid = true) :
    processConcat blk s op concat =
      match matchLoop blk s.m_memAnalysis concat.operands (offsetLoop blk concat.operands).2
          (s.m_memAnalysis.getBufferInfo op).m_bufferId
          (s.m_memAnalysis.getBufferInfo op).m_offset (List.range concat.operands.length) with
      | none => none
      | some false => some s
      | some true =>
          commitConcat blk s op concat.operands (offsetLoop blk concat.operands).2
            (s.m_memAnalysis.getBufferInfo op).m_bufferId
            (s.m_memAnalysis.getBufferInfo op).m_offset := by
  have hre := h.result_eq
  unfold processConcat
  cases hr : concat.results with
  | nil => rw [hr] at hre; cases hre
  | cons r rest =>
      rw [hr] at hre
      simp only [List.head?_cons, Option.some.injEq] at hre
      subst hre
      simp only [h.not_boundary, h.axis_ok, h.alias_ok, Bool.false_eq_true, if_false,
        Bool.not_true, hv, if_true]

/-- With the checks passed and no valid destination, `processConcat` is the loop
over the operands' assignments followed by the commit with a new buffer. -/
theorem processConcat_invalid_dest {blk : Block} {s : MemoryAssignment} {op : Nat}
    {concat : Operation} {result : Value} (h : ConcatChecked blk s concat result)
    (hv : (s.m_memAnalysis.getBufferInfo op).isValid = false) :
    processConcat blk s op concat =
      if unassignedLoop blk s.m_memAnalysis concat.operands then
        commitConcat blk s op concat.operands (offsetLoop blk concat.operands).2 (-1) 0
      else some s := by
  have hre := h.result_eq
  unfold processConcat
  cases hr : concat.results with
  | nil => rw [hr] at hre; cases hre
  | cons r rest =>
      rw [hr] at hre
      simp only [List.head?_cons, Option.some.injEq] at hre
      subst hre
      simp only [h.not_boundary, h.axis_ok, h.alias_ok, Bool.false_eq_true, if_false,
        Bool.not_true, hv]
      cases unassignedLoop blk s.m_memAnalysis concat.operands <;> rfl

end MemoryAssignment

namespace MemoryAssignment

end MemoryAssignment

namespace MemoryAssignment

/-- A concat either is left without change or passes every check on the way to
the commit. -/
theorem processConcat_cases (blk : Block) (s : MemoryAssignment) (op : Nat) (concat : Operation)
    (hf : s.m_aliasRelation.m_needsTransitiveClosure = false) (hres : concat.results ≠ []) :
    processConcat blk s op concat = some s ∨
      ∃ result, ConcatAccepted blk s op concat result := by
  cases hr : concat.results with
  | nil => exact absurd hr hres
  | cons r rest =>
      have hhead : concat.results.head? = some r := by rw [hr]; rfl
      by_cases h1 : blk.isInputOrOutputValue r = true
      · exact Or.inl (processConcat_boundary_reject blk s op concat r hhead h1)
      · by_cases h2 : axisLoop concat.concatAxis (blk.shape r) 0 = true
        · cases ha : aliasLoop blk s.m_aliasRelation r concat.operands with
          | none => exact absurd ha (aliasLoop_ne_none blk hf r concat.operands)
          | some b =>
              cases b with
              | false => exact Or.inl (processConcat_alias_reject blk s op concat r hhead ha)
              | true =>
                  have hchk : ConcatChecked blk s concat r :=
                    ⟨hhead, by simpa using h1, h2, ha⟩
                  have hdef := operandsDefined_of_aliasLoop ha
                  cases hv : (s.m_memAnalysis.getBufferInfo op).isValid with
                  | true =>
                      rcases (matchLoop_false_iff blk s.m_memAnalysis concat.operands
                        (offsetLoop blk concat.operands).2
                        (s.m_memAnalysis.getBufferInfo op).m_bufferId
                        (s.m_memAnalysis.getBufferInfo op).m_offset hdef
                        (List.range concat.operands.length)
                        (fun i hi => List.mem_range.mp hi)).2 with hm | hm
                      · left
                        rw [processConcat_valid_dest hchk hv, hm]
                      · right
                        refine ⟨r, hhead, by simpa using h1, h2, ha, ?_⟩
                        rw [hv]
                        simpa using hm
                  | false =>
                      cases hu : unassignedLoop blk s.m_memAnalysis concat.operands with
                      | false =>
                          left
                          rw [processConcat_invalid_dest hchk hv, hu]
                          rfl
                      | true =>
                          right
                          refine ⟨r, hhead, by simpa using h1, h2, ha, ?_⟩
                          rw [hv]
                          simpa using hu
        · exact Or.inl (processConcat_axis_reject blk s op concat r hhead (by simpa using h2))

/-- `processConcat` never changes a `BufferInfo` that was valid: what it writes
over a valid entry is the entry. -/
theorem processConcat_keeps_valid (blk : Block) (s s2 : MemoryAssignment) (op : Nat)
    (concat : Operation) (hf : s.m_aliasRelation.m_needsTransitiveClosure = false)
    (hres : concat.results ≠ []) (h : processConcat blk s op concat = some s2) :
    ∀ o, (s.m_memAnalysis.getBufferInfo o).isValid = true →
      s2.m_memAnalysis.getBufferInfo o = s.m_memAnalysis.getBufferInfo o := by
  rcases processConcat_cases blk s op concat hf hres with hsame | ⟨r, hacc⟩
  · intro o _
    rw [hsame] at h
    rw [← Option.some.inj h]
  · intro o hvo
    have hdef := operandsDefined_of_aliasLoop hacc.alias_ok
    have hcons := hacc.consistent
    rw [processConcat_accepted hacc] at h
    obtain ⟨m2, hm2, hs2⟩ := commitConcat_eq h
    have hmem : s2.m_memAnalysis = m2 := by rw [hs2]
    rw [hmem]
    have hwritten := commitLoop_written blk concat.operands (offsetLoop blk concat.operands).2
      _ _ hdef (List.range concat.operands.length) (fun i hi => List.mem_range.mp hi) _ m2 hm2
    cases hv : (s.m_memAnalysis.getBufferInfo op).isValid with
    | true =>
        rw [hv] at hcons
        simp only [if_true] at hcons
        have hne : ¬ (s.m_memAnalysis.getBufferInfo op).m_bufferId = -1 := by
          unfold BufferInfo.isValid at hv
          simpa using hv
        simp only [hv, if_true, hne, if_false] at hm2 hwritten
        have hiff := (matchLoop_false_iff blk s.m_memAnalysis concat.operands
          (offsetLoop blk concat.operands).2 (s.m_memAnalysis.getBufferInfo op).m_bufferId
          (s.m_memAnalysis.getBufferInfo op).m_offset hdef (List.range concat.operands.length)
          (fun i hi => List.mem_range.mp hi)).1
        by_cases hex : ∃ i ∈ List.range concat.operands.length,
            blk.getDefiningOp (concat.operands.getD i 0) = some o
        · obtain ⟨i, hi, hd⟩ := hex
          obtain ⟨j, hj, hjd, hval⟩ := hwritten i hi o hd
          rw [hval]
          have hnot : ¬ ((s.m_memAnalysis.getBufferInfo o).m_bufferId
                ≠ (s.m_memAnalysis.getBufferInfo op).m_bufferId ∨
              (s.m_memAnalysis.getBufferInfo o).m_offset
                ≠ wrapInt32 ((s.m_memAnalysis.getBufferInfo op).m_offset
                  + (offsetLoop blk concat.operands).2.getD j 0)) := by
            intro hbad
            have hfalse := hiff.mpr ⟨j, hj, o, hjd, hvo, hbad⟩
            rw [hcons] at hfalse
            cases hfalse
          have h1 : (s.m_memAnalysis.getBufferInfo o).m_bufferId
              = (s.m_memAnalysis.getBufferInfo op).m_bufferId := by
            by_contra hx
            exact hnot (Or.inl hx)
          have h2 : (s.m_memAnalysis.getBufferInfo o).m_offset
              = wrapInt32 ((s.m_memAnalysis.getBufferInfo op).m_offset
                + (offsetLoop blk concat.operands).2.getD j 0) := by
            by_contra hx
            exact hnot (Or.inr hx)
          rw [← h1, ← h2]
        · rw [commitLoop_frame blk concat.operands _ _ _ _ _ m2 hm2 o
            (fun i hi hd => hex ⟨i, hi, hd⟩), getBufferInfo_set]
          split
          · rename_i e
            rw [e]
          · rfl
    | false =>
        rw [hv] at hcons
        simp only [Bool.false_eq_true, if_false] at hcons
        simp only [hv, Bool.false_eq_true, if_false, if_true] at hm2
        have hoop : o ≠ op := by
          intro e
          rw [e, hv] at hvo
          cases hvo
        have hnone : ∀ i ∈ List.range concat.operands.length,
            blk.getDefiningOp (concat.operands.getD i 0) ≠ some o := by
          intro i hi hd
          have hi2 := List.mem_range.mp hi
          have hmemo : concat.operands.getD i 0 ∈ concat.operands := by
            rw [List.getD_eq_getElem _ 0 hi2]
            exact List.getElem_mem hi2
          have hinv : unassignedLoop blk s.m_memAnalysis concat.operands ≠ false := by
            rw [hcons]
            simp
          apply hinv
          rw [unassignedLoop_false_iff]
          refine ⟨_, hmemo, ?_⟩
          rw [hd]
          exact hvo
        rw [commitLoop_frame blk concat.operands _ _ _ _ _ m2 hm2 o hnone, getBufferInfo_set,
          if_neg hoop]

end MemoryAssignment

/-! ## The backward loop -/

namespace MemoryAssignment

theorem init_inv (tbl : List (String × Bool)) : (init tbl).Inv tbl :=
  ⟨LivenessAnalysis.empty_wf, AliasRelation.empty_closed, rfl⟩

theorem isSafeInPlace_iff (s : MemoryAssignment) (op : Operation) :
    s.isSafeInPlace op = true ↔ s.m_inplaceOps.lookup op.name = some true := by
  unfold isSafeInPlace
  cases h : s.m_inplaceOps.lookup op.name with
  | none => simp
  | some b => simp

theorem processDestructiveInPlace_accepted {blk : Block} {s : MemoryAssignment} {op : Nat}
    {operation : Operation} {result u : Value} (hres : operation.results = [result])
    (hnb : blk.isInputOrOutputValue result = false)
    (hsel : (selectLoop blk s.m_liveness operation.operands).1 = some u) :
    processDestructiveInPlace blk s op operation =
      some (noAliasLive (assignInPlace blk s op u) u) := by
  unfold processDestructiveInPlace
  rw [hres]
  simp only [hnb, Bool.false_eq_true, if_false, hsel]

/-- `processDestructiveInPlace` always comes back on an operation with one
result; it leaves the liveness alone and the alias relation closed. -/
theorem processDestructiveInPlace_total (blk : Block) (s : MemoryAssignment) (op : Nat)
    (operation : Operation) (hc : s.m_aliasRelation.Closed)
    (hres : operation.results.length = 1) :
    ∃ s2, processDestructiveInPlace blk s op operation = some s2 ∧
      s2.m_liveness = s.m_liveness ∧ s2.m_aliasRelation.Closed ∧
      s2.m_inplaceOps = s.m_inplaceOps := by
  obtain ⟨result, hr⟩ := List.length_eq_one.mp hres
  unfold processDestructiveInPlace
  rw [hr]
  simp only []
  by_cases h1 : blk.isInputOrOutputValue result = true
  · rw [if_pos h1]
    exact ⟨s, rfl, rfl, hc, rfl⟩
  · rw [if_neg h1]
    cases hsel : (selectLoop blk s.m_liveness operation.operands).1 with
    | none => exact ⟨s, rfl, rfl, hc, rfl⟩
    | some u =>
        obtain ⟨f1, f2, f3⟩ := assignInPlace_fields blk s op u
        refine ⟨_, rfl, f1, ?_, f3⟩
        show (List.foldl (fun rel value => rel.insertNoAlias u value)
          (assignInPlace blk s op u).m_aliasRelation
          (assignInPlace blk s op u).m_liveness.getLiveValues).Closed
        rw [f2]
        exact (AliasRelation.insertUse_spec u _ hc).1

/-- The reuse attempt comes back, leaves the liveness alone and the alias
relation closed. -/
theorem dispatch_spec (sw : Switches) (blk : Block) {tbl : List (String × Bool)}
    {s : MemoryAssignment} (hinv : s.Inv tbl) (i : Nat) (op : Operation)
    (hres : tbl.lookup op.name = some true → op.results.length = 1) :
    ∃ s1, dispatch sw blk s i op = some s1 ∧
      s1.m_liveness = s.m_liveness ∧ s1.m_aliasRelation.Closed ∧
      s1.m_inplaceOps = s.m_inplaceOps := by
  unfold dispatch
  by_cases h1 : s.isSafeInPlace op = true
  · have hlen := hres (by rw [← hinv.table]; exact (isSafeInPlace_iff s op).mp h1)
    rw [if_pos h1]
    by_cases h2 : op.isConcat = true
    · rw [if_pos h2]
      by_cases h3 : sw.clEnableNgInPlaceConcat = true
      · rw [if_pos h3]
        obtain ⟨s1, e, q1, q2, q3, -⟩ := processConcat_total blk s i op hinv.rel.flag
          (by intro hnil; rw [hnil] at hlen; cases hlen)
        exact ⟨s1, e, q1, q2 ▸ hinv.rel, q3⟩
      · rw [if_neg h3]
        exact ⟨s, rfl, rfl, hinv.rel, rfl⟩
    · rw [if_neg h2]
      by_cases h3 : sw.clEnableNgInPlaceEltWise = true
      · rw [if_pos h3]
        exact processDestructiveInPlace_total blk s i op hinv.rel hlen
      · rw [if_neg h3]
        exact ⟨s, rfl, rfl, hinv.rel, rfl⟩
  · rw [if_neg h1]
    exact ⟨s, rfl, rfl, hinv.rel, rfl⟩

/-- One round of the backward loop: it comes back, keeps the invariant, kills the
results and then marks the operands live; the map and the counter are those the
reuse attempt left. -/
theorem visit_spec (sw : Switches) (blk : Block) {tbl : List (String × Bool)}
    {s : MemoryAssignment} (hinv : s.Inv tbl) (i : Nat) (op : Operation)
    (hres : tbl.lookup op.name = some true → op.results.length = 1) :
    ∃ s1 s2, dispatch sw blk s i op = some s1 ∧ visit sw blk s i op = some s2 ∧ s2.Inv tbl ∧
      s2.m_memAnalysis = s1.m_memAnalysis ∧ s2.m_bufferId = s1.m_bufferId ∧
      s2.m_aliasRelation = s1.m_aliasRelation ∧
      ∀ w, s2.m_liveness.isLive w =
        if w ∈ op.operands then true else if w ∈ op.results then false
        else s.m_liveness.isLive w := by
  obtain ⟨s1, e1, q1, q2, q3⟩ := dispatch_spec sw blk hinv i op hres
  obtain ⟨k1, k2⟩ := LivenessAnalysis.killAll_spec op.results (q1 ▸ hinv.live)
  obtain ⟨l2, e2, w2, v2⟩ := LivenessAnalysis.setLiveAll_spec op.operands k1
  refine ⟨s1, { s1 with m_liveness := l2 }, e1, ?_, ⟨w2, q2, q3.trans hinv.table⟩, rfl, rfl, rfl,
    fun w => ?_⟩
  · unfold visit
    rw [e1]
    simp only []
    rw [e2]
  · show l2.isLive w = _
    rw [v2 w, k2 w, q1]

theorem sweep_append (sw : Switches) (blk : Block) (l1 l2 : List (Nat × Operation))
    (s : MemoryAssignment) :
    sweep sw blk (l1 ++ l2) s = (sweep sw blk l1 s).bind (sweep sw blk l2) := by
  induction l1 generalizing s with
  | nil => rfl
  | cons e rest ih =>
      obtain ⟨i, op⟩ := e
      simp only [List.cons_append, sweep]
      cases visit sw blk s i op with
      | none => rfl
      | some s1 => exact ih s1

theorem sweepFrom_end (sw : Switches) (blk : Block) {p : Nat} (hp : blk.ops.length ≤ p)
    (s : MemoryAssignment) : sweepFrom sw blk p s = some s := by
  unfold sweepFrom
  rw [List.drop_eq_nil_of_le (by simpa using hp)]
  rfl

/-- The loop reaches position `p` from position `p + 1` by one more round. -/
theorem sweepFrom_step (sw : Switches) (blk : Block) {p : Nat} {op : Operation}
    (hp : blk.ops[p]? = some op) (s : MemoryAssignment) :
    sweepFrom sw blk p s = (sweepFrom sw blk (p + 1) s).bind (fun t => visit sw blk t p op) := by
  have hlt : p < blk.ops.length := by
    by_contra hge
    rw [List.getElem?_eq_none (Nat.le_of_not_lt hge)] at hp
    cases hp
  have hlt2 : p < blk.ops.enum.length := by simpa using hlt
  have hop : blk.ops[p] = op := by
    rw [List.getElem?_eq_getElem hlt] at hp
    exact Option.some.inj hp
  unfold sweepFrom
  rw [List.drop_eq_getElem_cons hlt2, List.reverse_cons, sweep_append, List.getElem_enum, hop]
  congr 1
  funext t
  simp [sweep]

end MemoryAssignment

theorem Block.usedFrom_step (blk : Block) {p : Nat} {op : Operation}
    (hp : blk.ops[p]? = some op) (v : Value) :
    blk.usedFrom p v = (op.operands.contains v || blk.usedFrom (p + 1) v) := by
  have hlt : p < blk.ops.length := by
    by_contra hge
    rw [List.getElem?_eq_none (Nat.le_of_not_lt hge)] at hp
    cases hp
  have hop : blk.ops[p] = op := by
    rw [List.getElem?_eq_getElem hlt] at hp
    exact Option.some.inj hp
  unfold Block.usedFrom
  rw [List.drop_eq_getElem_cons hlt, List.any_cons, hop]

theorem Block.definedFrom_step (blk : Block) {p : Nat} {op : Operation}
    (hp : blk.ops[p]? = some op) (v : Value) :
    blk.definedFrom p v = (op.results.contains v || blk.definedFrom (p + 1) v) := by
  have hlt : p < blk.ops.length := by
    by_contra hge
    rw [List.getElem?_eq_none (Nat.le_of_not_lt hge)] at hp
    cases hp
  have hop : blk.ops[p] = op := by
    rw [List.getElem?_eq_getElem hlt] at hp
    exact Option.some.inj hp
  unfold Block.definedFrom
  rw [List.drop_eq_getElem_cons hlt, List.any_cons, hop]

theorem Block.definedFrom_true {blk : Block} {p : Nat} {v : Value}
    (h : blk.definedFrom p v = true) :
    ∃ d op, p ≤ d ∧ blk.ops[d]? = some op ∧ v ∈ op.results := by
  unfold Block.definedFrom at h
  rw [List.any_eq_true] at h
  obtain ⟨op, hmem, hc⟩ := h
  obtain ⟨i, hi, he⟩ := List.getElem_of_mem hmem
  refine ⟨p + i, op, Nat.le_add_right p i, ?_, by simpa using hc⟩
  rw [← List.getElem?_drop, List.getElem?_eq_getElem hi, he]

namespace MemoryAssignment

/-- The backward loop comes back at every position, keeps its invariant, and its
liveness is the full scan of the positions visited. -/
theorem sweepFrom_live (sw : Switches) (blk : Block) (tbl : List (String × Bool))
    (hwf : blk.WellFormed) (hres : blk.ResultsChecked tbl) (s0 : MemoryAssignment)
    (hinv : s0.Inv tbl) (hdead : ∀ v, s0.m_liveness.isLive v = false) (p : Nat) :
    ∃ s, sweepFrom sw blk p s0 = some s ∧ s.Inv tbl ∧
      ∀ v, s.m_liveness.isLive v = blk.scanLive p v := by
  have hbase : ∀ q, blk.ops.length ≤ q →
      ∃ s, sweepFrom sw blk q s0 = some s ∧ s.Inv tbl ∧
        ∀ v, s.m_liveness.isLive v = blk.scanLive q v := by
    intro q hq
    refine ⟨s0, sweepFrom_end sw blk hq s0, hinv, fun v => ?_⟩
    rw [hdead v]
    unfold Block.scanLive Block.usedFrom
    rw [List.drop_eq_nil_of_le hq]
    rfl
  have hall : ∀ k q, blk.ops.length ≤ q + k →
      ∃ s, sweepFrom sw blk q s0 = some s ∧ s.Inv tbl ∧
        ∀ v, s.m_liveness.isLive v = blk.scanLive q v := by
    intro k
    induction k with
    | zero => intro q hq; exact hbase q hq
    | succ k ih =>
        intro q hq
        by_cases hge : blk.ops.length ≤ q
        · exact hbase q hge
        · have hlt : q < blk.ops.length := Nat.lt_of_not_le hge
          have hop : blk.ops[q]? = some blk.ops[q] := List.getElem?_eq_getElem hlt
          obtain ⟨s1, e1, i1, v1⟩ := ih (q + 1) (by omega)
          obtain ⟨-, s2, -, e2, i2, -, -, -, v2⟩ := visit_spec sw blk i1 q blk.ops[q]
            (hres _ (List.getElem_mem hlt))
          refine ⟨s2, ?_, i2, fun v => ?_⟩
          · rw [sweepFrom_step sw blk hop, e1]
            exact e2
          · rw [v2 v, v1 v]
            unfold Block.scanLive
            rw [blk.usedFrom_step hop v, blk.definedFrom_step hop v]
            by_cases c1 : v ∈ blk.ops[q].operands
            · have hnd : blk.definedFrom q v = false := by
                cases hd : blk.definedFrom q v with
                | false => rfl
                | true =>
                    obtain ⟨d, opd, hle, hdop, hmem⟩ := Block.definedFrom_true hd
                    have := hwf.def_before_use d q opd _ v hdop hop hmem c1
                    omega
              rw [blk.definedFrom_step hop v] at hnd
              rw [hnd]
              simp [c1]
            · by_cases c2 : v ∈ blk.ops[q].results
              · simp [c1, c2]
              · simp [c1, c2]
  exact hall blk.ops.length p (Nat.le_add_left _ _)

end MemoryAssignment

/-! ## Checked regions -/

theorem not_mem_of_contains_false {l : List Value} {v : Value} (h : l.contains v = false) :
    v ∉ l := by
  intro hm
  have ht : l.contains v = true := by simpa using hm
  rw [h] at ht
  cases ht

theorem Block.wellFormed_of_check {blk : Block} (h : blk.wfCheck = true) : blk.WellFormed := by
  unfold Block.wfCheck at h
  rw [List.all_eq_true] at h
  have key : ∀ (d u : Nat) (opd opu : Operation) (v : Value), blk.ops[d]? = some opd →
      blk.ops[u]? = some opu → v ∈ opd.results →
      (v ∈ opu.results → d = u) ∧ (v ∈ opu.operands → d < u) := by
    intro d u opd opu v hd hu hv
    have h1 := h (d, opd) (List.mk_mem_enum_iff_getElem?.mpr hd)
    rw [List.all_eq_true] at h1
    have h2 := h1 (u, opu) (List.mk_mem_enum_iff_getElem?.mpr hu)
    rw [List.all_eq_true] at h2
    have h3 := h2 v hv
    simp only [Bool.and_eq_true, Bool.or_eq_true, Bool.not_eq_true', beq_iff_eq,
      decide_eq_true_eq] at h3
    constructor
    · intro hm
      rcases h3.1 with hx | hx
      · exact absurd hm (not_mem_of_contains_false hx)
      · exact hx
    · intro hm
      rcases h3.2 with hx | hx
      · exact absurd hm (not_mem_of_contains_false hx)
      · exact hx
  exact ⟨fun d1 d2 op1 op2 v h1 h2 m1 m2 => (key d1 d2 op1 op2 v h1 h2 m1).1 m2,
    fun d u opd opu v h1 h2 m1 m2 => (key d u opd opu v h1 h2 m1).2 m2⟩

namespace MemoryAssignment

theorem inv_of_sweepFrom {sw : Switches} {blk : Block} {tbl : List (String × Bool)}
    (hwf : blk.WellFormed) (hres : blk.ResultsChecked tbl) {p : Nat} {s : MemoryAssignment}
    (h : sweepFrom sw blk p (init tbl) = some s) : s.Inv tbl := by
  obtain ⟨s2, e, hinv, -⟩ := sweepFrom_live sw blk tbl hwf hres (init tbl) (init_inv tbl)
    (fun _ => rfl) p
  rw [h] at e
  exact Option.some.inj e ▸ hinv

end MemoryAssignment

/-! ## Induction along the loop -/

namespace MemoryAssignment

/-- Induction along the backward loop: a property that holds before the loop
and that every round keeps, holds at every position, and the loop gets there. -/
theorem sweepFrom_induct (sw : Switches) (blk : Block) (tbl : List (String × Bool))
    (hres : blk.ResultsChecked tbl) (Q : Nat → MemoryAssignment → Prop) (s0 : MemoryAssignment)
    (hinv : s0.Inv tbl) (h0 : ∀ q, blk.ops.length ≤ q → Q q s0)
    (hstep : ∀ q op s s1 s2, blk.ops[q]? = some op → s.Inv tbl → Q (q + 1) s →
      dispatch sw blk s q op = some s1 → visit sw blk s q op = some s2 → s2.Inv tbl →
      s2.m_memAnalysis = s1.m_memAnalysis → s2.m_bufferId = s1.m_bufferId →
      (∀ w, s2.m_liveness.isLive w =
        if w ∈ op.operands then true else if w ∈ op.results then false
        else s.m_liveness.isLive w) → Q q s2)
    (p : Nat) : ∃ s, sweepFrom sw blk p s0 = some s ∧ s.Inv tbl ∧ Q p s := by
  have hall : ∀ k q, blk.ops.length ≤ q + k →
      ∃ s, sweepFrom sw blk q s0 = some s ∧ s.Inv tbl ∧ Q q s := by
    intro k
    induction k with
    | zero => intro q hq; exact ⟨s0, sweepFrom_end sw blk hq s0, hinv, h0 q hq⟩
    | succ k ih =>
        intro q hq
        by_cases hge : blk.ops.length ≤ q
        · exact ⟨s0, sweepFrom_end sw blk hge s0, hinv, h0 q hge⟩
        · have hlt : q < blk.ops.length := Nat.lt_of_not_le hge
          have hop : blk.ops[q]? = some blk.ops[q] := List.getElem?_eq_getElem hlt
          obtain ⟨s, e, i1, q1⟩ := ih (q + 1) (by omega)
          obtain ⟨s1, s2, d1, e2, i2, m2, b2, -, v2⟩ := visit_spec sw blk i1 q blk.ops[q]
            (hres _ (List.getElem_mem hlt))
          refine ⟨s2, ?_, i2, hstep q _ s s1 s2 hop i1 q1 d1 e2 i2 m2 b2 v2⟩
          rw [sweepFrom_step sw blk hop, e]
          exact e2
  exact hall blk.ops.length p (Nat.le_add_left _ _)

/-- The axis loop returns exactly when, before it reaches the concatenation
axis, it meets an extent other than one. -/
theorem axisLoop_false_iff (axis : Nat) (shape : List Int) (k : Nat) :
    axisLoop axis shape k = false ↔
      ∃ i d, shape[i]? = some d ∧ d ≠ 1 ∧ ∀ j, j ≤ i → k + j ≠ axis := by
  induction shape generalizing k with
  | nil => simp [axisLoop]
  | cons d rest ih =>
      unfold axisLoop
      by_cases h1 : k = axis
      · rw [if_pos h1]
        simp only [Bool.true_eq_false, false_iff, not_exists, not_and]
        intro i e _ _ hall
        exact hall 0 (Nat.zero_le i) (by omega)
      · rw [if_neg h1]
        by_cases h2 : d ≠ 1
        · rw [if_pos h2]
          simp only [true_iff]
          exact ⟨0, d, List.getElem?_cons_zero, h2, fun j hj => by omega⟩
        · rw [if_neg h2, ih (k + 1)]
          constructor
          · rintro ⟨i, e, he, hne, hall⟩
            refine ⟨i + 1, e, by simpa using he, hne, fun j hj => ?_⟩
            cases j with
            | zero => exact h1
            | succ j2 =>
                have := hall j2 (by omega)
                omega
          · rintro ⟨i, e, he, hne, hall⟩
            cases i with
            | zero =>
                simp only [List.getElem?_cons_zero, Option.some.injEq] at he
                exact absurd (he ▸ hne) h2
            | succ i2 =>
                refine ⟨i2, e, by simpa using he, hne, fun j hj => ?_⟩
                have := hall (j + 1) (by omega)
                omega

theorem axisLoop_false_of_nonunit {axis : Nat} {shape : List Int}
    (h : ∃ i, i < axis ∧ ∃ d, shape[i]? = some d ∧ d ≠ 1) : axisLoop axis shape 0 = false := by
  obtain ⟨i, hi, d, hd, hne⟩ := h
  exact (axisLoop_false_iff axis shape 0).mpr ⟨i, d, hd, hne, fun j hj => by omega⟩

theorem getElem?_mem_ops {blk : Block} {q : Nat} {op : Operation}
    (h : blk.ops[q]? = some op) : op ∈ blk.ops := by
  have hlt : q < blk.ops.length := by
    by_contra hge
    rw [List.getElem?_eq_none (Nat.le_of_not_lt hge)] at h
    cases h
  rw [List.getElem?_eq_getElem hlt] at h
  exact Option.some.inj h ▸ List.getElem_mem hlt

theorem run_single_block (sw : Switches) (blk : Block) (s : MemoryAssignment)
    (h : sw.clEnableNgInPlaceMemory = true) : run sw [[blk]] s = sweepFrom sw blk 0 s := by
  unfold run
  rw [h]
  rfl

end MemoryAssignment

/-! ## Soundness of the elementwise reuse -/

theorem findDefiningOp_some {v : Value} {ops : List Operation} {k d : Nat}
    (h : findDefiningOp v ops k = some d) :
    ∃ j op, d = k + j ∧ ops[j]? = some op ∧ v ∈ op.results := by
  induction ops generalizing k with
  | nil => cases h
  | cons o rest ih =>
      unfold findDefiningOp at h
      by_cases c : o.results.contains v = true
      · rw [if_pos c] at h
        exact ⟨0, o, (Option.some.inj h).symm, List.getElem?_cons_zero, by simpa using c⟩
      · rw [if_neg c] at h
        obtain ⟨j, op, hd, hj, hv⟩ := ih h
        exact ⟨j + 1, op, by omega, by simpa using hj, hv⟩

theorem Block.getDefiningOp_some {blk : Block} {v : Value} {d : Nat}
    (h : blk.getDefiningOp v = some d) : ∃ op, blk.ops[d]? = some op ∧ v ∈ op.results := by
  obtain ⟨j, op, hd, hj, hv⟩ := findDefiningOp_some h
  exact ⟨op, by rw [hd, Nat.zero_add]; exact hj, hv⟩

/-- The liveness of the full scan moves one position down with one round. -/
theorem Block.scanLive_step {blk : Block} (hwf : blk.WellFormed) {q : Nat} {op : Operation}
    (hop : blk.ops[q]? = some op) (v : Value) :
    (if v ∈ op.operands then true else if v ∈ op.results then false
      else blk.scanLive (q + 1) v) = blk.scanLive q v := by
  unfold Block.scanLive
  rw [blk.usedFrom_step hop v, blk.definedFrom_step hop v]
  by_cases c1 : v ∈ op.operands
  · have hnd : blk.definedFrom q v = false := by
      cases hd : blk.definedFrom q v with
      | false => rfl
      | true =>
          obtain ⟨d, opd, hle, hdop, hmem⟩ := Block.definedFrom_true hd
          have := hwf.def_before_use d q opd _ v hdop hop hmem c1
          omega
    rw [blk.definedFrom_step hop v] at hnd
    rw [hnd]
    simp [c1]
  · by_cases c2 : v ∈ op.results
    · simp [c1, c2]
    · simp [c1, c2]

namespace MemoryAssignment

end MemoryAssignment


theorem eq_of_mem_of_length_le_one {l : List Value} (hl : l.length ≤ 1) {a b : Value}
    (ha : a ∈ l) (hb : b ∈ l) : a = b := by
  match l, hl, ha, hb with
  | [x], _, ha, hb =>
      rw [List.mem_singleton.mp ha, List.mem_singleton.mp hb]
  | _ :: _ :: _, hl, _, _ => simp at hl

theorem Block.isInputOrOutputValue_of_return {blk : Block} {v : Value} {useOp : Operation}
    (hmem : useOp ∈ blk.ops) (hret : useOp.isReturn = true) (hv : v ∈ useOp.operands) :
    blk.isInputOrOutputValue v = true := by
  unfold Block.isInputOrOutputValue
  split
  · rfl
  · rw [List.any_eq_true]
    refine ⟨useOp, hmem, ?_⟩
    rw [hret]
    simpa using hv

namespace MemoryAssignment

/-- The three outcomes of a reuse attempt: nothing, the elementwise assignment
for the selected operand, or the commit of a concat that passed every check. -/
theorem dispatch_cases {sw : Switches} {blk : Block} {s s1 : MemoryAssignment} {i : Nat}
    {op : Operation} (hf : s.m_aliasRelation.m_needsTransitiveClosure = false)
    (hres : s.isSafeInPlace op = true → op.results.length = 1)
    (hd : dispatch sw blk s i op = some s1) :
    s1 = s ∨
    (sw.clEnableNgInPlaceEltWise = true ∧ op.isConcat = false ∧ s.isSafeInPlace op = true ∧
      ∃ result u, op.results = [result] ∧ blk.isInputOrOutputValue result = false ∧
        (selectLoop blk s.m_liveness op.operands).1 = some u ∧
        s1 = noAliasLive (assignInPlace blk s i u) u) ∨
    (sw.clEnableNgInPlaceConcat = true ∧ op.isConcat = true ∧ s.isSafeInPlace op = true ∧
      ∃ result, ConcatAccepted blk s i op result ∧ processConcat blk s i op = some s1) := by
  unfold dispatch at hd
  by_cases h1 : s.isSafeInPlace op = true
  · rw [if_pos h1] at hd
    have hlen := hres h1
    by_cases h2 : op.isConcat = true
    · rw [if_pos h2] at hd
      by_cases h3 : sw.clEnableNgInPlaceConcat = true
      · rw [if_pos h3] at hd
        rcases processConcat_cases blk s i op hf
          (by intro hnil; rw [hnil] at hlen; cases hlen) with hsame | ⟨r, hacc⟩
        · rw [hsame] at hd
          exact Or.inl (Option.some.inj hd).symm
        · exact Or.inr (Or.inr ⟨h3, h2, h1, r, hacc, hd⟩)
      · rw [if_neg h3] at hd
        exact Or.inl (Option.some.inj hd).symm
    · rw [if_neg h2] at hd
      by_cases h3 : sw.clEnableNgInPlaceEltWise = true
      · rw [if_pos h3] at hd
        obtain ⟨result, hr⟩ := List.length_eq_one.mp hlen
        unfold processDestructiveInPlace at hd
        rw [hr] at hd
        simp only [] at hd
        by_cases h4 : blk.isInputOrOutputValue result = true
        · rw [if_pos h4] at hd
          exact Or.inl (Option.some.inj hd).symm
        · rw [if_neg h4] at hd
          cases hsel : (selectLoop blk s.m_liveness op.operands).1 with
          | none =>
              rw [hsel] at hd
              exact Or.inl (Option.some.inj hd).symm
          | some u =>
              rw [hsel] at hd
              exact Or.inr (Or.inl ⟨h3, by simpa using h2, h1, result, u, hr, by simpa using h4,
                rfl, (Option.some.inj hd).symm⟩)
      · rw [if_neg h3] at hd
        exact Or.inl (Option.some.inj hd).symm
  · rw [if_neg h1] at hd
    exact Or.inl (Option.some.inj hd).symm

/-- In a region whose operations define at most one value each, a reuse attempt
leaves alone the operation that defines an input or output value. -/
theorem dispatch_keeps_boundary {sw : Switches} {blk : Block} {s s1 : MemoryAssignment}
    {q : Nat} {op : Operation} (hone : ∀ o ∈ blk.ops, o.results.length ≤ 1)
    (hop : blk.ops[q]? = some op)
    (hf : s.m_aliasRelation.m_needsTransitiveClosure = false)
    (hres : s.isSafeInPlace op = true → op.results.length = 1)
    (hd : dispatch sw blk s q op = some s1) {d : Nat} {opd : Operation} {v : Value}
    (hopd : blk.ops[d]? = some opd) (hv : v ∈ opd.results)
    (hio : blk.isInputOrOutputValue v = true) :
    s1.m_memAnalysis.getBufferInfo d = s.m_memAnalysis.getBufferInfo d := by
  have hlen := hone opd (getElem?_mem_ops hopd)
  rcases dispatch_cases hf hres hd with hsame | ⟨-, -, -, result, u, hr, hnb, hsel, hs1⟩ |
      ⟨-, -, hsafe, r, hacc, hproc⟩
  · rw [hsame]
  · obtain ⟨-, -, hunb⟩ := selectLoop_some hsel
    obtain ⟨du, hdu⟩ := isInputOrOutputValue_false_def hunb
    obtain ⟨opdu, hopdu, hudu⟩ := Block.getDefiningOp_some hdu
    have hdq : d ≠ q := by
      intro e
      rw [e, hop] at hopd
      rw [← Option.some.inj hopd, hr] at hv
      rw [List.mem_singleton.mp hv, hnb] at hio
      cases hio
    have hddu : d ≠ du := by
      intro e
      rw [e, hopdu] at hopd
      rw [← Option.some.inj hopd] at hv hlen
      rw [eq_of_mem_of_length_le_one hlen hv hudu, hunb] at hio
      cases hio
    rw [hs1]
    exact (assignInPlace_spec blk s q u du hdu).2.2.2 d hdq hddu
  · have hlenq := hres hsafe
    obtain ⟨s3, e3, -, -, -, hframe⟩ := processConcat_total blk s q op hf
      (by intro hnil; rw [hnil] at hlenq; cases hlenq)
    rw [hproc] at e3
    rw [Option.some.inj e3]
    have hdq : d ≠ q := by
      intro e
      rw [e, hop] at hopd
      rw [← Option.some.inj hopd] at hv
      have hrm : r ∈ op.results := List.mem_of_mem_head? hacc.result_eq
      rw [eq_of_mem_of_length_le_one (Nat.le_of_eq hlenq) hv hrm, hacc.not_boundary] at hio
      cases hio
    refine hframe d hdq (fun i hi hdi => ?_)
    obtain ⟨opdi, hopdi, hvi⟩ := Block.getDefiningOp_some hdi
    rw [hopd] at hopdi
    rw [← Option.some.inj hopdi] at hvi
    have hmem : op.operands.getD i 0 ∈ op.operands := by
      rw [List.getD_eq_getElem _ 0 hi]
      exact List.getElem_mem hi
    rw [eq_of_mem_of_length_le_one hlen hv hvi, (aliasLoop_true hacc.alias_ok _ hmem).2] at hio
    cases hio

end MemoryAssignment

namespace MemoryAssignment

theorem dispatch_not_safe {sw : Switches} {blk : Block} {s : MemoryAssignment} {i : Nat}
    {op : Operation} (h : s.isSafeInPlace op = false) : dispatch sw blk s i op = some s := by
  unfold dispatch
  rw [h]
  rfl

theorem dispatch_eltwise {sw : Switches} {blk : Block} {s : MemoryAssignment} {i : Nat}
    {op : Operation} (h1 : s.isSafeInPlace op = true) (h2 : op.isConcat = false)
    (h3 : sw.clEnableNgInPlaceEltWise = true) :
    dispatch sw blk s i op = processDestructiveInPlace blk s i op := by
  unfold dispatch
  rw [h1, h2, h3]
  rfl

theorem visit_alias {sw : Switches} {blk : Block} {s s1 s2 : MemoryAssignment} {i : Nat}
    {op : Operation} (hd : dispatch sw blk s i op = some s1)
    (hv : visit sw blk s i op = some s2) : s2.m_aliasRelation = s1.m_aliasRelation := by
  unfold visit at hv
  rw [hd] at hv
  simp only [] at hv
  split at hv
  · cases hv
  · rw [← Option.some.inj hv]

theorem isValid_of_nonneg {id off : Int} (h : 0 ≤ id) :
    ({ m_bufferId := id, m_offset := off } : BufferInfo).isValid = true := by
  unfold BufferInfo.isValid
  simp only [bne_iff_ne, ne_eq]
  omega

/-- With the elementwise reuse switched off, a reuse attempt leaves the alias
relation alone, does not lower the counter and keeps every valid `BufferInfo`. -/
theorem dispatch_concat_only {sw : Switches} {blk : Block} {s s1 : MemoryAssignment} {i : Nat}
    {op : Operation} (helt : sw.clEnableNgInPlaceEltWise = false)
    (hf : s.m_aliasRelation.m_needsTransitiveClosure = false)
    (hres : s.isSafeInPlace op = true → op.results.length = 1)
    (hd : dispatch sw blk s i op = some s1) :
    s1.m_aliasRelation = s.m_aliasRelation ∧ s.m_bufferId ≤ s1.m_bufferId ∧
    ∀ o, (s.m_memAnalysis.getBufferInfo o).isValid = true →
      s1.m_memAnalysis.getBufferInfo o = s.m_memAnalysis.getBufferInfo o := by
  rcases dispatch_cases hf hres hd with hsame | ⟨h3, -⟩ | ⟨-, -, hsafe, r, hacc, hproc⟩
  · rw [hsame]
    exact ⟨rfl, Int.le_refl _, fun _ _ => rfl⟩
  · rw [helt] at h3
    cases h3
  · have hlen := hres hsafe
    have hne : op.results ≠ [] := by intro hnil; rw [hnil] at hlen; cases hlen
    refine ⟨?_, ?_, processConcat_keeps_valid blk s s1 i op hf hne hproc⟩
    · obtain ⟨s3, e3, -, hal, -⟩ := processConcat_total blk s i op hf hne
      rw [hproc] at e3
      rw [Option.some.inj e3]
      exact hal
    · rw [processConcat_accepted hacc] at hproc
      obtain ⟨s3, e3, -, -, -, hb, -⟩ := commitConcat_spec blk s i op.operands
        (offsetLoop blk op.operands).2 _ _ (operandsDefined_of_aliasLoop hacc.alias_ok)
      rw [hproc] at e3
      rw [Option.some.inj e3, hb]
      split <;> omega

theorem axisLoop_true_of_unit {axis : Nat} {shape : List Int}
    (h : ∀ i, i < axis → ∀ d, shape[i]? = some d → d = 1) : axisLoop axis shape 0 = true := by
  cases hax : axisLoop axis shape 0 with
  | true => rfl
  | false =>
      obtain ⟨i, d, hd, hne, hall⟩ := (axisLoop_false_iff axis shape 0).mp hax
      have hi : i < axis := by
        by_contra hge
        exact hall axis (Nat.le_of_not_lt hge) (Nat.zero_add axis)
      exact absurd (h i hi d hd) hne

end MemoryAssignment


/-! ## Reachable states of the two helper classes -/

namespace LivenessAnalysis

theorem reset_wf (l : LivenessAnalysis) : l.reset.WF := empty_wf

/-- Every sequence of calls comes back, and the tracker it leaves is well formed. -/
theorem afterCalls_wf (calls : List Call) {l : LivenessAnalysis} (h : l.WF) :
    ∃ l2, afterCalls calls l = some l2 ∧ l2.WF := by
  induction calls generalizing l with
  | nil => exact ⟨l, rfl, h⟩
  | cons c cs ih =>
      cases c with
      | reset =>
          obtain ⟨l2, e, w⟩ := ih (reset_wf l)
          exact ⟨l2, e, w⟩
      | setLive v =>
          obtain ⟨l1, e1, w1, -⟩ := setLive_spec h v
          obtain ⟨l2, e, w⟩ := ih w1
          refine ⟨l2, ?_, w⟩
          show ((l.setLive v).bind (afterCalls cs)) = some l2
          rw [e1]
          exact e
      | kill v =>
          obtain ⟨l2, e, w⟩ := ih (kill_spec h v).1
          exact ⟨l2, e, w⟩

/-- A value that no call of `setLive` has named has no index. -/
theorem afterCalls_unobserved (calls : List Call) {l l2 : LivenessAnalysis} {v : Value}
    (h : afterCalls calls l = some l2) (hl : l.m_valueToIdx.lookup v = none)
    (hc : ∀ c ∈ calls, c ≠ Call.setLive v) : l2.m_valueToIdx.lookup v = none := by
  induction calls generalizing l with
  | nil =>
      rw [← Option.some.inj h]
      exact hl
  | cons c cs ih =>
      have hcs : ∀ c2 ∈ cs, c2 ≠ Call.setLive v := fun c2 h2 => hc c2 (List.mem_cons_of_mem c h2)
      cases c with
      | reset => exact ih (l := l.reset) h rfl hcs
      | setLive w =>
          have hwv : w ≠ v := by
            intro e
            exact hc (Call.setLive w) (List.mem_cons_self _ _) (by rw [e])
          change ((l.setLive w).bind (afterCalls cs)) = some l2 at h
          cases hs : l.setLive w with
          | none => rw [hs] at h; cases h
          | some l1 =>
              rw [hs] at h
              refine ih (l := l1) h ?_ hcs
              unfold setLive at hs
              cases hw : l.m_valueToIdx.lookup w with
              | none =>
                  rw [hw] at hs
                  simp only [] at hs
                  split at hs
                  · rw [← Option.some.inj hs]
                    show List.lookup v ((w, l.m_maxIdx) :: l.m_valueToIdx) = none
                    rw [List.lookup_cons]
                    have hb : (v == w) = false := by simpa using (Ne.symm hwv)
                    rw [hb]
                    exact hl
                  · cases hs
              | some idx =>
                  rw [hw] at hs
                  rw [← Option.some.inj hs]
                  exact hl
      | kill w =>
          refine ih (l := l.kill w) h ?_ hcs
          unfold kill
          cases l.m_valueToIdx.lookup w with
          | none => exact hl
          | some idx => exact hl

theorem getLiveValues_nodup {l : LivenessAnalysis} (h : l.WF) : l.getLiveValues.Nodup := by
  unfold getLiveValues
  rw [liveValues_fold (fun entry => l.m_liveness.getD entry.2 false)]
  rw [List.nil_append]
  exact h.keys.sublist (List.Sublist.map Prod.fst (List.filter_sublist _))

end LivenessAnalysis

namespace AliasRelation

theorem findOrAdd_lookup_none {map : List (Value × Nat)} {maxIdx : Nat} {v w : Value}
    (hw : map.lookup w = none) (hne : w ≠ v) :
    (findOrAdd map maxIdx v).2.1.lookup w = none := by
  unfold findOrAdd
  cases map.lookup v with
  | none =>
      show List.lookup w ((v, maxIdx) :: map) = none
      rw [List.lookup_cons]
      have hb : (w == v) = false := by simpa using hne
      rw [hb]
      exact hw
  | some idx => exact hw

/-- A call `insertNoAlias(a, b)` gives an index to `a` and `b` only. -/
theorem insertNoAlias_lookup_none {r : AliasRelation} {a b w : Value}
    (hw : r.m_valueToIdx.lookup w = none) (ha : w ≠ a) (hb : w ≠ b) :
    (r.insertNoAlias a b).m_valueToIdx.lookup w = none :=
  findOrAdd_lookup_none (findOrAdd_lookup_none hw ha) hb

theorem insertAll_lookup_none (calls : List (Value × Value)) (r : AliasRelation) {w : Value}
    (hw : r.m_valueToIdx.lookup w = none) (hc : ∀ c ∈ calls, c.1 ≠ w ∧ c.2 ≠ w) :
    (calls.foldl (fun acc c => acc.insertNoAlias c.1 c.2) r).m_valueToIdx.lookup w = none := by
  induction calls generalizing r with
  | nil => exact hw
  | cons c rest ih =>
      rw [List.foldl_cons]
      have h1 := hc c (List.mem_cons_self c rest)
      exact ih _ (insertNoAlias_lookup_none hw (Ne.symm h1.1) (Ne.symm h1.2))
        (fun c2 h2 => hc c2 (List.mem_cons_of_mem c h2))

theorem canAlias_of_unknown {r : AliasRelation} (hf : r.m_needsTransitiveClosure = false)
    {a b : Value} (h : r.m_valueToIdx.lookup a = none ∨ r.m_valueToIdx.lookup b = none) :
    r.canAlias a b = some true := by
  unfold canAlias
  rw [hf]
  simp only [Bool.false_eq_true, if_false]
  rcases h with h | h
  · rw [h]
  · rw [h]
    cases r.m_valueToIdx.lookup a <;> rfl

theorem canAlias_false_known {r : AliasRelation} {a b : Value}
    (h : r.canAlias a b = some false) :
    ∃ ai bi, r.m_valueToIdx.lookup a = some ai ∧ r.m_valueToIdx.lookup b = some bi := by
  unfold canAlias at h
  split at h
  · cases h
  · cases ha : r.m_valueToIdx.lookup a with
    | none => rw [ha] at h; cases h
    | some ai =>
        cases hb : r.m_valueToIdx.lookup b with
        | none => rw [ha, hb] at h; cases h
        | some bi => exact ⟨ai, bi, rfl, rfl⟩

end AliasRelation


/-! ## Runs that come back -/

namespace MemoryAssignment

/-- A call of `processConcat` that comes back leaves the liveness tracker and the
table alone. -/
theorem processConcat_frame {blk : Block} {s s2 : MemoryAssignment} {op : Nat}
    {concat : Operation} (h : processConcat blk s op concat = some s2) :
    s2.m_liveness = s.m_liveness ∧ s2.m_inplaceOps = s.m_inplaceOps := by
  have hcommit : ∀ offs b o, commitConcat blk s op concat.operands offs b o = some s2 →
      s2.m_liveness = s.m_liveness ∧ s2.m_inplaceOps = s.m_inplaceOps := by
    intro offs b o hc
    obtain ⟨m2, -, e⟩ := commitConcat_eq hc
    rw [e]
    exact ⟨rfl, rfl⟩
  unfold processConcat at h
  simp only [] at h
  repeat' split at h
  all_goals first
    | exact hcommit _ _ _ h
    | (cases h; first | done | exact ⟨rfl, rfl⟩)

/-- A reuse attempt that comes back leaves the liveness tracker and the table
alone. -/
theorem dispatch_frame {sw : Switches} {blk : Block} {s s1 : MemoryAssignment} {i : Nat}
    {op : Operation} (h : dispatch sw blk s i op = some s1) :
    s1.m_liveness = s.m_liveness ∧ s1.m_inplaceOps = s.m_inplaceOps := by
  unfold dispatch at h
  split at h
  · split at h
    · split at h
      · exact processConcat_frame h
      · rw [← Option.some.inj h]; exact ⟨rfl, rfl⟩
    · split at h
      · unfold processDestructiveInPlace at h
        split at h
        · split at h
          · rw [← Option.some.inj h]; exact ⟨rfl, rfl⟩
          · split at h
            · rw [← Option.some.inj h]; exact ⟨rfl, rfl⟩
            · rename_i use _
              rw [← Option.some.inj h]
              obtain ⟨f1, -, f3⟩ := assignInPlace_fields blk s i use
              exact ⟨f1, f3⟩
        · cases h
      · rw [← Option.some.inj h]; exact ⟨rfl, rfl⟩
  · rw [← Option.some.inj h]; exact ⟨rfl, rfl⟩

/-- A round of the backward loop that comes back has killed the results and then
marked the operands live. -/
theorem visit_live {sw : Switches} {blk : Block} {s s2 : MemoryAssignment} {i : Nat}
    {op : Operation} (hw : s.m_liveness.WF) (hv : visit sw blk s i op = some s2) :
    s2.m_liveness.WF ∧ s2.m_inplaceOps = s.m_inplaceOps ∧
    ∀ w, s2.m_liveness.isLive w =
      if w ∈ op.operands then true else if w ∈ op.results then false
      else s.m_liveness.isLive w := by
  unfold visit at hv
  cases hd : dispatch sw blk s i op with
  | none => rw [hd] at hv; cases hv
  | some s1 =>
      rw [hd] at hv
      simp only [] at hv
      obtain ⟨f1, f2⟩ := dispatch_frame hd
      obtain ⟨k1, k2⟩ := LivenessAnalysis.killAll_spec op.results (f1 ▸ hw)
      obtain ⟨l2, e2, w2, v2⟩ := LivenessAnalysis.setLiveAll_spec op.operands k1
      rw [e2] at hv
      rw [← Option.some.inj hv]
      refine ⟨w2, f2, fun w => ?_⟩
      show l2.isLive w = _
      rw [v2 w, k2 w, f1]

/-- Induction along the backward loop for a run that comes back. -/
theorem sweepFrom_induct_of_some (sw : Switches) (blk : Block)
    (Q : Nat → MemoryAssignment → Prop) (s0 : MemoryAssignment)
    (h0 : ∀ q, blk.ops.length ≤ q → Q q s0)
    (hstep : ∀ q op s s2, blk.ops[q]? = some op → sweepFrom sw blk (q + 1) s0 = some s →
      Q (q + 1) s → visit sw blk s q op = some s2 → Q q s2)
    (p : Nat) (s : MemoryAssignment) (h : sweepFrom sw blk p s0 = some s) : Q p s := by
  have hall : ∀ k q t, blk.ops.length ≤ q + k → sweepFrom sw blk q s0 = some t → Q q t := by
    intro k
    induction k with
    | zero =>
        intro q t hq ht
        rw [sweepFrom_end sw blk (by omega) s0] at ht
        rw [← Option.some.inj ht]
        exact h0 q (by omega)
    | succ k ih =>
        intro q t hq ht
        by_cases hge : blk.ops.length ≤ q
        · rw [sweepFrom_end sw blk hge s0] at ht
          rw [← Option.some.inj ht]
          exact h0 q hge
        · have hlt : q < blk.ops.length := Nat.lt_of_not_le hge
          have hop : blk.ops[q]? = some blk.ops[q] := List.getElem?_eq_getElem hlt
          rw [sweepFrom_step sw blk hop] at ht
          cases hs : sweepFrom sw blk (q + 1) s0 with
          | none => rw [hs] at ht; cases ht
          | some s1 =>
              rw [hs] at ht
              exact hstep q _ s1 t hop hs (ih (q + 1) s1 (by omega) hs) ht
  exact hall blk.ops.length p s (Nat.le_add_left _ _) h

/-- A run that has come back to position `p` has a well-formed tracker, the table
it began with, and the liveness of the full scan from `p`. -/
theorem sweepFrom_scan_of_some (sw : Switches) (blk : Block) (tbl : List (String × Bool))
    (hwf : blk.WellFormed) (p : Nat) (s : MemoryAssignment)
    (h : sweepFrom sw blk p (init tbl) = some s) :
    s.m_liveness.WF ∧ s.m_inplaceOps = tbl ∧ ∀ v, s.m_liveness.isLive v = blk.scanLive p v := by
  refine sweepFrom_induct_of_some sw blk
    (fun q t => t.m_liveness.WF ∧ t.m_inplaceOps = tbl ∧
      ∀ v, t.m_liveness.isLive v = blk.scanLive q v) (init tbl) ?_ ?_ p s h
  · intro q hq
    refine ⟨LivenessAnalysis.empty_wf, rfl, fun v => ?_⟩
    unfold Block.scanLive Block.usedFrom
    rw [List.drop_eq_nil_of_le hq]
    rfl
  · intro q op t t2 hop _ hQ hv
    obtain ⟨w1, tb1, l1⟩ := hQ
    obtain ⟨w2, tb2, l2⟩ := visit_live w1 hv
    refine ⟨w2, tb2.trans tb1, fun v => ?_⟩
    rw [l2 v, l1 v]
    exact Block.scanLive_step hwf hop v

/-- A run that has come back to position `p` has the table it began with. -/
theorem sweepFrom_table_of_some (sw : Switches) (blk : Block) (s0 : MemoryAssignment)
    (p : Nat) (s : MemoryAssignment) (h : sweepFrom sw blk p s0 = some s) :
    s.m_inplaceOps = s0.m_inplaceOps := by
  refine sweepFrom_induct_of_some sw blk (fun _ t => t.m_inplaceOps = s0.m_inplaceOps) s0
    (fun _ _ => rfl) ?_ p s h
  intro q op t t2 _ _ hQ hv
  unfold visit at hv
  cases hd : dispatch sw blk t q op with
  | none => rw [hd] at hv; cases hv
  | some t1 =>
      rw [hd] at hv
      simp only [] at hv
      split at hv
      · cases hv
      · rw [← Option.some.inj hv]
        exact (dispatch_frame hd).2.trans hQ

/-- A run that comes back at position 0 has come back at every position. -/
theorem sweepFrom_some_of_zero (sw : Switches) (blk : Block) (s0 : MemoryAssignment)
    {s : MemoryAssignment} (h : sweepFrom sw blk 0 s0 = some s) (p : Nat) :
    ∃ t, sweepFrom sw blk p s0 = some t := by
  induction p with
  | zero => exact ⟨s, h⟩
  | succ p ih =>
      obtain ⟨t, ht⟩ := ih
      by_cases hge : blk.ops.length ≤ p
      · exact ⟨s0, sweepFrom_end sw blk (by omega) s0⟩
      · have hlt : p < blk.ops.length := Nat.lt_of_not_le hge
        have hop : blk.ops[p]? = some blk.ops[p] := List.getElem?_eq_getElem hlt
        rw [sweepFrom_step sw blk hop] at ht
        cases hs : sweepFrom sw blk (p + 1) s0 with
        | none => rw [hs] at ht; cases ht
        | some s1 => exact ⟨s1, rfl⟩

end MemoryAssignment

namespace MemoryAssignment

/-- The reuse attempt is skipped for an operation the table does not mark as
in-place and for an operation whose switch is off. -/
theorem dispatch_gated {sw : Switches} {blk : Block} {s : MemoryAssignment} {i : Nat}
    {op : Operation}
    (h : s.m_inplaceOps.lookup op.name = none ∨ s.m_inplaceOps.lookup op.name = some false ∨
      (op.isConcat = true ∧ sw.clEnableNgInPlaceConcat = false) ∨
      (op.isConcat = false ∧ sw.clEnableNgInPlaceEltWise = false)) :
    dispatch sw blk s i op = some s := by
  unfold dispatch
  rcases h with h | h | ⟨h1, h2⟩ | ⟨h1, h2⟩
  · have : s.isSafeInPlace op = false := by unfold isSafeInPlace; rw [h]
    rw [this]; rfl
  · have : s.isSafeInPlace op = false := by unfold isSafeInPlace; rw [h]
    rw [this]; rfl
  · rw [h1, h2]
    cases s.isSafeInPlace op <;> rfl
  · rw [h1, h2]
    cases s.isSafeInPlace op <;> rfl

/-- With both reuse switches off the backward loop comes back at every position
and has changed nothing but the liveness tracker. -/
theorem sweepFrom_gated (sw : Switches) (blk : Block) (s0 : MemoryAssignment)
    (hc : sw.clEnableNgInPlaceConcat = false) (he : sw.clEnableNgInPlaceEltWise = false)
    (hw : s0.m_liveness.WF) (p : Nat) :
    ∃ s, sweepFrom sw blk p s0 = some s ∧ s.m_liveness.WF ∧
      s.m_memAnalysis = s0.m_memAnalysis ∧ s.m_bufferId = s0.m_bufferId ∧
      s.m_aliasRelation = s0.m_aliasRelation ∧ s.m_inplaceOps = s0.m_inplaceOps := by
  have hall : ∀ k q, blk.ops.length ≤ q + k →
      ∃ s, sweepFrom sw blk q s0 = some s ∧ s.m_liveness.WF ∧
        s.m_memAnalysis = s0.m_memAnalysis ∧ s.m_bufferId = s0.m_bufferId ∧
        s.m_aliasRelation = s0.m_aliasRelation ∧ s.m_inplaceOps = s0.m_inplaceOps := by
    intro k
    induction k with
    | zero => intro q hq; exact ⟨s0, sweepFrom_end sw blk (by omega) s0, hw, rfl, rfl, rfl, rfl⟩
    | succ k ih =>
        intro q hq
        by_cases hge : blk.ops.length ≤ q
        · exact ⟨s0, sweepFrom_end sw blk hge s0, hw, rfl, rfl, rfl, rfl⟩
        · have hlt : q < blk.ops.length := Nat.lt_of_not_le hge
          have hop : blk.ops[q]? = some blk.ops[q] := List.getElem?_eq_getElem hlt
          obtain ⟨s, e, w, m, b, a, t⟩ := ih (q + 1) (by omega)
          have hd : dispatch sw blk s q blk.ops[q] = some s := by
            cases hcon : blk.ops[q].isConcat with
            | true => exact dispatch_gated (Or.inr (Or.inr (Or.inl ⟨hcon, hc⟩)))
            | false => exact dispatch_gated (Or.inr (Or.inr (Or.inr ⟨hcon, he⟩)))
          obtain ⟨k1, -⟩ := LivenessAnalysis.killAll_spec blk.ops[q].results w
          obtain ⟨l2, e2, w2, -⟩ := LivenessAnalysis.setLiveAll_spec blk.ops[q].operands k1
          refine ⟨{ s with m_liveness := l2 }, ?_, w2, m, b, a, t⟩
          rw [sweepFrom_step sw blk hop, e]
          show visit sw blk s q blk.ops[q] = _
          unfold visit
          rw [hd]
          simp only []
          rw [e2]
  exact hall blk.ops.length p (Nat.le_add_left _ _)

end MemoryAssignment


/-! ## The last candidate -/

namespace MemoryAssignment

theorem getLast?_filter_none {p : Value → Bool} {l : List Value} :
    (l.filter p).getLast? = none ↔ ∀ w ∈ l, p w = false := by
  rw [List.getLast?_eq_none_iff, List.filter_eq_nil_iff]
  simp

/-- The last element of a list that satisfies `p`, by its position. -/
theorem getLast?_filter_some {p : Value → Bool} {l : List Value} {u : Value} :
    (l.filter p).getLast? = some u ↔
      ∃ pre post, l = pre ++ u :: post ∧ p u = true ∧ ∀ w ∈ post, p w = false := by
  induction l with
  | nil => simp
  | cons x rest ih =>
      by_cases hrest : (rest.filter p).getLast? = none
      · have hall := getLast?_filter_none.mp hrest
        cases hx : p x with
        | true =>
            rw [List.filter_cons_of_pos hx, getLast?_cons_or, hrest]
            simp only [Option.or, Option.some.injEq]
            constructor
            · intro e
              subst e
              exact ⟨[], rest, rfl, hx, hall⟩
            · rintro ⟨pre, post, e, hu, hpost⟩
              cases pre with
              | nil =>
                  simp only [List.nil_append, List.cons.injEq] at e
                  exact e.1
              | cons y pre2 =>
                  simp only [List.cons_append, List.cons.injEq] at e
                  have hmem : u ∈ rest := by rw [e.2]; simp
                  rw [hall u hmem] at hu
                  cases hu
        | false =>
            rw [List.filter_cons_of_neg (by simp [hx]), hrest]
            constructor
            · intro e; cases e
            · rintro ⟨pre, post, e, hu, hpost⟩
              cases pre with
              | nil =>
                  simp only [List.nil_append, List.cons.injEq] at e
                  rw [← e.1, hx] at hu
                  cases hu
              | cons y pre2 =>
                  simp only [List.cons_append, List.cons.injEq] at e
                  have hmem : u ∈ rest := by rw [e.2]; simp
                  rw [hall u hmem] at hu
                  cases hu
      · obtain ⟨v, hv⟩ := Option.ne_none_iff_exists'.mp hrest
        have hsame : ((x :: rest).filter p).getLast? = (rest.filter p).getLast? := by
          cases hx : p x with
          | true =>
              rw [List.filter_cons_of_pos hx, getLast?_cons_or, hv]
              rfl
          | false => rw [List.filter_cons_of_neg (by simp [hx])]
        rw [hsame, ih]
        constructor
        · rintro ⟨pre, post, e, hu, hpost⟩
          exact ⟨x :: pre, post, by rw [e]; rfl, hu, hpost⟩
        · rintro ⟨pre, post, e, hu, hpost⟩
          cases pre with
          | nil =>
              exfalso
              simp only [List.nil_append, List.cons.injEq] at e
              exact hrest (getLast?_filter_none.mpr (e.2 ▸ hpost))
          | cons y pre2 =>
              simp only [List.cons_append, List.cons.injEq] at e
              exact ⟨pre2, post, e.2, hu, hpost⟩

end MemoryAssignment


/-! ## The relation is the connectivity of the inserted pairs -/

namespace AliasRelation

theorem lookup_cons_eq (map : List (Value × Nat)) (v w : Value) (n : Nat) :
    List.lookup w ((v, n) :: map) = if w = v then some n else map.lookup w := by
  rw [List.lookup_cons]
  by_cases e : w = v
  · simp [e]
  · have hb : (w == v) = false := by simpa using e
    rw [hb, if_neg e]

theorem findOrAdd_indexMap {map : List (Value × Nat)} {n : Nat} (h : IndexMap map n)
    (v : Value) :
    IndexMap (findOrAdd map n v).2.1 (findOrAdd map n v).2.2.1 ∧
    (findOrAdd map n v).2.2.2 = (if map.lookup v = none then 1 else 0) ∧
    (∀ w i, (findOrAdd map n v).2.1.lookup w = some i → map.lookup w = some i ∨ w = v) ∧
    ((findOrAdd map n v).2.1.lookup v = none → False) := by
  unfold findOrAdd
  cases hl : map.lookup v with
  | none =>
      simp only [if_true]
      refine ⟨⟨?_, ?_, ?_⟩, trivial, ?_, ?_⟩
      · intro w i hw
        rw [lookup_cons_eq] at hw
        by_cases e : w = v
        · rw [if_pos e] at hw
          have := Option.some.inj hw
          omega
        · rw [if_neg e] at hw
          have := h.idx_lt w i hw
          omega
      · intro w1 w2 i h1 h2
        rw [lookup_cons_eq] at h1 h2
        by_cases e1 : w1 = v
        · by_cases e2 : w2 = v
          · rw [e1, e2]
          · rw [if_pos e1] at h1
            rw [if_neg e2] at h2
            have := h.idx_lt w2 i h2
            have := Option.some.inj h1
            omega
        · by_cases e2 : w2 = v
          · rw [if_neg e1] at h1
            rw [if_pos e2] at h2
            have := h.idx_lt w1 i h1
            have := Option.some.inj h2
            omega
          · rw [if_neg e1] at h1
            rw [if_neg e2] at h2
            exact h.inj w1 w2 i h1 h2
      · intro i hi
        by_cases e : i = n
        · refine ⟨v, ?_⟩
          rw [lookup_cons_eq, if_pos rfl, e]
        · obtain ⟨w, hw⟩ := h.onto i (by omega)
          refine ⟨w, ?_⟩
          have hne : w ≠ v := by
            intro e2
            rw [e2, hl] at hw
            cases hw
          rw [lookup_cons_eq, if_neg hne]
          exact hw
      · intro w i hw
        rw [lookup_cons_eq] at hw
        by_cases e : w = v
        · exact Or.inr e
        · rw [if_neg e] at hw
          exact Or.inl hw
      · intro hx
        rw [lookup_cons_eq, if_pos rfl] at hx
        cases hx
  | some idx =>
      refine ⟨h, by simp, fun w i hw => Or.inl hw, fun hx => ?_⟩
      simp only [] at hx
      rw [hl] at hx
      cases hx

/-- What a call of `insertNoAlias` does to the index map. -/
theorem insertNoAlias_index {r : AliasRelation} (h : IndexMap r.m_valueToIdx r.m_maxIdx)
    (a b : Value) :
    IndexMap (r.insertNoAlias a b).m_valueToIdx (r.insertNoAlias a b).m_maxIdx ∧
    (r.insertNoAlias a b).m_maxIdx = r.m_maxIdx + r.unseenCount a b ∧
    (∀ w i, (r.insertNoAlias a b).m_valueToIdx.lookup w = some i →
      r.m_valueToIdx.lookup w = some i ∨ w = a ∨ w = b) := by
  obtain ⟨i1, c1, l1, k1⟩ := findOrAdd_indexMap h a
  obtain ⟨i2, c2, l2, -⟩ := findOrAdd_indexMap i1 b
  obtain ⟨m1, -, -, -, p1, -⟩ := findOrAdd_spec r.m_valueToIdx r.m_maxIdx a h.idx_lt
  obtain ⟨m2, -⟩ := findOrAdd_spec (findOrAdd r.m_valueToIdx r.m_maxIdx a).2.1
    (findOrAdd r.m_valueToIdx r.m_maxIdx a).2.2.1 b i1.idx_lt
  refine ⟨i2, ?_, fun w i hw => ?_⟩
  · show (findOrAdd (findOrAdd r.m_valueToIdx r.m_maxIdx a).2.1
      (findOrAdd r.m_valueToIdx r.m_maxIdx a).2.2.1 b).2.2.1 = _
    rw [m2, c2, m1, c1]
    unfold unseenCount
    have hiff : (findOrAdd r.m_valueToIdx r.m_maxIdx a).2.1.lookup b = none ↔
        (r.m_valueToIdx.lookup b = none ∧ b ≠ a) := by
      constructor
      · intro hn
        refine ⟨?_, fun e => k1 (e ▸ hn)⟩
        cases hb : r.m_valueToIdx.lookup b with
        | none => rfl
        | some j =>
            rw [p1 b j hb] at hn
            cases hn
      · rintro ⟨hn, hne⟩
        exact findOrAdd_lookup_none hn hne
    simp only [hiff]
    omega
  · rcases l2 w i hw with h1 | h1
    · rcases l1 w i h1 with h0 | h0
      · exact Or.inl h0
      · exact Or.inr (Or.inl h0)
    · exact Or.inr (Or.inr h1)

/-- The matrix before the closure: the old entries and the inserted pair. -/
theorem insertEdge_at {r : AliasRelation} (h : r.WF) (a b : Value) :
    ∃ ai bi, (insertEdge r a b).m_valueToIdx.lookup a = some ai ∧
      (insertEdge r a b).m_valueToIdx.lookup b = some bi ∧
      ∀ i j, (insertEdge r a b).m_reachability.at i j =
        if i = bi ∧ j = ai then 1 else if i = ai ∧ j = bi then 1 else r.m_reachability.at i j := by
  obtain ⟨fa1, fa2, fa3, fa4, fa5, fa6⟩ := findOrAdd_spec r.m_valueToIdx r.m_maxIdx a h.idx_lt
  obtain ⟨fb1, fb2, fb3, fb4, fb5, fb6⟩ :=
    findOrAdd_spec (findOrAdd r.m_valueToIdx r.m_maxIdx a).2.1
      (findOrAdd r.m_valueToIdx r.m_maxIdx a).2.2.1 b fa6
  unfold insertEdge
  simp only []
  generalize findOrAdd r.m_valueToIdx r.m_maxIdx a = fa at *
  generalize findOrAdd fa.2.1 fa.2.2.1 b = fb at *
  have hmax : fb.2.2.1 = r.m_maxIdx + (fa.2.2.2 + fb.2.2.2) := by omega
  have hai : fa.1 < fb.2.2.1 := by omega
  obtain ⟨gsq, gat⟩ := growMatrix_spec h.square (fa.2.2.2 + fb.2.2.2) (by omega)
  rw [← hmax] at gsq gat
  have psq := gsq.put fa.1 fb.1 1
  refine ⟨fa.1, fb.1, fb5 a fa.1 fa4, fb4, fun i j => ?_⟩
  rw [Matrix.at_put psq fb3 hai, Matrix.at_put gsq hai fb3, gat]

/-- The closure loops only add entries that a transitive relation containing the
matrix contains. -/
theorem closureLoop_sound {n : Nat} {m : Matrix} (h : Square n m) (P : Nat → Nat → Prop)
    (htr : ∀ i k j, P i k → P k j → P i j) (hm : ∀ i j, m.at i j ≠ 0 → P i j) (K : Nat) :
    ∀ i j, (forLoop K (fun k mk => closureStep n k mk) m).at i j ≠ 0 → P i j := by
  induction K with
  | zero => exact hm
  | succ K ih =>
      intro i j hij
      rw [forLoop_succ, closureStep_ne_zero (closureLoop_spec h K).1] at hij
      rcases hij with h1 | ⟨h1, h2⟩
      · exact ih i j h1
      · exact htr i K j (ih i K h1) (ih K j h2)

theorem connected_mono {calls : List (Value × Value)} (c : Value × Value) {a b : Value}
    (h : Connected calls a b) : Connected (calls ++ [c]) a b := by
  unfold Connected at h ⊢
  exact Relation.EqvGen.mono (fun x y hxy => List.mem_append_left _ hxy) h

theorem seen_append (calls : List (Value × Value)) (a b v : Value) :
    Seen (calls ++ [(a, b)]) v ↔ Seen calls v ∨ v = a ∨ v = b := by
  unfold Seen
  constructor
  · rintro ⟨c, hc, hv⟩
    rcases List.mem_append.mp hc with h1 | h1
    · exact Or.inl ⟨c, h1, hv⟩
    · rw [List.mem_singleton.mp h1] at hv
      rcases hv with e | e
      · exact Or.inr (Or.inl e.symm)
      · exact Or.inr (Or.inr e.symm)
  · rintro (⟨c, hc, hv⟩ | e | e)
    · exact ⟨c, List.mem_append_left _ hc, hv⟩
    · exact ⟨(a, b), List.mem_append_right _ (List.mem_singleton.mpr rfl), Or.inl e.symm⟩
    · exact ⟨(a, b), List.mem_append_right _ (List.mem_singleton.mpr rfl), Or.inr e.symm⟩

theorem exact_empty : Exact [] empty := by
  refine ⟨empty_closed, ⟨fun _ _ h => (nomatch h), fun _ _ _ h => (nomatch h),
    fun i hi => absurd hi (Nat.not_lt_zero i)⟩, fun v => ?_, fun _ _ _ _ h => (nomatch h),
    fun c hc => (nomatch hc), fun _ _ h => (nomatch h)⟩
  constructor
  · rintro ⟨i, hi⟩
    cases hi
  · rintro ⟨c, hc, -⟩
    cases hc

/-- One more call keeps the relation exact. -/
theorem exact_insert {calls : List (Value × Value)} {r : AliasRelation} (h : Exact calls r)
    (a b : Value) : Exact (calls ++ [(a, b)]) (r.insertNoAlias a b) := by
  obtain ⟨hc2, ⟨ai, bi, ha, hb, hab, hba⟩, hlook, hmono⟩ := insertNoAlias_spec h.closed.wf a b
  obtain ⟨hidx, -, hback⟩ := insertNoAlias_index h.index a b
  have hknown : ∀ v, (∃ i, (r.insertNoAlias a b).m_valueToIdx.lookup v = some i) ↔
      Seen (calls ++ [(a, b)]) v := by
    intro v
    rw [seen_append]
    constructor
    · rintro ⟨i, hi⟩
      rcases hback v i hi with h0 | h0 | h0
      · exact Or.inl ((h.known v).mp ⟨i, h0⟩)
      · exact Or.inr (Or.inl h0)
      · exact Or.inr (Or.inr h0)
    · rintro (h0 | h0 | h0)
      · obtain ⟨i, hi⟩ := (h.known v).mpr h0
        exact ⟨i, hlook v i hi⟩
      · exact ⟨ai, h0 ▸ ha⟩
      · exact ⟨bi, h0 ▸ hb⟩
  refine ⟨hc2, hidx, hknown, ?_, ?_, ?_⟩
  · -- soundness
    obtain ⟨ai2, bi2, ha2, hb2, hat⟩ := insertEdge_at h.closed.wf a b
    have hai : ai2 = ai := Option.some.inj (ha2.symm.trans ha)
    have hbi : bi2 = bi := Option.some.inj (hb2.symm.trans hb)
    subst hai
    subst hbi
    let P : Nat → Nat → Prop := fun i j =>
      ∃ v w, (r.insertNoAlias a b).m_valueToIdx.lookup v = some i ∧
        (r.insertNoAlias a b).m_valueToIdx.lookup w = some j ∧ Connected (calls ++ [(a, b)]) v w
    have hedge : Connected (calls ++ [(a, b)]) a b :=
      Relation.EqvGen.rel a b (List.mem_append_right _ (List.mem_singleton.mpr rfl))
    have htr : ∀ i k j, P i k → P k j → P i j := by
      rintro i k j ⟨v, w, hv, hw, hvw⟩ ⟨w2, u, hw2, hu, hwu⟩
      have e : w = w2 := hidx.inj w w2 k hw hw2
      subst e
      exact ⟨v, u, hv, hu, Relation.EqvGen.trans v w u hvw hwu⟩
    have hm : ∀ i j, (insertEdge r a b).m_reachability.at i j ≠ 0 → P i j := by
      intro i j hij
      rw [hat i j] at hij
      by_cases e1 : i = bi2 ∧ j = ai2
      · exact ⟨b, a, e1.1 ▸ hb, e1.2 ▸ ha, Relation.EqvGen.symm a b hedge⟩
      · rw [if_neg e1] at hij
        by_cases e2 : i = ai2 ∧ j = bi2
        · exact ⟨a, b, e2.1 ▸ ha, e2.2 ▸ hb, hedge⟩
        · rw [if_neg e2] at hij
          obtain ⟨hi, hj⟩ := at_ne_zero_lt h.closed.wf.square hij
          obtain ⟨v, hv⟩ := h.index.onto i hi
          obtain ⟨w, hw⟩ := h.index.onto j hj
          exact ⟨v, w, hlook v i hv, hlook w j hw,
            connected_mono (a, b) (h.sound v w i j hv hw hij)⟩
    have hsound := closureLoop_sound (insertEdge_spec h.closed.wf a b).1.square P htr hm
      (insertEdge r a b).m_maxIdx
    intro x y xi yi hx hy hxy
    obtain ⟨v, w, hv, hw, hvw⟩ := hsound xi yi hxy
    rw [hidx.inj x v xi hx hv, hidx.inj y w yi hy hw]
    exact hvw
  · -- edges
    intro c hc
    rcases List.mem_append.mp hc with h1 | h1
    · obtain ⟨ci, di, hci, hdi, hcd⟩ := h.edges c h1
      exact ⟨ci, di, hlook _ _ hci, hlook _ _ hdi, hmono ci di hcd⟩
    · rw [List.mem_singleton.mp h1]
      exact ⟨ai, bi, ha, hb, hab⟩
  · -- diagonal
    intro v i hv
    rcases hback v i hv with h0 | h0 | h0
    · exact hmono i i (h.diag v i h0)
    · have e : i = ai := Option.some.inj (hv.symm.trans (h0 ▸ ha))
      rw [e]
      exact hc2.transitive ai ai bi hab hba
    · have e : i = bi := Option.some.inj (hv.symm.trans (h0 ▸ hb))
      rw [e]
      exact hc2.transitive bi bi ai hba hab

theorem afterInserts_append (calls : List (Value × Value)) (a b : Value) :
    afterInserts (calls ++ [(a, b)]) = (afterInserts calls).insertNoAlias a b := by
  unfold afterInserts
  rw [List.foldl_append]
  rfl

/-- After any sequence of calls the relation is exact. -/
theorem afterInserts_exact (calls : List (Value × Value)) : Exact calls (afterInserts calls) := by
  induction calls using List.reverseRecOn with
  | nil => exact exact_empty
  | append_singleton l c ih =>
      obtain ⟨a, b⟩ := c
      rw [afterInserts_append]
      exact exact_insert ih a b

/-- In an exact relation connected known values have a nonzero entry. -/
theorem Exact.complete {calls : List (Value × Value)} {r : AliasRelation} (h : Exact calls r)
    {a b : Value} (hab : Connected calls a b) :
    ((∃ i, r.m_valueToIdx.lookup a = some i) ↔ (∃ i, r.m_valueToIdx.lookup b = some i)) ∧
    ∀ ai bi, r.m_valueToIdx.lookup a = some ai → r.m_valueToIdx.lookup b = some bi →
      r.m_reachability.at ai bi ≠ 0 := by
  unfold Connected at hab
  induction hab with
  | rel x y hxy =>
      obtain ⟨xi, yi, hx, hy, hne⟩ := h.edges (x, y) hxy
      refine ⟨⟨fun _ => ⟨yi, hy⟩, fun _ => ⟨xi, hx⟩⟩, fun ai bi ha hb => ?_⟩
      rw [Option.some.inj (ha.symm.trans hx), Option.some.inj (hb.symm.trans hy)]
      exact hne
  | refl x =>
      refine ⟨Iff.rfl, fun ai bi ha hb => ?_⟩
      rw [Option.some.inj (hb.symm.trans ha)]
      exact h.diag x ai ha
  | symm x y _ ih =>
      refine ⟨ih.1.symm, fun ai bi ha hb => ?_⟩
      rw [h.closed.wf.symmetric ai bi]
      exact ih.2 bi ai hb ha
  | trans x y z _ _ ih1 ih2 =>
      refine ⟨ih1.1.trans ih2.1, fun ai bi ha hb => ?_⟩
      obtain ⟨yi, hy⟩ := ih1.1.mp ⟨ai, ha⟩
      exact h.closed.transitive ai bi yi (ih1.2 ai yi ha hy) (ih2.2 yi bi hy hb)

end AliasRelation

namespace AliasRelation

theorem seen_perm {calls1 calls2 : List (Value × Value)} (h : calls1.Perm calls2) (v : Value) :
    Seen calls1 v ↔ Seen calls2 v := by
  unfold Seen
  constructor
  · rintro ⟨c, hc, hv⟩
    exact ⟨c, h.mem_iff.mp hc, hv⟩
  · rintro ⟨c, hc, hv⟩
    exact ⟨c, h.mem_iff.mpr hc, hv⟩

theorem connected_perm {calls1 calls2 : List (Value × Value)} (h : calls1.Perm calls2)
    (a b : Value) : Connected calls1 a b ↔ Connected calls2 a b := by
  unfold Connected
  constructor
  · exact Relation.EqvGen.mono (fun x y hxy => h.mem_iff.mp hxy)
  · exact Relation.EqvGen.mono (fun x y hxy => h.mem_iff.mpr hxy)

theorem Exact.entry_iff {calls : List (Value × Value)} {r : AliasRelation} (h : Exact calls r)
    {a b : Value} {ai bi : Nat} (ha : r.m_valueToIdx.lookup a = some ai)
    (hb : r.m_valueToIdx.lookup b = some bi) :
    r.m_reachability.at ai bi = 1 ↔ Connected calls a b := by
  constructor
  · intro h1
    exact h.sound a b ai bi ha hb (by rw [h1]; exact one_ne_zero)
  · intro hc
    rcases h.closed.wf.binary ai bi with h0 | h1
    · exact absurd h0 ((h.complete hc).2 ai bi ha hb)
    · exact h1

end AliasRelation


/-! ## The range invariant along the backward loop -/

namespace MemoryAssignment

/-- The three outcomes of a reuse attempt that comes back, for any operation. -/
theorem dispatch_outcomes {sw : Switches} {blk : Block} {s s1 : MemoryAssignment} {i : Nat}
    {op : Operation} (hf : s.m_aliasRelation.m_needsTransitiveClosure = false)
    (hd : dispatch sw blk s i op = some s1) :
    s1 = s ∨
    (∃ result u, op.results = [result] ∧ blk.isInputOrOutputValue result = false ∧
        (selectLoop blk s.m_liveness op.operands).1 = some u ∧
        s1 = noAliasLive (assignInPlace blk s i u) u) ∨
    (∃ result, op.isConcat = true ∧ ConcatAccepted blk s i op result ∧
      processConcat blk s i op = some s1) := by
  by_cases hlen : op.results.length = 1
  · rcases dispatch_cases hf (fun _ => hlen) hd with h | ⟨-, -, -, r, u, h1, h2, h3, h4⟩ |
        ⟨-, hcon, -, r, h1, h2⟩
    · exact Or.inl h
    · exact Or.inr (Or.inl ⟨r, u, h1, h2, h3, h4⟩)
    · exact Or.inr (Or.inr ⟨r, hcon, h1, h2⟩)
  · unfold dispatch at hd
    split at hd
    · split at hd
      · rename_i hcon
        split at hd
        · have hne : op.results ≠ [] := by
            intro hnil
            unfold processConcat at hd
            rw [hnil] at hd
            cases hd
          rcases processConcat_cases blk s i op hf hne with h | ⟨r, hacc⟩
          · rw [h] at hd
            exact Or.inl (Option.some.inj hd).symm
          · exact Or.inr (Or.inr ⟨r, hcon, hacc, hd⟩)
        · exact Or.inl (Option.some.inj hd).symm
      · split at hd
        · exfalso
          unfold processDestructiveInPlace at hd
          split at hd
          · rename_i result hr
            rw [hr] at hlen
            exact hlen rfl
          · cases hd
        · exact Or.inl (Option.some.inj hd).symm
    · exact Or.inl (Option.some.inj hd).symm

/-- A reuse attempt that comes back keeps the alias relation closed. -/
theorem dispatch_closed {sw : Switches} {blk : Block} {s s1 : MemoryAssignment} {i : Nat}
    {op : Operation} (hc : s.m_aliasRelation.Closed)
    (hd : dispatch sw blk s i op = some s1) : s1.m_aliasRelation.Closed := by
  rcases dispatch_outcomes hc.flag hd with h | ⟨r, u, -, -, -, h⟩ | ⟨r, -, hacc, hproc⟩
  · rw [h]; exact hc
  · rw [h]
    obtain ⟨-, f2, -⟩ := assignInPlace_fields blk s i u
    show (List.foldl (fun rel value => rel.insertNoAlias u value)
      (assignInPlace blk s i u).m_aliasRelation
      (assignInPlace blk s i u).m_liveness.getLiveValues).Closed
    rw [f2]
    exact (AliasRelation.insertUse_spec u _ hc).1
  · have hne : op.results ≠ [] := by
      intro hnil
      have := hacc.result_eq
      rw [hnil] at this
      cases this
    obtain ⟨s3, e3, -, hal, -⟩ := processConcat_total blk s i op hc.flag hne
    rw [hproc] at e3
    rw [Option.some.inj e3, hal]
    exact hc

theorem prefixCount_nonneg {blk : Block} (hn : ∀ v, 0 ≤ blk.numElements v)
    (operands : List Value) (j : Nat) : 0 ≤ blk.prefixCount operands j := by
  unfold Block.prefixCount
  apply List.sum_nonneg
  intro x hx
  obtain ⟨v, -, e⟩ := List.mem_map.mp hx
  rw [← e]
  exact hn v

theorem prefixCount_le_total {blk : Block} (hn : ∀ v, 0 ≤ blk.numElements v)
    (operands : List Value) (j : Nat) :
    blk.prefixCount operands j ≤ (operands.map blk.numElements).sum := by
  unfold Block.prefixCount
  have hsplit : (operands.map blk.numElements).sum =
      ((operands.take j).map blk.numElements).sum + ((operands.drop j).map blk.numElements).sum := by
    rw [← List.sum_append, ← List.map_append, List.take_append_drop]
  have hdrop : 0 ≤ ((operands.drop j).map blk.numElements).sum := by
    apply List.sum_nonneg
    intro x hx
    obtain ⟨v, -, e⟩ := List.mem_map.mp hx
    rw [← e]
    exact hn v
  omega

theorem concatCount_nonneg {blk : Block} (hn : ∀ v, 0 ≤ blk.numElements v) (op : Operation) :
    0 ≤ blk.concatCount op := by
  unfold Block.concatCount
  split
  · apply List.sum_nonneg
    intro x hx
    obtain ⟨v, -, e⟩ := List.mem_map.mp hx
    rw [← e]
    exact hn v
  · exact Int.le_refl 0

theorem concatElements_step {blk : Block} {q : Nat} {op : Operation}
    (hop : blk.ops[q]? = some op) :
    blk.concatElements q = blk.concatCount op + blk.concatElements (q + 1) := by
  have hlt : q < blk.ops.length := by
    by_contra hge
    rw [List.getElem?_eq_none (Nat.le_of_not_lt hge)] at hop
    cases hop
  have he : blk.ops[q] = op := by
    rw [List.getElem?_eq_getElem hlt] at hop
    exact Option.some.inj hop
  unfold Block.concatElements
  rw [List.drop_eq_getElem_cons hlt, he]
  simp

theorem concatElements_nonneg {blk : Block} (hn : ∀ v, 0 ≤ blk.numElements v) (q : Nat) :
    0 ≤ blk.concatElements q := by
  unfold Block.concatElements
  apply List.sum_nonneg
  intro x hx
  obtain ⟨op, -, e⟩ := List.mem_map.mp hx
  rw [← e]
  exact concatCount_nonneg hn op

theorem concatElements_le {blk : Block} (hn : ∀ v, 0 ≤ blk.numElements v) (q : Nat) :
    blk.concatElements q ≤ blk.concatElements 0 := by
  induction q with
  | zero => exact Int.le_refl _
  | succ q ih =>
      by_cases hlt : q < blk.ops.length
      · have hop : blk.ops[q]? = some blk.ops[q] := List.getElem?_eq_getElem hlt
        have h1 := concatElements_step hop
        have h2 := concatCount_nonneg hn blk.ops[q]
        omega
      · have h0 : blk.concatElements (q + 1) = 0 := by
          unfold Block.concatElements
          rw [List.drop_eq_nil_of_le (by omega)]
          rfl
        rw [h0]
        exact concatElements_nonneg hn 0

/-- A reuse attempt that comes back keeps the range invariant of the buffer ids;
the counter stays or grows by one. -/
theorem dispatch_ids {sw : Switches} {blk : Block} {s s1 : MemoryAssignment} {i : Nat}
    {op : Operation} (hf : s.m_aliasRelation.m_needsTransitiveClosure = false) (hr : s.IdInv)
    (hd : dispatch sw blk s i op = some s1) :
    s1.IdInv ∧ s.m_bufferId ≤ s1.m_bufferId ∧ s1.m_bufferId ≤ s.m_bufferId + 1 := by
  rcases dispatch_outcomes hf hd with h | ⟨r, u, -, -, hsel, h⟩ | ⟨r, -, hacc, hproc⟩
  · rw [h]
    exact ⟨hr, Int.le_refl _, by omega⟩
  · obtain ⟨d, hdu⟩ := isInputOrOutputValue_false_def (selectLoop_some hsel).2.2
    obtain ⟨e1, e2, e3, e4⟩ := assignInPlace_spec blk s i u d hdu
    have hmem : s1.m_memAnalysis = (assignInPlace blk s i u).m_memAnalysis := by rw [h]; rfl
    have hbid : s1.m_bufferId = (assignInPlace blk s i u).m_bufferId := by rw [h]; rfl
    have hc := hr.counter
    cases hv : (s.m_memAnalysis.getBufferInfo i).isValid with
    | true =>
        obtain ⟨g1, g2⟩ := e2 hv
        obtain ⟨r1, r2⟩ := hr.range i hv
        refine ⟨⟨by rw [hbid, g2]; exact hc, fun o ho => ?_⟩, by rw [hbid, g2],
          by rw [hbid, g2]; omega⟩
        rw [hbid, g2]
        rw [hmem] at ho ⊢
        by_cases eo : o = i
        · rw [eo, g1]
          exact ⟨r1, r2⟩
        · by_cases ed : o = d
          · rw [ed, ← e1, g1]
            exact ⟨r1, r2⟩
          · rw [e4 o eo ed] at ho ⊢
            exact hr.range o ho
    | false =>
        obtain ⟨g1, g2⟩ := e3 hv
        refine ⟨⟨by rw [hbid, g2]; omega, fun o ho => ?_⟩, by rw [hbid, g2]; omega,
          by rw [hbid, g2]⟩
        rw [hbid, g2]
        rw [hmem] at ho ⊢
        by_cases eo : o = i
        · rw [eo, g1]
          exact ⟨hc, by show s.m_bufferId < s.m_bufferId + 1; omega⟩
        · by_cases ed : o = d
          · rw [ed, ← e1, g1]
            exact ⟨hc, by show s.m_bufferId < s.m_bufferId + 1; omega⟩
          · rw [e4 o eo ed] at ho ⊢
            obtain ⟨r1, r2⟩ := hr.range o ho
            exact ⟨r1, by omega⟩
  · have hdef := operandsDefined_of_aliasLoop hacc.alias_ok
    rw [processConcat_accepted hacc] at hproc
    obtain ⟨m2, hm2, hs1⟩ := commitConcat_eq hproc
    have hc := hr.counter
    have hkey : ∃ b1 o1 cnt, 0 ≤ b1 ∧ b1 < cnt ∧ s.m_bufferId ≤ cnt ∧ cnt ≤ s.m_bufferId + 1 ∧
        commitLoop blk op.operands (offsetLoop blk op.operands).2 b1 o1
          (List.range op.operands.length)
          (s.m_memAnalysis.setBufferInfo i { m_bufferId := b1, m_offset := o1 }) = some m2 ∧
        s1 = { s with m_bufferId := cnt, m_memAnalysis := m2 } := by
      cases hv : (s.m_memAnalysis.getBufferInfo i).isValid with
      | true =>
          obtain ⟨r1, r2⟩ := hr.range i hv
          rw [hv] at hm2 hs1
          have hne : ¬ (s.m_memAnalysis.getBufferInfo i).m_bufferId = -1 := by omega
          simp only [if_true, if_neg hne] at hm2 hs1
          exact ⟨_, _, _, r1, r2, Int.le_refl _, by omega, hm2, hs1⟩
      | false =>
          rw [hv] at hm2 hs1
          simp only [Bool.false_eq_true, if_false, if_true] at hm2 hs1
          exact ⟨_, _, _, hc, by show s.m_bufferId < s.m_bufferId + 1; omega, by omega,
            Int.le_refl _, hm2, hs1⟩
    obtain ⟨b1, o1, cnt, hb0, hb1, hc1, hc2, hloop, hs1b⟩ := hkey
    have hwritten := commitLoop_written blk op.operands (offsetLoop blk op.operands).2 b1 o1 hdef
      (List.range op.operands.length) (fun j hj => List.mem_range.mp hj) _ m2 hloop
    have hframe := commitLoop_frame blk op.operands (offsetLoop blk op.operands).2 b1 o1
      (List.range op.operands.length) _ m2 hloop
    have hall : ∀ o, (m2.getBufferInfo o).isValid = true →
        0 ≤ (m2.getBufferInfo o).m_bufferId ∧ (m2.getBufferInfo o).m_bufferId < cnt := by
      intro o ho
      by_cases hex : ∃ j ∈ List.range op.operands.length,
          blk.getDefiningOp (op.operands.getD j 0) = some o
      · obtain ⟨j, hj, hjd⟩ := hex
        obtain ⟨j2, -, -, e2⟩ := hwritten j hj o hjd
        rw [e2]
        exact ⟨hb0, hb1⟩
      · have hno : ∀ j ∈ List.range op.operands.length,
            blk.getDefiningOp (op.operands.getD j 0) ≠ some o := fun j hj hjd => hex ⟨j, hj, hjd⟩
        rw [hframe o hno] at ho ⊢
        rw [getBufferInfo_set] at ho ⊢
        by_cases eo : o = i
        · rw [if_pos eo]
          exact ⟨hb0, hb1⟩
        · rw [if_neg eo] at ho ⊢
          obtain ⟨r1, r2⟩ := hr.range o ho
          exact ⟨r1, by omega⟩
    rw [hs1b]
    exact ⟨⟨by show 0 ≤ cnt; omega, hall⟩, hc1, hc2⟩

/-- A reuse attempt that comes back keeps the range invariant when the offsets it
computes are values of the type `int`; the counter stays or grows by one, and a
bound of the offsets grows by at most the element counts the concat adds up. -/
theorem dispatch_range {sw : Switches} {blk : Block} {s s1 : MemoryAssignment} {i : Nat}
    {op : Operation} (hn : ∀ v, 0 ≤ blk.numElements v)
    (hf : s.m_aliasRelation.m_needsTransitiveClosure = false) (hr : s.RangeInv)
    (hov : op.isConcat = true → ∀ result, ConcatAccepted blk s i op result →
      ∀ j, j < op.operands.length →
        InInt32 ((if (s.m_memAnalysis.getBufferInfo i).isValid
          then (s.m_memAnalysis.getBufferInfo i).m_offset else 0) + blk.prefixCount op.operands j))
    (hd : dispatch sw blk s i op = some s1) :
    s1.RangeInv ∧ s.m_bufferId ≤ s1.m_bufferId ∧ s1.m_bufferId ≤ s.m_bufferId + 1 ∧
    ∀ B, 0 ≤ B → s.OffsetsBelow B → s1.OffsetsBelow (B + blk.concatCount op) := by
  have hT0 := concatCount_nonneg hn op
  rcases dispatch_outcomes hf hd with h | ⟨r, u, -, -, hsel, h⟩ | ⟨r, hcon, hacc, hproc⟩
  · rw [h]
    exact ⟨hr, Int.le_refl _, by omega, fun B _ hB o ho => by have := hB o ho; omega⟩
  · obtain ⟨d, hdu⟩ := isInputOrOutputValue_false_def (selectLoop_some hsel).2.2
    obtain ⟨e1, e2, e3, e4⟩ := assignInPlace_spec blk s i u d hdu
    have hmem : s1.m_memAnalysis = (assignInPlace blk s i u).m_memAnalysis := by rw [h]; rfl
    have hbid : s1.m_bufferId = (assignInPlace blk s i u).m_bufferId := by rw [h]; rfl
    have hc := hr.counter
    cases hv : (s.m_memAnalysis.getBufferInfo i).isValid with
    | true =>
        obtain ⟨g1, g2⟩ := e2 hv
        obtain ⟨r1, r2, r3⟩ := hr.range i hv
        have hall : ∀ o, (s1.m_memAnalysis.getBufferInfo o).isValid = true →
            (0 ≤ (s1.m_memAnalysis.getBufferInfo o).m_bufferId ∧
              (s1.m_memAnalysis.getBufferInfo o).m_bufferId < s.m_bufferId ∧
              0 ≤ (s1.m_memAnalysis.getBufferInfo o).m_offset) ∧
            ∀ B, 0 ≤ B → s.OffsetsBelow B → (s1.m_memAnalysis.getBufferInfo o).m_offset ≤ B := by
          intro o ho
          rw [hmem] at ho ⊢
          by_cases eo : o = i
          · rw [eo, g1]
            exact ⟨⟨r1, r2, r3⟩, fun B _ hB => hB i hv⟩
          · by_cases ed : o = d
            · rw [ed, ← e1, g1]
              exact ⟨⟨r1, r2, r3⟩, fun B _ hB => hB i hv⟩
            · rw [e4 o eo ed] at ho ⊢
              exact ⟨hr.range o ho, fun B _ hB => hB o ho⟩
        refine ⟨⟨by rw [hbid, g2]; exact hc, fun o ho => ?_⟩, by rw [hbid, g2],
          by rw [hbid, g2]; omega, fun B hB0 hB o ho => ?_⟩
        · rw [hbid, g2]
          exact (hall o ho).1
        · have := (hall o ho).2 B hB0 hB
          omega
    | false =>
        obtain ⟨g1, g2⟩ := e3 hv
        have hall : ∀ o, (s1.m_memAnalysis.getBufferInfo o).isValid = true →
            (0 ≤ (s1.m_memAnalysis.getBufferInfo o).m_bufferId ∧
              (s1.m_memAnalysis.getBufferInfo o).m_bufferId < s.m_bufferId + 1 ∧
              0 ≤ (s1.m_memAnalysis.getBufferInfo o).m_offset) ∧
            ∀ B, 0 ≤ B → s.OffsetsBelow B → (s1.m_memAnalysis.getBufferInfo o).m_offset ≤ B := by
          intro o ho
          rw [hmem] at ho ⊢
          by_cases eo : o = i
          · rw [eo, g1]
            exact ⟨⟨hc, by show s.m_bufferId < s.m_bufferId + 1; omega, Int.le_refl 0⟩,
              fun B hB0 _ => hB0⟩
          · by_cases ed : o = d
            · rw [ed, ← e1, g1]
              exact ⟨⟨hc, by show s.m_bufferId < s.m_bufferId + 1; omega, Int.le_refl 0⟩,
                fun B hB0 _ => hB0⟩
            · rw [e4 o eo ed] at ho ⊢
              obtain ⟨r1, r2, r3⟩ := hr.range o ho
              exact ⟨⟨r1, by omega, r3⟩, fun B _ hB => hB o ho⟩
        refine ⟨⟨by rw [hbid, g2]; omega, fun o ho => ?_⟩, by rw [hbid, g2]; omega,
          by rw [hbid, g2], fun B hB0 hB o ho => ?_⟩
        · rw [hbid, g2]
          exact (hall o ho).1
        · have := (hall o ho).2 B hB0 hB
          omega
  · have hdef := operandsDefined_of_aliasLoop hacc.alias_ok
    have hTeq : blk.concatCount op = (op.operands.map blk.numElements).sum := by
      unfold Block.concatCount
      rw [if_pos hcon]
    have hov2 := hov hcon r hacc
    rw [processConcat_accepted hacc] at hproc
    obtain ⟨m2, hm2, hs1⟩ := commitConcat_eq hproc
    have hc := hr.counter
    -- the buffer id and base offset of the commit
    have hkey : ∃ b1 o1 cnt, 0 ≤ b1 ∧ b1 < cnt ∧ 0 ≤ o1 ∧
        (∀ B, 0 ≤ B → s.OffsetsBelow B → o1 ≤ B) ∧
        (∀ j, j < op.operands.length → InInt32 (o1 + blk.prefixCount op.operands j)) ∧
        s.m_bufferId ≤ cnt ∧ cnt ≤ s.m_bufferId + 1 ∧
        commitLoop blk op.operands (offsetLoop blk op.operands).2 b1 o1
          (List.range op.operands.length)
          (s.m_memAnalysis.setBufferInfo i { m_bufferId := b1, m_offset := o1 }) = some m2 ∧
        s1 = { s with m_bufferId := cnt, m_memAnalysis := m2 } := by
      cases hv : (s.m_memAnalysis.getBufferInfo i).isValid with
      | true =>
          obtain ⟨r1, r2, r3⟩ := hr.range i hv
          rw [hv] at hm2 hs1 hov2
          have hne : ¬ (s.m_memAnalysis.getBufferInfo i).m_bufferId = -1 := by omega
          simp only [if_true, if_neg hne] at hm2 hs1 hov2
          exact ⟨_, _, _, r1, r2, r3, fun B _ hB => hB i hv, hov2, Int.le_refl _, by omega,
            hm2, hs1⟩
      | false =>
          rw [hv] at hm2 hs1 hov2
          simp only [Bool.false_eq_true, if_false, if_true] at hm2 hs1 hov2
          exact ⟨_, _, _, hc, by show s.m_bufferId < s.m_bufferId + 1; omega, Int.le_refl 0,
            fun B hB0 _ => hB0, hov2, by omega, Int.le_refl _, hm2, hs1⟩
    obtain ⟨b1, o1, cnt, hb0, hb1, ho1, ho1B, hfit, hc1, hc2, hloop, hs1b⟩ := hkey
    have hwritten := commitLoop_written blk op.operands (offsetLoop blk op.operands).2 b1 o1 hdef
      (List.range op.operands.length) (fun j hj => List.mem_range.mp hj) _ m2 hloop
    have hframe := commitLoop_frame blk op.operands (offsetLoop blk op.operands).2 b1 o1
      (List.range op.operands.length) _ m2 hloop
    have hall : ∀ o, (m2.getBufferInfo o).isValid = true →
        (0 ≤ (m2.getBufferInfo o).m_bufferId ∧ (m2.getBufferInfo o).m_bufferId < cnt ∧
          0 ≤ (m2.getBufferInfo o).m_offset) ∧
        ∀ B, 0 ≤ B → s.OffsetsBelow B → (m2.getBufferInfo o).m_offset ≤ B + blk.concatCount op := by
      intro o ho
      by_cases hex : ∃ j ∈ List.range op.operands.length,
          blk.getDefiningOp (op.operands.getD j 0) = some o
      · obtain ⟨j, hj, hjd⟩ := hex
        obtain ⟨j2, hj2, -, e2⟩ := hwritten j hj o hjd
        rw [e2]
        have hlt := List.mem_range.mp hj2
        have hp0 := prefixCount_nonneg hn op.operands j2
        have hp1 := prefixCount_le_total hn op.operands j2
        have hoff : wrapInt32 (o1 + (offsetLoop blk op.operands).2.getD j2 0)
            = o1 + blk.prefixCount op.operands j2 := by
          rw [offsetLoop_getD blk op.operands hlt, wrapInt32_add_right]
          exact wrapInt32_of_inInt32 (hfit j2 hlt)
        show (0 ≤ b1 ∧ b1 < cnt ∧
            0 ≤ wrapInt32 (o1 + (offsetLoop blk op.operands).2.getD j2 0)) ∧
          ∀ B, 0 ≤ B → s.OffsetsBelow B →
            wrapInt32 (o1 + (offsetLoop blk op.operands).2.getD j2 0) ≤ B + blk.concatCount op
        rw [hoff]
        exact ⟨⟨hb0, hb1, by omega⟩, fun B hB0 hB => by have := ho1B B hB0 hB; omega⟩
      · have hno : ∀ j ∈ List.range op.operands.length,
            blk.getDefiningOp (op.operands.getD j 0) ≠ some o := fun j hj hjd => hex ⟨j, hj, hjd⟩
        rw [hframe o hno] at ho ⊢
        rw [getBufferInfo_set] at ho ⊢
        by_cases eo : o = i
        · rw [if_pos eo]
          exact ⟨⟨hb0, hb1, ho1⟩, fun B hB0 hB => by
            have := ho1B B hB0 hB
            show o1 ≤ B + blk.concatCount op
            omega⟩
        · rw [if_neg eo] at ho ⊢
          obtain ⟨r1, r2, r3⟩ := hr.range o ho
          exact ⟨⟨r1, by omega, r3⟩, fun B _ hB => by have := hB o ho; omega⟩
    rw [hs1b]
    exact ⟨⟨by show 0 ≤ cnt; omega, fun o ho => (hall o ho).1⟩, hc1, hc2,
      fun B hB0 hB o ho => (hall o ho).2 B hB0 hB⟩

theorem visit_fields {sw : Switches} {blk : Block} {s s2 : MemoryAssignment} {i : Nat}
    {op : Operation} (hv : visit sw blk s i op = some s2) :
    ∃ s1, dispatch sw blk s i op = some s1 ∧ s2.m_memAnalysis = s1.m_memAnalysis ∧
      s2.m_bufferId = s1.m_bufferId ∧ s2.m_aliasRelation = s1.m_aliasRelation := by
  unfold visit at hv
  cases hd : dispatch sw blk s i op with
  | none => rw [hd] at hv; cases hv
  | some s1 =>
      rw [hd] at hv
      simp only [] at hv
      split at hv
      · cases hv
      · rw [← Option.some.inj hv]
        exact ⟨s1, rfl, rfl, rfl, rfl⟩

/-- Every state the backward loop reaches has a closed alias relation and keeps
the range invariant of the buffer ids. -/
theorem sweepFrom_ids (sw : Switches) (blk : Block) (tbl : List (String × Bool))
    (p : Nat) (s : MemoryAssignment)
    (h : sweepFrom sw blk p (init tbl) = some s) :
    s.m_aliasRelation.Closed ∧ s.IdInv := by
  refine sweepFrom_induct_of_some sw blk
    (fun _ t => t.m_aliasRelation.Closed ∧ t.IdInv) (init tbl)
    (fun _ _ => ⟨AliasRelation.empty_closed, ⟨Int.le_refl 0, fun o ho => (nomatch ho)⟩⟩) ?_ p s h
  intro q op t t2 _ _ hQ hv
  obtain ⟨hcl, hr⟩ := hQ
  obtain ⟨t1, hd, hm, hbid, ha⟩ := visit_fields hv
  obtain ⟨r1, -, -⟩ := dispatch_ids hcl.flag hr hd
  refine ⟨ha ▸ dispatch_closed hcl hd, ⟨by rw [hbid]; exact r1.counter, fun o ho => ?_⟩⟩
  rw [hm] at ho ⊢
  rw [hbid]
  exact r1.range o ho

/-- When the element counts of the operands of all concat operations of the region
add up to a value of the type `int`, every state the backward loop reaches has a
closed alias relation, keeps the range invariant, and has offsets of at most what
the concat operations visited so far add up. -/
theorem sweepFrom_bound (sw : Switches) (blk : Block) (tbl : List (String × Bool))
    (hn : ∀ v, 0 ≤ blk.numElements v) (hb : blk.concatElements 0 < 2147483648)
    (p : Nat) (s : MemoryAssignment)
    (h : sweepFrom sw blk p (init tbl) = some s) :
    s.m_aliasRelation.Closed ∧ s.RangeInv ∧ s.OffsetsBelow (blk.concatElements p) := by
  refine sweepFrom_induct_of_some sw blk
    (fun q t => t.m_aliasRelation.Closed ∧ t.RangeInv ∧ t.OffsetsBelow (blk.concatElements q))
    (init tbl)
    (fun _ _ => ⟨AliasRelation.empty_closed, ⟨Int.le_refl 0, fun o ho => (nomatch ho)⟩,
      fun o ho => (nomatch ho)⟩) ?_ p s h
  intro q op t t2 hop _ hQ hv
  obtain ⟨hcl, hr, hB⟩ := hQ
  obtain ⟨t1, hd, hm, hbid, ha⟩ := visit_fields hv
  have hstep := concatElements_step hop
  have hle := concatElements_le hn q
  have h0 := concatElements_nonneg hn (q + 1)
  have hov : op.isConcat = true → ∀ result, ConcatAccepted blk t q op result →
      ∀ j, j < op.operands.length →
        InInt32 ((if (t.m_memAnalysis.getBufferInfo q).isValid
          then (t.m_memAnalysis.getBufferInfo q).m_offset else 0)
            + blk.prefixCount op.operands j) := by
    intro hcon _ _ j _
    have hTeq : blk.concatCount op = (op.operands.map blk.numElements).sum := by
      unfold Block.concatCount
      rw [if_pos hcon]
    have hp0 := prefixCount_nonneg hn op.operands j
    have hp1 := prefixCount_le_total hn op.operands j
    unfold InInt32
    cases hval : (t.m_memAnalysis.getBufferInfo q).isValid with
    | true =>
        have r3 := (hr.range q hval).2.2
        have r4 := hB q hval
        simp only [if_true]
        omega
    | false =>
        simp only [Bool.false_eq_true, if_false]
        omega
  obtain ⟨r1, -, -, r2⟩ := dispatch_range hn hcl.flag hr hov hd
  have r3 := r2 _ h0 hB
  refine ⟨ha ▸ dispatch_closed hcl hd, ⟨by rw [hbid]; exact r1.counter, fun o ho => ?_⟩,
    fun o ho => ?_⟩
  · rw [hm] at ho ⊢
    rw [hbid]
    exact r1.range o ho
  · rw [hm] at ho ⊢
    have := r3 o ho
    omega

/-- When the element counts of the operands of all concat operations of the region
add up to a value of the type `int`, no offset overflows. -/
theorem noOverflow_of_bound (sw : Switches) (blk : Block) (tbl : List (String × Bool))
    (hn : ∀ v, 0 ≤ blk.numElements v) (hb : blk.concatElements 0 < 2147483648) :
    NoOverflow sw blk tbl := by
  intro q op t result hop ht hcon _ j _
  obtain ⟨-, hr, hB⟩ := sweepFrom_bound sw blk tbl hn hb (q + 1) t ht
  have hstep := concatElements_step hop
  have hle := concatElements_le hn q
  have h0 := concatElements_nonneg hn (q + 1)
  have hTeq : blk.concatCount op = (op.operands.map blk.numElements).sum := by
    unfold Block.concatCount
    rw [if_pos hcon]
  have hp0 := prefixCount_nonneg hn op.operands j
  have hp1 := prefixCount_le_total hn op.operands j
  unfold InInt32
  cases hval : (t.m_memAnalysis.getBufferInfo q).isValid with
  | true =>
      have r3 := (hr.range q hval).2.2
      have r4 := hB q hval
      simp only [if_true]
      omega
  | false =>
      simp only [Bool.false_eq_true, if_false]
      omega

/-- Every state the backward loop reaches has a closed alias relation and keeps
the range invariant, when no offset overflows. -/
theorem sweepFrom_range (sw : Switches) (blk : Block) (tbl : List (String × Bool))
    (hn : ∀ v, 0 ≤ blk.numElements v) (hno : NoOverflow sw blk tbl)
    (p : Nat) (s : MemoryAssignment)
    (h : sweepFrom sw blk p (init tbl) = some s) :
    s.m_aliasRelation.Closed ∧ s.RangeInv := by
  refine sweepFrom_induct_of_some sw blk
    (fun _ t => t.m_aliasRelation.Closed ∧ t.RangeInv) (init tbl)
    (fun _ _ => ⟨AliasRelation.empty_closed, ⟨Int.le_refl 0, fun o ho => (nomatch ho)⟩⟩) ?_ p s h
  intro q op t t2 hop ht hQ hv
  obtain ⟨hcl, hr⟩ := hQ
  obtain ⟨t1, hd, hm, hbid, ha⟩ := visit_fields hv
  obtain ⟨r1, -, -, -⟩ := dispatch_range hn hcl.flag hr
    (fun hcon result hacc => hno q op t result hop ht hcon hacc) hd
  refine ⟨ha ▸ dispatch_closed hcl hd, ⟨by rw [hbid]; exact r1.counter, fun o ho => ?_⟩⟩
  rw [hm] at ho ⊢
  rw [hbid]
  exact r1.range o ho

end MemoryAssignment

/-! ## The claims -/

namespace AliasRelation

/-- C2 (evaluation of the code): after `insertNoAlias(1, 2)` and `insertNoAlias(3, 4)`
the values 1 and 3 have the indices 0 and 2, the matrix holds no reachability
between them in either direction, and `canAlias(1, 3)` still answers `false`. -/
theorem canAlias_false_without_edge :
    (afterInserts [(1, 2), (3, 4)]).m_valueToIdx.lookup 1 = some 0 ∧
    (afterInserts [(1, 2), (3, 4)]).m_valueToIdx.lookup 3 = some 2 ∧
    (afterInserts [(1, 2), (3, 4)]).m_reachability.at 0 2 = 0 ∧
    (afterInserts [(1, 2), (3, 4)]).m_reachability.at 2 0 = 0 ∧
    (afterInserts [(1, 2), (3, 4)]).canAlias 1 3 = some false := by
  decide

/-- C3: after any sequence of `insertNoAlias` calls on the empty relation the
matrix is transitively closed: `m[i][k] = 1` and `m[k][j] = 1` give `m[i][j] = 1`. -/
theorem closure_materialized (calls : List (Value × Value)) (i j k : Nat)
    (hik : (afterInserts calls).m_reachability.at i k = 1)
    (hkj : (afterInserts calls).m_reachability.at k j = 1) :
    (afterInserts calls).m_reachability.at i j = 1 := by
  have hc := afterInserts_closed calls
  have hne : (afterInserts calls).m_reachability.at i j ≠ 0 :=
    hc.transitive i j k (by rw [hik]; exact one_ne_zero) (by rw [hkj]; exact one_ne_zero)
  rcases hc.wf.binary i j with h0 | h1
  · exact absurd h0 hne
  · exact h1

/-- Witness of C3: the closure joins the edges 1-2 and 2-3. -/
theorem closure_materialized_witness :
    (afterInserts [(1, 2), (2, 3)]).m_reachability.at 0 1 = 1 ∧
    (afterInserts [(1, 2), (2, 3)]).m_reachability.at 1 2 = 1 ∧
    (afterInserts [(1, 2), (2, 3)]).m_reachability.at 0 2 = 1 :=
  ⟨by decide, by decide,
    closure_materialized [(1, 2), (2, 3)] 0 2 1 (by decide) (by decide)⟩

/-- C4: after any sequence of `insertNoAlias` calls the matrix is symmetric; it is
symmetric as well right after the edge of a further call is set, where
`checkInvariance` runs and passes, and after that call; and `canAlias` gives the
same answer for `(a, b)` and `(b, a)`. -/
theorem symmetry_invariant (calls : List (Value × Value)) (x y a b : Value) (i j : Nat) :
    (afterInserts calls).m_reachability.at i j = (afterInserts calls).m_reachability.at j i ∧
    ((afterInserts calls).insertEdge x y).checkInvariance = true ∧
    ((afterInserts calls).insertEdge x y).m_reachability.at i j =
      ((afterInserts calls).insertEdge x y).m_reachability.at j i ∧
    ((afterInserts calls).insertNoAlias x y).m_reachability.at i j =
      ((afterInserts calls).insertNoAlias x y).m_reachability.at j i ∧
    (afterInserts calls).canAlias a b = (afterInserts calls).canAlias b a := by
  have hc := afterInserts_closed calls
  have he := (insertEdge_spec hc.wf x y).1
  have hn := (insertNoAlias_spec hc.wf x y).1
  exact ⟨hc.wf.symmetric i j, checkInvariance_of_wf he, he.symmetric i j,
    hn.wf.symmetric i j, canAlias_comm_of_symmetric hc.wf.symmetric a b⟩

end AliasRelation

namespace MemoryAssignment

/-- C5 (as stated, refuted): in the region `v0 = param; v1 = relu v0; ...`, when
`run` has finished the round of `v1 = relu v0`, `isLive(v0)` is `true`, while no
instruction strictly after that one uses `v0`: the oracle of the claim says
`false`. -/
theorem liveness_strict_oracle_fails :
    chainBlock.WellFormed ∧
    (sweepFrom allOn chainBlock 1 (init exampleTable)).map (fun s => s.m_liveness.isLive 0)
      = some true ∧
    chainBlock.specLive 1 0 = false :=
  ⟨Block.wellFormed_of_check (by decide), by decide, by decide⟩

/-- C5 (amended): for a well-formed straight-line region whose in-place
operations have one result, the loop of `run` reaches every position `p`, and
right after the round of the instruction at `p`, liveness update included,
`isLive(v)` equals: some instruction at `p` or later uses `v`, and `v` is not
defined at `p` or later. -/
theorem liveness_full_scan (sw : Switches) (blk : Block) (tbl : List (String × Bool))
    (hwf : blk.WellFormed) (hres : blk.ResultsChecked tbl) (p : Nat) :
    ∃ s, sweepFrom sw blk p (init tbl) = some s ∧
      ∀ v, s.m_liveness.isLive v = blk.scanLive p v := by
  obtain ⟨s, e, -, hv⟩ := sweepFrom_live sw blk tbl hwf hres (init tbl) (init_inv tbl)
    (fun _ => rfl) p
  exact ⟨s, e, hv⟩

/-- Witness of C5 (amended) on `chainBlock` at position 1. -/
theorem liveness_full_scan_witness :
    chainBlock.WellFormed ∧ chainBlock.ResultsChecked exampleTable ∧
    ∃ s, sweepFrom allOn chainBlock 1 (init exampleTable) = some s ∧
      ∀ v, s.m_liveness.isLive v = chainBlock.scanLive 1 v :=
  ⟨Block.wellFormed_of_check (by decide), by unfold Block.ResultsChecked; decide,
    liveness_full_scan allOn chainBlock exampleTable (Block.wellFormed_of_check (by decide))
      (by unfold Block.ResultsChecked; decide) 1⟩

/-- C6 (evaluation of the code): at `v3 = add v0 v1` of `pickBlock` both operands
are dead and neither is an input or output value; `v0` has one use and `v1` two;
the loop returns `v1`, and `useCount` is still `-1`. -/
theorem selectLoop_keeps_last_candidate :
    ∃ s, sweepFrom allOn pickBlock 4 (init exampleTable) = some s ∧
      s.m_liveness.isLive 0 = false ∧ s.m_liveness.isLive 1 = false ∧
      pickBlock.isInputOrOutputValue 0 = false ∧ pickBlock.isInputOrOutputValue 1 = false ∧
      pickBlock.countUses 0 = 1 ∧ pickBlock.countUses 1 = 2 ∧
      selectLoop pickBlock s.m_liveness [0, 1] = (some 1, -1) :=
  ⟨_, rfl, by decide⟩

/-- C7: when `processDestructiveInPlace` accepts the operation at position `op`
with the selected operand `u`, defined at position `d`, then afterwards `op` and
`d` carry the same `BufferInfo`; if `op` had a valid one it is unchanged and the
counter `m_bufferId` is unchanged; otherwise both carry `{k, 0}` for the former
counter `k`, and the counter is `k + 1`; every other operation keeps its
`BufferInfo`. -/
theorem inplace_assignment (blk : Block) (s : MemoryAssignment) (op : Nat)
    (operation : Operation) (result u : Value) (hres : operation.results = [result])
    (hnb : blk.isInputOrOutputValue result = false)
    (hsel : (selectLoop blk s.m_liveness operation.operands).1 = some u) :
    ∃ s2 d, processDestructiveInPlace blk s op operation = some s2 ∧
      blk.getDefiningOp u = some d ∧
      s2.m_memAnalysis.getBufferInfo op = s2.m_memAnalysis.getBufferInfo d ∧
      ((s.m_memAnalysis.getBufferInfo op).isValid = true →
        s2.m_memAnalysis.getBufferInfo op = s.m_memAnalysis.getBufferInfo op ∧
        s2.m_bufferId = s.m_bufferId) ∧
      ((s.m_memAnalysis.getBufferInfo op).isValid = false →
        s2.m_memAnalysis.getBufferInfo op = { m_bufferId := s.m_bufferId, m_offset := 0 } ∧
        s2.m_bufferId = s.m_bufferId + 1) ∧
      (∀ o, o ≠ op → o ≠ d →
        s2.m_memAnalysis.getBufferInfo o = s.m_memAnalysis.getBufferInfo o) := by
  obtain ⟨d, hd⟩ := isInputOrOutputValue_false_def (selectLoop_some hsel).2.2
  exact ⟨_, d, processDestructiveInPlace_accepted hres hnb hsel, hd,
    assignInPlace_spec blk s op u d hd⟩

/-- Witness of C7: `v2 = relu v1` of `chainBlock` on a new pass. -/
theorem inplace_assignment_witness :
    ∃ s2 d, processDestructiveInPlace chainBlock (init exampleTable) 2
        (plainOp "ng.relu" [1] [2]) = some s2 ∧
      chainBlock.getDefiningOp 1 = some d ∧
      s2.m_memAnalysis.getBufferInfo 2 = s2.m_memAnalysis.getBufferInfo d ∧
      (((init exampleTable).m_memAnalysis.getBufferInfo 2).isValid = true →
        s2.m_memAnalysis.getBufferInfo 2 = (init exampleTable).m_memAnalysis.getBufferInfo 2 ∧
        s2.m_bufferId = (init exampleTable).m_bufferId) ∧
      (((init exampleTable).m_memAnalysis.getBufferInfo 2).isValid = false →
        s2.m_memAnalysis.getBufferInfo 2 =
          { m_bufferId := (init exampleTable).m_bufferId, m_offset := 0 } ∧
        s2.m_bufferId = (init exampleTable).m_bufferId + 1) ∧
      (∀ o, o ≠ 2 → o ≠ d →
        s2.m_memAnalysis.getBufferInfo o = (init exampleTable).m_memAnalysis.getBufferInfo o) :=
  inplace_assignment chainBlock (init exampleTable) 2 (plainOp "ng.relu" [1] [2]) 2 1 rfl
    (by decide) (by decide)

/-- C8: when `processDestructiveInPlace` accepts an operation with the selected
operand `u`, then afterwards the closure flag is clear and `canAlias(u, w)`
answers `false`, without failing, for every value `w` the liveness tracker
reports live, through `getLiveValues` or through `isLive`. -/
theorem inplace_alias_update (blk : Block) (s : MemoryAssignment) (op : Nat)
    (operation : Operation) (result u : Value) (hlive : s.m_liveness.WF)
    (hrel : s.m_aliasRelation.Closed) (hres : operation.results = [result])
    (hnb : blk.isInputOrOutputValue result = false)
    (hsel : (selectLoop blk s.m_liveness operation.operands).1 = some u) :
    ∃ s2, processDestructiveInPlace blk s op operation = some s2 ∧
      s2.m_liveness = s.m_liveness ∧
      s2.m_aliasRelation.m_needsTransitiveClosure = false ∧
      ∀ w, (w ∈ s.m_liveness.getLiveValues ∨ s.m_liveness.isLive w = true) →
        s2.m_aliasRelation.canAlias u w = some false := by
  obtain ⟨f1, f2, -⟩ := assignInPlace_fields blk s op u
  have hfold := AliasRelation.insertUse_spec u (assignInPlace blk s op u).m_liveness.getLiveValues
    (f2 ▸ hrel)
  obtain ⟨hc, -, hknown⟩ := hfold
  refine ⟨_, processDestructiveInPlace_accepted hres hnb hsel, f1, hc.flag, fun w hw => ?_⟩
  have hmem : w ∈ (assignInPlace blk s op u).m_liveness.getLiveValues := by
    rw [f1]
    rcases hw with h1 | h2
    · exact h1
    · exact (LivenessAnalysis.mem_getLiveValues hlive w).mpr h2
  obtain ⟨ui, wi, hu, hw2⟩ := hknown w hmem
  exact AliasRelation.canAlias_of_known hc.wf.symmetric hc.flag hu hw2

end MemoryAssignment

namespace MemoryAssignment

/-- C9 (as stated, refuted): two concats along an axis that is not the
most-significant axis of extent greater than one end up with a valid
`BufferInfo`.  In `unitAxisBlock` the result has the shape `[1, 1, 4]`, the axis
is 1 and `processConcat` itself assigns the buffer; in `reusedConcatBlock` the
result has the shape `[2, 6]`, the axis is 1, `processConcat` rejects it, and the
elementwise reuse of the next instruction assigns the buffer. -/
theorem concat_axis_claim_fails :
    (mostSignificantNonUnitAxis (unitAxisBlock.shape 1) ≠ some 1 ∧
      (memoryAnalysis concatOnly exampleTable [[unitAxisBlock]]).map
        (fun m => (m.getBufferInfo 1).isValid) = some true) ∧
    (mostSignificantNonUnitAxis (reusedConcatBlock.shape 2) ≠ some 1 ∧
      (memoryAnalysis allOn exampleTable [[reusedConcatBlock]]).map
        (fun m => (m.getBufferInfo 2).isValid) = some true) := by
  decide

/-- C9 (amended): if some axis of the result shape before the concatenation axis
has an extent other than one, `processConcat` leaves every state as it is; and
when the elementwise reuse is switched off and no concat of the region takes the
result of this concat as an operand, `run` on a new pass comes back and leaves
the concat without valid `BufferInfo`. -/
theorem concat_axis_rejection (sw : Switches) (blk : Block) (tbl : List (String × Bool))
    (c : Nat) (concat : Operation) (result : Value) (hres : blk.ResultsChecked tbl)
    (hc : blk.ops[c]? = some concat) (hr : concat.results.head? = some result)
    (haxis : ∃ i, i < concat.concatAxis ∧ ∃ d, (blk.shape result)[i]? = some d ∧ d ≠ 1)
    (helt : sw.clEnableNgInPlaceEltWise = false)
    (hnouse : ∀ op ∈ blk.ops, op.isConcat = true →
      ∀ v ∈ op.operands, blk.getDefiningOp v ≠ some c) :
    (∀ s, processConcat blk s c concat = some s) ∧
    ∃ s, run sw [[blk]] (init tbl) = some s ∧
      (s.m_memAnalysis.getBufferInfo c).isValid = false := by
  have hrej : ∀ s, processConcat blk s c concat = some s := fun s =>
    processConcat_axis_reject blk s c concat result hr (axisLoop_false_of_nonunit haxis)
  refine ⟨hrej, ?_⟩
  cases hm : sw.clEnableNgInPlaceMemory with
  | false =>
      refine ⟨init tbl, ?_, rfl⟩
      unfold run
      rw [hm]
      rfl
  | true =>
      rw [run_single_block sw blk _ hm]
      obtain ⟨s, e, -, hq⟩ := sweepFrom_induct sw blk tbl hres
        (fun _ s => (s.m_memAnalysis.getBufferInfo c).isValid = false) (init tbl) (init_inv tbl)
        (fun _ _ => rfl)
        (by
          intro q op s s1 s2 hop hinv hQ hd _ _ hmem _ _
          show (s2.m_memAnalysis.getBufferInfo c).isValid = false
          rw [hmem]
          have hsame : s1.m_memAnalysis.getBufferInfo c = s.m_memAnalysis.getBufferInfo c := by
            unfold dispatch at hd
            by_cases h1 : s.isSafeInPlace op = true
            · rw [if_pos h1] at hd
              by_cases h2 : op.isConcat = true
              · rw [if_pos h2] at hd
                by_cases h3 : sw.clEnableNgInPlaceConcat = true
                · rw [if_pos h3] at hd
                  by_cases hqc : q = c
                  · subst hqc
                    rw [hc] at hop
                    rw [← Option.some.inj hop, hrej s] at hd
                    rw [← Option.some.inj hd]
                  · have hlen := hres op (getElem?_mem_ops hop)
                      (by rw [← hinv.table]; exact (isSafeInPlace_iff s op).mp h1)
                    obtain ⟨s3, e3, -, -, -, hframe⟩ :=
                      processConcat_total blk s q op hinv.rel.flag
                        (by intro hnil; rw [hnil] at hlen; cases hlen)
                    rw [e3] at hd
                    rw [← Option.some.inj hd]
                    refine hframe c (fun hx => hqc hx.symm) (fun i hi => ?_)
                    apply hnouse op (getElem?_mem_ops hop) h2
                    rw [List.getD_eq_getElem _ 0 hi]
                    exact List.getElem_mem hi
                · rw [if_neg h3] at hd
                  rw [← Option.some.inj hd]
              · rw [if_neg h2, helt] at hd
                simp only [Bool.false_eq_true, if_false] at hd
                rw [← Option.some.inj hd]
            · rw [if_neg h1] at hd
              rw [← Option.some.inj hd]
          rw [hsame]
          exact hQ) 0
      exact ⟨s, e, hq⟩

/-- Witness of C9 (amended) on `reusedConcatBlock`, elementwise reuse off. -/
theorem concat_axis_rejection_witness :
    reusedConcatBlock.ResultsChecked exampleTable ∧
    (∃ i, i < (concatOp 1 [0, 1] 2).concatAxis ∧
      ∃ d, (reusedConcatBlock.shape 2)[i]? = some d ∧ d ≠ 1) ∧
    ((∀ s, processConcat reusedConcatBlock s 2 (concatOp 1 [0, 1] 2) = some s) ∧
    ∃ s, run concatOnly [[reusedConcatBlock]] (init exampleTable) = some s ∧
      (s.m_memAnalysis.getBufferInfo 2).isValid = false) :=
  ⟨by unfold Block.ResultsChecked; decide, ⟨0, by decide, 2, rfl, by decide⟩,
    concat_axis_rejection concatOnly reusedConcatBlock exampleTable 2 (concatOp 1 [0, 1] 2) 2
      (by unfold Block.ResultsChecked; decide) rfl rfl ⟨0, by decide, 2, rfl, by decide⟩ rfl
      (by decide)⟩

/-- Witness of C8: `v2 = relu v1` of `chainBlock` while `v2` is live. -/
theorem inplace_alias_update_witness :
    sweepFrom allOn chainBlock 3 (init exampleTable) = some chainState ∧
    chainState.m_liveness.getLiveValues = [2] ∧
    ∃ s2, processDestructiveInPlace chainBlock chainState 2 (plainOp "ng.relu" [1] [2])
        = some s2 ∧
      s2.m_liveness = chainState.m_liveness ∧
      s2.m_aliasRelation.m_needsTransitiveClosure = false ∧
      ∀ w, (w ∈ chainState.m_liveness.getLiveValues ∨ chainState.m_liveness.isLive w = true) →
        s2.m_aliasRelation.canAlias 1 w = some false :=
  ⟨by decide, by decide,
    inplace_alias_update chainBlock chainState 2 (plainOp "ng.relu" [1] [2]) 2 1
      (inv_of_sweepFrom (Block.wellFormed_of_check (by decide))
        (by unfold Block.ResultsChecked; decide)
        (by decide : sweepFrom allOn chainBlock 3 (init exampleTable) = some chainState)).live
      (inv_of_sweepFrom (Block.wellFormed_of_check (by decide))
        (by unfold Block.ResultsChecked; decide)
        (by decide : sweepFrom allOn chainBlock 3 (init exampleTable) = some chainState)).rel
      rfl (by decide) (by decide)⟩

end MemoryAssignment

/-! ## The claims on the concat reuse and on the driver -/

namespace MemoryAssignment

/-- C11: if the concat result is an input or output value, or an axis of the
result shape before the concatenation axis has an extent other than one, or an
operand is an input or output value, or `canAlias(result, operand)` answers
`false` for an operand, then `processConcat` comes back without error and leaves
the whole state of the pass, the map, the counter and the alias relation
included, as it was. -/
theorem concat_rejection_noop (blk : Block) (s : MemoryAssignment) (op : Nat)
    (concat : Operation) (result : Value) (hres : concat.results.head? = some result)
    (hf : s.m_aliasRelation.m_needsTransitiveClosure = false)
    (hrej : blk.isInputOrOutputValue result = true ∨
      (∃ i, i < concat.concatAxis ∧ ∃ d, (blk.shape result)[i]? = some d ∧ d ≠ 1) ∨
      (∃ opnd ∈ concat.operands, blk.isInputOrOutputValue opnd = true) ∨
      (∃ opnd ∈ concat.operands, s.m_aliasRelation.canAlias result opnd = some false)) :
    processConcat blk s op concat = some s := by
  rcases hrej with h1 | h2 | h3 | h4
  · exact processConcat_boundary_reject blk s op concat result hres h1
  · exact processConcat_axis_reject blk s op concat result hres (axisLoop_false_of_nonunit h2)
  · obtain ⟨opnd, hm, hb⟩ := h3
    exact processConcat_alias_reject blk s op concat result hres
      (aliasLoop_false_of_exists blk hf result concat.operands ⟨opnd, hm, Or.inr hb⟩)
  · obtain ⟨opnd, hm, hb⟩ := h4
    exact processConcat_alias_reject blk s op concat result hres
      (aliasLoop_false_of_exists blk hf result concat.operands ⟨opnd, hm, Or.inl hb⟩)

end MemoryAssignment

namespace MemoryAssignment

/-- C13: for the concat at position `op` of a well-formed region that passes the
boundary, axis and alias checks and has no valid `BufferInfo`: if the defining
operation of some operand has a valid `BufferInfo`, `processConcat` leaves the
whole state as it was; otherwise it commits with the former counter `m_bufferId`
as buffer id and the base offset 0, and the counter grows by exactly one; the
defining operation of every operand then carries that id and the cumulative offset
of an operand it defines, reduced to the 32 bits of an `int`. -/
theorem concat_unassigned_destination (blk : Block) (s : MemoryAssignment) (op : Nat)
    (concat : Operation) (result : Value) (hwf : blk.WellFormed)
    (hop : blk.ops[op]? = some concat) (hchk : ConcatChecked blk s concat result)
    (hv : (s.m_memAnalysis.getBufferInfo op).isValid = false) :
    ((∃ opnd ∈ concat.operands,
        (s.m_memAnalysis.getBufferInfoOf (blk.getDefiningOp opnd)).isValid = true) →
      processConcat blk s op concat = some s) ∧
    (¬ (∃ opnd ∈ concat.operands,
        (s.m_memAnalysis.getBufferInfoOf (blk.getDefiningOp opnd)).isValid = true) →
      ∃ s2, processConcat blk s op concat = some s2 ∧
        s2.m_bufferId = s.m_bufferId + 1 ∧ s2.m_liveness = s.m_liveness ∧
        s2.m_aliasRelation = s.m_aliasRelation ∧
        s2.m_memAnalysis.getBufferInfo op = { m_bufferId := s.m_bufferId, m_offset := 0 } ∧
        ∀ i, i < concat.operands.length →
          ∃ d j, blk.getDefiningOp (concat.operands.getD i 0) = some d ∧
            j < concat.operands.length ∧
            blk.getDefiningOp (concat.operands.getD j 0) = some d ∧
            s2.m_memAnalysis.getBufferInfo d =
              { m_bufferId := s.m_bufferId
                m_offset := wrapInt32 (0 + blk.prefixCount concat.operands j) }) := by
  have hdef := operandsDefined_of_aliasLoop hchk.alias_ok
  rw [processConcat_invalid_dest hchk hv]
  constructor
  · intro hex
    rw [(unassignedLoop_false_iff blk s.m_memAnalysis concat.operands).mpr hex]
    rfl
  · intro hnex
    have htrue : unassignedLoop blk s.m_memAnalysis concat.operands = true := by
      cases hu : unassignedLoop blk s.m_memAnalysis concat.operands with
      | true => rfl
      | false =>
          exact absurd ((unassignedLoop_false_iff blk s.m_memAnalysis concat.operands).mp hu) hnex
    rw [htrue]
    simp only [if_true]
    have hself : ∀ i, i < concat.operands.length →
        blk.getDefiningOp (concat.operands.getD i 0) ≠ some op := by
      intro i hi hd
      obtain ⟨opd, hopd, hvd⟩ := Block.getDefiningOp_some hd
      have hmem : concat.operands.getD i 0 ∈ concat.operands := by
        rw [List.getD_eq_getElem _ 0 hi]
        exact List.getElem_mem hi
      exact Nat.lt_irrefl op (hwf.def_before_use op op opd concat _ hopd hop hvd hmem)
    obtain ⟨s2, e, q1, q2, -, q4, -, q6, -⟩ :=
      commitConcat_spec blk s op concat.operands (offsetLoop blk concat.operands).2 (-1) 0 hdef
    obtain ⟨m2, hm2, hs2⟩ := commitConcat_eq e
    simp only [if_true] at hm2 hs2 q4 q6
    have hmem : s2.m_memAnalysis = m2 := by rw [hs2]
    have hwritten := commitLoop_written blk concat.operands (offsetLoop blk concat.operands).2
      _ _ hdef (List.range concat.operands.length) (fun i hi => List.mem_range.mp hi) _ m2 hm2
    refine ⟨s2, e, q4, q1, q2, q6 hself, fun i hi => ?_⟩
    obtain ⟨d, hd⟩ := hdef i hi
    obtain ⟨j, hj, hjd, hval⟩ := hwritten i (List.mem_range.mpr hi) d hd
    have hj2 := List.mem_range.mp hj
    refine ⟨d, j, hd, hj2, hjd, ?_⟩
    rw [hmem, hval, offsetLoop_getD blk concat.operands hj2, wrapInt32_add_right]

end MemoryAssignment

namespace MemoryAssignment

/-- Witness of C11: the concat of `reusedConcatBlock` has the extent 2 on the axis
before its concatenation axis. -/
theorem concat_rejection_noop_witness :
    processConcat reusedConcatBlock (init exampleTable) 2 (concatOp 1 [0, 1] 2)
      = some (init exampleTable) :=
  concat_rejection_noop reusedConcatBlock (init exampleTable) 2 (concatOp 1 [0, 1] 2) 2 rfl rfl
    (Or.inr (Or.inl ⟨0, by decide, 2, rfl, by decide⟩))

/-- Witness of C13: the concat of `concatBlock` on a new pass. -/
theorem concat_unassigned_destination_witness :
    concatBlock.WellFormed ∧
    ConcatChecked concatBlock (init exampleTable) (concatOp 1 [0, 1, 2] 3) 3 ∧
    ((init exampleTable).m_memAnalysis.getBufferInfo 3).isValid = false ∧
    ((∃ opnd ∈ (concatOp 1 [0, 1, 2] 3).operands,
        ((init exampleTable).m_memAnalysis.getBufferInfoOf
          (concatBlock.getDefiningOp opnd)).isValid = true) →
      processConcat concatBlock (init exampleTable) 3 (concatOp 1 [0, 1, 2] 3)
        = some (init exampleTable)) ∧
    (¬ (∃ opnd ∈ (concatOp 1 [0, 1, 2] 3).operands,
        ((init exampleTable).m_memAnalysis.getBufferInfoOf
          (concatBlock.getDefiningOp opnd)).isValid = true) →
      ∃ s2, processConcat concatBlock (init exampleTable) 3 (concatOp 1 [0, 1, 2] 3) = some s2 ∧
        s2.m_bufferId = (init exampleTable).m_bufferId + 1 ∧
        s2.m_liveness = (init exampleTable).m_liveness ∧
        s2.m_aliasRelation = (init exampleTable).m_aliasRelation ∧
        s2.m_memAnalysis.getBufferInfo 3 =
          { m_bufferId := (init exampleTable).m_bufferId, m_offset := 0 } ∧
        ∀ i, i < (concatOp 1 [0, 1, 2] 3).operands.length →
          ∃ d j, concatBlock.getDefiningOp ((concatOp 1 [0, 1, 2] 3).operands.getD i 0)
              = some d ∧
            j < (concatOp 1 [0, 1, 2] 3).operands.length ∧
            concatBlock.getDefiningOp ((concatOp 1 [0, 1, 2] 3).operands.getD j 0) = some d ∧
            s2.m_memAnalysis.getBufferInfo d =
              { m_bufferId := (init exampleTable).m_bufferId
                m_offset :=
                  wrapInt32 (0 + concatBlock.prefixCount (concatOp 1 [0, 1, 2] 3).operands j) }) :=
  ⟨Block.wellFormed_of_check (by decide), ⟨rfl, by decide, by decide, by decide⟩, by decide,
    concat_unassigned_destination concatBlock (init exampleTable) 3 (concatOp 1 [0, 1, 2] 3) 3
      (Block.wellFormed_of_check (by decide)) rfl ⟨rfl, by decide, by decide, by decide⟩
      (by decide)⟩

/-- C15 (evaluation of the code): in the chain `v1 = relu v0; v2 = relu v1;
v3 = relu v2; v4 = relu v3`, when `run` has visited `v2 = relu v1`, the operations
that define `v1`, `v2` and `v3` carry the same valid `BufferInfo` `{0, 0}`, and the
alias relation answers `canAlias(v3, v2) = false` and `canAlias(v2, v1) = false`:
the values the relation records as unable to alias are the ones that share the
buffer. -/
theorem sharing_contradicts_alias_relation :
    ∃ s, sweepFrom allOn longChainBlock 2 (init exampleTable) = some s ∧
      s.m_memAnalysis.getBufferInfo 1 = { m_bufferId := 0, m_offset := 0 } ∧
      s.m_memAnalysis.getBufferInfo 2 = { m_bufferId := 0, m_offset := 0 } ∧
      s.m_memAnalysis.getBufferInfo 3 = { m_bufferId := 0, m_offset := 0 } ∧
      longChainBlock.getDefiningOp 1 = some 1 ∧ longChainBlock.getDefiningOp 2 = some 2 ∧
      longChainBlock.getDefiningOp 3 = some 3 ∧
      s.m_aliasRelation.canAlias 3 2 = some false ∧
      s.m_aliasRelation.canAlias 2 1 = some false :=
  ⟨_, rfl, by decide⟩

/-- C16 (evaluation of the code): on `v1 = concat(v0, v0)` the pass writes
`{0, 0}` for the concat, then `{0, 0}` and then `{0, 4}` for the operation that
defines `v0`: the last write targets an operation with a valid `BufferInfo` and
changes its offset. -/
theorem concat_commit_overwrites :
    memoryAnalysis concatOnly exampleTable [[selfConcatBlock]] =
      some [(0, { m_bufferId := 0, m_offset := 4 }), (0, { m_bufferId := 0, m_offset := 0 }),
        (1, { m_bufferId := 0, m_offset := 0 })] ∧
    (memoryAnalysis concatOnly exampleTable [[selfConcatBlock]]).map
      MemoryAnalysis.writesConsistent = some false := by
  decide

/-- C17: with the master switch off `run` gives the state back as it is, for
every module and every setting of the other switches: map, alias relation,
liveness tracker and counter are unchanged, and the map of a new pass is empty
afterwards. -/
theorem master_switch_off (concatSwitch eltwiseSwitch : Bool) (module : ModuleOp)
    (s : MemoryAssignment) (tbl : List (String × Bool)) :
    run (Switches.mk false concatSwitch eltwiseSwitch) module s = some s ∧
    memoryAnalysis (Switches.mk false concatSwitch eltwiseSwitch) tbl module = some [] :=
  ⟨rfl, rfl⟩

/-- C18 (evaluation of the code): with the master switch on, a module of several
functions and a module whose only function has no block or several blocks are
given back unchanged; on a module without function `run` takes the last element
of an empty vector (line 172), which is a failure, not a return. -/
theorem run_unsupported_shapes (concatSwitch eltwiseSwitch : Bool) (s : MemoryAssignment) :
    (∀ module : ModuleOp, module.length > 1 →
      run (Switches.mk true concatSwitch eltwiseSwitch) module s = some s) ∧
    (∀ f : FuncOp, f.length ≠ 1 →
      run (Switches.mk true concatSwitch eltwiseSwitch) [f] s = some s) ∧
    run (Switches.mk true concatSwitch eltwiseSwitch) [] s = none := by
  refine ⟨fun module hlen => ?_, fun f hf => ?_, rfl⟩
  · unfold run
    simp [hlen]
  · unfold run
    match f, hf with
    | [], _ => rfl
    | [b], h => exact absurd rfl h
    | _ :: _ :: _, _ => rfl

end MemoryAssignment


namespace MemoryAssignment

/-- C14 (counterexample): in `twoResultBlock` the value `v0` is consumed by the
return, and after `run` with every switch on the operation that defines it
carries the valid `BufferInfo` `{0, 0}`: the operation also defines `v1`, which
`v2 = relu v1` selects as its reuse operand. -/
theorem boundary_claim_fails :
    ∃ s, run allOn [[twoResultBlock]] (init exampleTable) = some s ∧
      returnOp [0, 3] ∈ twoResultBlock.ops ∧ (returnOp [0, 3]).isReturn = true ∧
      0 ∈ (returnOp [0, 3]).operands ∧ twoResultBlock.getDefiningOp 0 = some 0 ∧
      s.m_memAnalysis.getBufferInfo 0 = { m_bufferId := 0, m_offset := 0 } ∧
      (s.m_memAnalysis.getBufferInfo 0).isValid = true :=
  ⟨_, rfl, by decide⟩

/-- C14 (amended): in a region whose operations define at most one value each,
for every setting of the switches, after `run` no value consumed by a return has
a defining operation with a valid `BufferInfo`; and in every region the operand
selected by the elementwise reuse and the operands of an accepted concat have a
defining operation. -/
theorem boundary_immovable (sw : Switches) (blk : Block) (tbl : List (String × Bool))
    (hres : blk.ResultsChecked tbl) (hone : ∀ op ∈ blk.ops, op.results.length ≤ 1) :
    (∃ s, run sw [[blk]] (init tbl) = some s ∧
      ∀ (v : Value) (d : Nat) (ret : Operation), ret ∈ blk.ops → ret.isReturn = true →
        v ∈ ret.operands → blk.getDefiningOp v = some d →
        (s.m_memAnalysis.getBufferInfo d).isValid = false) ∧
    (∀ (live : LivenessAnalysis) (operands : List Value) (u : Value),
      (selectLoop blk live operands).1 = some u → blk.getDefiningOp u ≠ none) ∧
    (∀ (s : MemoryAssignment) (op : Nat) (concat : Operation) (result : Value),
      ConcatAccepted blk s op concat result →
      ∀ opnd ∈ concat.operands, blk.getDefiningOp opnd ≠ none) := by
  refine ⟨?_, fun live operands u hsel => ?_, fun s op concat result hacc opnd hmem => ?_⟩
  · by_cases hm : sw.clEnableNgInPlaceMemory = true
    · obtain ⟨s, hs, -, hq⟩ := sweepFrom_induct sw blk tbl hres
        (fun _ s => ∀ (d : Nat) (opd : Operation) (v : Value), blk.ops[d]? = some opd →
          v ∈ opd.results → blk.isInputOrOutputValue v = true →
          (s.m_memAnalysis.getBufferInfo d).isValid = false)
        (init tbl) (init_inv tbl) (fun _ _ _ _ _ _ _ _ => rfl)
        (fun q op s s1 s2 hop hinv hQ hd _ _ hmem _ _ d opd v hopd hv hio => by
          rw [hmem, dispatch_keeps_boundary hone hop hinv.rel.flag
            (fun hsafe => hres op (getElem?_mem_ops hop)
              (hinv.table ▸ (isSafeInPlace_iff s op).mp hsafe)) hd hopd hv hio]
          exact hQ d opd v hopd hv hio) 0
      refine ⟨s, (run_single_block sw blk (init tbl) hm).trans hs, ?_⟩
      intro v d ret hret hisret hv hd
      obtain ⟨opd, hopd, hvd⟩ := Block.getDefiningOp_some hd
      exact hq d opd v hopd hvd (Block.isInputOrOutputValue_of_return hret hisret hv)
    · refine ⟨init tbl, ?_, fun _ _ _ _ _ _ _ => rfl⟩
      unfold run
      simp [hm]
  · obtain ⟨-, -, hunb⟩ := selectLoop_some hsel
    obtain ⟨du, hdu⟩ := isInputOrOutputValue_false_def hunb
    rw [hdu]
    exact Option.some_ne_none du
  · obtain ⟨d, hd⟩ := isInputOrOutputValue_false_def (aliasLoop_true hacc.alias_ok opnd hmem).2
    rw [hd]
    exact Option.some_ne_none d

/-- Witness of C14: the region `pickBlock` with every switch on. -/
theorem boundary_immovable_witness :
    pickBlock.ResultsChecked exampleTable ∧ (∀ op ∈ pickBlock.ops, op.results.length ≤ 1) ∧
    ((∃ s, run allOn [[pickBlock]] (init exampleTable) = some s ∧
      ∀ (v : Value) (d : Nat) (ret : Operation), ret ∈ pickBlock.ops → ret.isReturn = true →
        v ∈ ret.operands → pickBlock.getDefiningOp v = some d →
        (s.m_memAnalysis.getBufferInfo d).isValid = false) ∧
    (∀ (live : LivenessAnalysis) (operands : List Value) (u : Value),
      (selectLoop pickBlock live operands).1 = some u → pickBlock.getDefiningOp u ≠ none) ∧
    (∀ (s : MemoryAssignment) (op : Nat) (concat : Operation) (result : Value),
      ConcatAccepted pickBlock s op concat result →
      ∀ opnd ∈ concat.operands, pickBlock.getDefiningOp opnd ≠ none)) :=
  ⟨by unfold Block.ResultsChecked; decide, by decide,
    boundary_immovable allOn pickBlock exampleTable (by unfold Block.ResultsChecked; decide)
      (by decide)⟩

end MemoryAssignment

namespace MemoryAssignment

/-- C19 (counterexample): on `v1 = relu v0; v2 = relu v1; v3 = relu v2; return v3`
with the master and elementwise switches on, `run` gives the operations A and B
(positions 0 and 1) the `BufferInfo` `{0, 0}` and leaves C (position 2) without:
B and C do not carry the same valid `BufferInfo`. -/
theorem chain_claim_fails :
    ∃ s, run eltwiseOnly [[inputChainBlock]] (init exampleTable) = some s ∧
      s.m_memAnalysis.getBufferInfo 1 = { m_bufferId := 0, m_offset := 0 } ∧
      (s.m_memAnalysis.getBufferInfo 2).isValid = false ∧
      s.m_memAnalysis.getBufferInfo 1 ≠ s.m_memAnalysis.getBufferInfo 2 :=
  ⟨_, rfl, by decide⟩

/-- C19 (amended): for three chained unary operations A, B, C on distinct values,
B in-place (A and C in-place or not), A reading a region input and the result of C
feeding the return, with the master and elementwise switches on, after `run` the
operations A and B carry the `BufferInfo` `{0, 0}`, C and every other operation
carry none, the input of A has no defining operation to assign, and the counter
is 1. -/
theorem elementwise_chain (a b c : String) (v0 v1 v2 v3 : Value) (shape : Value → List Int)
    (numElements : Value → Int) (tbl : List (String × Bool)) (concatSwitch : Bool)
    (hb : tbl.lookup b = some true) (hr : tbl.lookup "ng.return" ≠ some true)
    (hdist : [v0, v1, v2, v3].Nodup) :
    ∃ s, run (Switches.mk true concatSwitch true)
        [[unaryChain a b c v0 v1 v2 v3 shape numElements]] (init tbl) = some s ∧
      s.m_memAnalysis.getBufferInfo 0 = { m_bufferId := 0, m_offset := 0 } ∧
      s.m_memAnalysis.getBufferInfo 1 = { m_bufferId := 0, m_offset := 0 } ∧
      (s.m_memAnalysis.getBufferInfo 2).isValid = false ∧
      (∀ o, o ≠ 0 → o ≠ 1 → (s.m_memAnalysis.getBufferInfo o).isValid = false) ∧
      (unaryChain a b c v0 v1 v2 v3 shape numElements).getDefiningOp v0 = none ∧
      s.m_bufferId = 1 := by
  have h01 : v0 ≠ v1 := by intro e; simp [e] at hdist
  have h02 : v0 ≠ v2 := by intro e; simp [e] at hdist
  have h03 : v0 ≠ v3 := by intro e; simp [e] at hdist
  have h12 : v1 ≠ v2 := by intro e; simp [e] at hdist
  have h13 : v1 ≠ v3 := by intro e; simp [e] at hdist
  have h23 : v2 ≠ v3 := by intro e; simp [e] at hdist
  generalize hblk : unaryChain a b c v0 v1 v2 v3 shape numElements = blk
  have hops : blk.ops =
      [plainOp a [v0] [v1], plainOp b [v1] [v2], plainOp c [v2] [v3], returnOp [v3]] := by
    rw [← hblk]; rfl
  have hd0 : blk.getDefiningOp v0 = none := by
    simp [Block.getDefiningOp, hops, findDefiningOp, plainOp, returnOp, h01, h02, h03]
  have hd1 : blk.getDefiningOp v1 = some 0 := by
    simp [Block.getDefiningOp, hops, findDefiningOp, plainOp, returnOp]
  have hio0 : blk.isInputOrOutputValue v0 = true := by
    simp [Block.isInputOrOutputValue, hd0]
  have hio1 : blk.isInputOrOutputValue v1 = false := by
    simp [Block.isInputOrOutputValue, hd1, hops, plainOp, returnOp, h13]
  have hio2 : blk.isInputOrOutputValue v2 = false := by
    simp [Block.isInputOrOutputValue, Block.getDefiningOp, hops, findDefiningOp, plainOp,
      returnOp, h12.symm, h23]
  have hio3 : blk.isInputOrOutputValue v3 = true := by
    simp [Block.isInputOrOutputValue, Block.getDefiningOp, hops, findDefiningOp, plainOp,
      returnOp, h13.symm, h23.symm]
  have hres : blk.ResultsChecked tbl := by
    intro op hop hl
    rw [hops] at hop
    simp only [List.mem_cons, List.mem_singleton, List.not_mem_nil, or_false] at hop
    rcases hop with e | e | e | e
    · rw [e]; rfl
    · rw [e]; rfl
    · rw [e]; rfl
    · rw [e] at hl; exact absurd hl hr
  obtain ⟨s, hs, -, hq⟩ := sweepFrom_induct (Switches.mk true concatSwitch true) blk tbl hres
    (fun q s =>
      (2 ≤ q → s.m_liveness.isLive v1 = false ∧ s.m_bufferId = 0 ∧
        ∀ o, (s.m_memAnalysis.getBufferInfo o).isValid = false) ∧
      (q ≤ 1 → s.m_memAnalysis.getBufferInfo 0 = { m_bufferId := 0, m_offset := 0 } ∧
        s.m_memAnalysis.getBufferInfo 1 = { m_bufferId := 0, m_offset := 0 } ∧
        (∀ o, o ≠ 0 → o ≠ 1 → (s.m_memAnalysis.getBufferInfo o).isValid = false) ∧
        s.m_bufferId = 1))
    (init tbl) (init_inv tbl)
    (fun q hlen => ⟨fun _ => ⟨rfl, rfl, fun _ => rfl⟩, fun hq1 => by
      rw [hops] at hlen; simp at hlen; omega⟩)
    (fun q op s s1 s2 hop hinv hQ hd _ _ hmem hbid hlive => by
      have hflag := hinv.rel.flag
      have hsafe : ∀ o : Operation, s.isSafeInPlace o = true ↔ tbl.lookup o.name = some true :=
        fun o => hinv.table ▸ isSafeInPlace_iff s o
      rw [hops] at hop
      match q, hop, hQ with
      | 0, hop, hQ =>
          simp only [List.getElem?_cons_zero, Option.some.injEq] at hop
          subst hop
          obtain ⟨g0, g1, g2, g3⟩ := hQ.2 (Nat.le_refl 1)
          have hs1 : s1 = s := by
            rcases dispatch_cases hflag (fun _ => (rfl : (plainOp a [v0] [v1]).results.length = 1))
                hd with h | ⟨-, -, -, r, u, -, -, hsel, -⟩ |
                ⟨-, hcon, -⟩
            · exact h
            · obtain ⟨hu, -, hunb⟩ := selectLoop_some hsel
              rw [show u = v0 from by simpa [plainOp] using hu, hio0] at hunb
              cases hunb
            · cases hcon
          rw [hs1] at hmem hbid
          refine ⟨fun h2 => absurd h2 (by decide), fun _ => ?_⟩
          rw [hmem, hbid]
          exact ⟨g0, g1, g2, g3⟩
      | 1, hop, hQ =>
          simp only [List.getElem?_cons_succ, List.getElem?_cons_zero, Option.some.injEq] at hop
          subst hop
          obtain ⟨l1, b1, m1⟩ := hQ.1 (Nat.le_refl 2)
          have hsel : (selectLoop blk s.m_liveness (plainOp b [v1] [v2]).operands).1 = some v1 := by
            rw [selectLoop_eq]
            simp [plainOp, l1, hio1]
          rw [dispatch_eltwise ((hsafe _).mpr hb) rfl rfl,
            processDestructiveInPlace_accepted (rfl : (plainOp b [v1] [v2]).results = [v2]) hio2
              hsel] at hd
          have hs1 : s1.m_memAnalysis = (assignInPlace blk s 1 v1).m_memAnalysis ∧
              s1.m_bufferId = (assignInPlace blk s 1 v1).m_bufferId := by
            rw [← Option.some.inj hd]
            exact ⟨rfl, rfl⟩
          obtain ⟨e1, -, e3, e4⟩ := assignInPlace_spec blk s 1 v1 0 hd1
          obtain ⟨e5, e6⟩ := e3 (m1 1)
          refine ⟨fun h2 => absurd h2 (by decide), fun _ => ?_⟩
          rw [hmem, hbid, hs1.1, hs1.2, ← e1, e5, e6, b1]
          exact ⟨rfl, rfl, fun o ho0 ho1 => by rw [e4 o ho1 ho0]; exact m1 o, rfl⟩
      | 2, hop, hQ =>
          simp only [List.getElem?_cons_succ, List.getElem?_cons_zero, Option.some.injEq] at hop
          subst hop
          obtain ⟨l1, b1, m1⟩ := hQ.1 (by decide)
          have hs1 : s1 = s := by
            rcases dispatch_cases hflag (fun _ => (rfl : (plainOp c [v2] [v3]).results.length = 1))
                hd with h | ⟨-, -, -, r, u, hr1, hnb, -, -⟩ |
                ⟨-, hcon, -⟩
            · exact h
            · rw [show r = v3 from by simpa [plainOp] using hr1.symm, hio3] at hnb
              cases hnb
            · cases hcon
          rw [hs1] at hmem hbid
          refine ⟨fun _ => ⟨?_, ?_, ?_⟩, fun h2 => absurd h2 (by decide)⟩
          · rw [hlive v1]
            simp [plainOp, h12, h13, l1]
          · rw [hbid, b1]
          · rw [hmem]; exact m1
      | 3, hop, hQ =>
          simp only [List.getElem?_cons_succ, List.getElem?_cons_zero, Option.some.injEq] at hop
          subst hop
          obtain ⟨l1, b1, m1⟩ := hQ.1 (by decide)
          have hns : s.isSafeInPlace (returnOp [v3]) = false := by
            cases h : s.isSafeInPlace (returnOp [v3]) with
            | false => rfl
            | true => exact absurd ((hsafe _).mp h) hr
          rw [dispatch_not_safe hns] at hd
          rw [← Option.some.inj hd] at hmem hbid
          refine ⟨fun _ => ⟨?_, ?_, ?_⟩, fun h2 => absurd h2 (by decide)⟩
          · rw [hlive v1]
            simp [returnOp, h13, l1]
          · rw [hbid, b1]
          · rw [hmem]; exact m1
      | q + 4, hop, _ => simp at hop) 0
  obtain ⟨g0, g1, g2, g3⟩ := hq.2 (by decide)
  exact ⟨s, (run_single_block _ blk (init tbl) rfl).trans hs, g0, g1, g2 2 (by decide) (by decide),
    g2, hd0, g3⟩

/-- Witness of C19: the region `inputChainBlock`. -/
theorem elementwise_chain_witness :
    exampleTable.lookup "ng.relu" = some true ∧ exampleTable.lookup "ng.return" ≠ some true ∧
    [0, 1, 2, 3].Nodup ∧
    unaryChain "ng.relu" "ng.relu" "ng.relu" 0 1 2 3 (fun _ => [4]) (fun _ => 4)
      = inputChainBlock ∧
    ∃ s, run (Switches.mk true false true)
        [[unaryChain "ng.relu" "ng.relu" "ng.relu" 0 1 2 3 (fun _ => [4]) (fun _ => 4)]]
        (init exampleTable) = some s ∧
      s.m_memAnalysis.getBufferInfo 0 = { m_bufferId := 0, m_offset := 0 } ∧
      s.m_memAnalysis.getBufferInfo 1 = { m_bufferId := 0, m_offset := 0 } ∧
      (s.m_memAnalysis.getBufferInfo 2).isValid = false ∧
      (∀ o, o ≠ 0 → o ≠ 1 → (s.m_memAnalysis.getBufferInfo o).isValid = false) ∧
      (unaryChain "ng.relu" "ng.relu" "ng.relu" 0 1 2 3 (fun _ => [4])
        (fun _ => 4)).getDefiningOp 0 = none ∧
      s.m_bufferId = 1 :=
  ⟨by decide, by decide, by decide, rfl,
    elementwise_chain "ng.relu" "ng.relu" "ng.relu" 0 1 2 3 (fun _ => [4]) (fun _ => 4)
      exampleTable false (by decide) (by decide) (by decide)⟩

/-- C20 (counterexample): in `crossingBlock` the concat at position 4 has three
operands produced by three distinct operations, concatenates along the last axis
of a result of shape `[1, 9]`, has no boundary value among its operands and
result, and nothing it touches is assigned when it is reached; with every switch
on, `run` leaves the concat and the three defining operations without
`BufferInfo`, because the elementwise reuse of `v5 = relu v3` has recorded the
result and the first operand in the alias relation. -/
theorem concat_scenario_fails :
    ∃ s, run allOn [[crossingBlock]] (init exampleTable) = some s ∧
      crossingBlock.ops[4]? = some (concatOp 1 [0, 1, 2] 4) ∧
      crossingBlock.getDefiningOp 0 = some 0 ∧ crossingBlock.getDefiningOp 1 = some 1 ∧
      crossingBlock.getDefiningOp 2 = some 2 ∧
      crossingBlock.isInputOrOutputValue 4 = false ∧
      crossingBlock.isInputOrOutputValue 0 = false ∧
      crossingBlock.isInputOrOutputValue 1 = false ∧
      crossingBlock.isInputOrOutputValue 2 = false ∧
      (sweepFrom allOn crossingBlock 5 (init exampleTable)).map
        (fun t => [4, 0, 1, 2].map (fun o => (t.m_memAnalysis.getBufferInfo o).isValid))
        = some [false, false, false, false] ∧
      (sweepFrom allOn crossingBlock 5 (init exampleTable)).map
        (fun t => t.m_aliasRelation.canAlias 4 0) = some (some false) ∧
      [4, 0, 1, 2].map (fun o => (s.m_memAnalysis.getBufferInfo o).isValid)
        = [false, false, false, false] :=
  ⟨_, rfl, by decide⟩

/-- C20 (amended): with the master and concat switches on and the elementwise
switch off, in a well-formed region, an in-place concat of three operands produced
by three distinct operations, whose result has extent 1 on every axis before the
concatenation axis, where neither the operands nor the result are input or output
values and neither the concat nor the three defining operations carry a
`BufferInfo` when the loop reaches the concat: after `run` the concat and the
three defining operations carry one valid buffer id, the concat and the first
operand at offset 0, the second at `n0` and the third at `n0 + n1`, each reduced to
the 32 bits of an `int`: the second at `n0` itself when `n0` is a value of the type
`int`, and the third at `n0 + n1` itself when `n0 + n1` is. -/
theorem concat_end_to_end (blk : Block) (tbl : List (String × Bool)) (c : Nat)
    (concat : Operation) (result o0 o1 o2 : Value) (d0 d1 d2 : Nat)
    (hwf : blk.WellFormed) (hres : blk.ResultsChecked tbl)
    (hop : blk.ops[c]? = some concat) (hsafe : tbl.lookup concat.name = some true)
    (hcon : concat.isConcat = true) (hoperands : concat.operands = [o0, o1, o2])
    (hresult : concat.results = [result])
    (hd0 : blk.getDefiningOp o0 = some d0) (hd1 : blk.getDefiningOp o1 = some d1)
    (hd2 : blk.getDefiningOp o2 = some d2) (hdist : [d0, d1, d2].Nodup)
    (hb : blk.isInputOrOutputValue result = false)
    (hb0 : blk.isInputOrOutputValue o0 = false) (hb1 : blk.isInputOrOutputValue o1 = false)
    (hb2 : blk.isInputOrOutputValue o2 = false)
    (haxis : ∀ i, i < concat.concatAxis → ∀ d, (blk.shape result)[i]? = some d → d = 1)
    (hpre : ∀ s, sweepFrom concatOnly blk (c + 1) (init tbl) = some s →
      ∀ o ∈ [c, d0, d1, d2], (s.m_memAnalysis.getBufferInfo o).isValid = false) :
    ∃ s id, run concatOnly [[blk]] (init tbl) = some s ∧ 0 ≤ id ∧
      s.m_memAnalysis.getBufferInfo c = { m_bufferId := id, m_offset := 0 } ∧
      s.m_memAnalysis.getBufferInfo d0 = { m_bufferId := id, m_offset := 0 } ∧
      s.m_memAnalysis.getBufferInfo d1 = { m_bufferId := id, m_offset := wrapInt32 (blk.numElements o0) } ∧
      s.m_memAnalysis.getBufferInfo d2 =
        { m_bufferId := id, m_offset := wrapInt32 (blk.numElements o0 + blk.numElements o1) } ∧
      (InInt32 (blk.numElements o0) →
        s.m_memAnalysis.getBufferInfo d1 =
          { m_bufferId := id, m_offset := blk.numElements o0 }) ∧
      (InInt32 (blk.numElements o0 + blk.numElements o1) →
        s.m_memAnalysis.getBufferInfo d2 =
          { m_bufferId := id, m_offset := blk.numElements o0 + blk.numElements o1 }) := by
  have h01 : d0 ≠ d1 := by intro e; simp [e] at hdist
  have h02 : d0 ≠ d2 := by intro e; simp [e] at hdist
  have h12 : d1 ≠ d2 := by intro e; simp [e] at hdist
  have hclt : c < blk.ops.length := by
    by_contra hge
    rw [List.getElem?_eq_none (Nat.le_of_not_lt hge)] at hop
    cases hop
  have hdc : ∀ o ∈ concat.operands, ∀ d, blk.getDefiningOp o = some d → d ≠ c := by
    intro o ho d hd
    obtain ⟨opd, hopd, hv⟩ := Block.getDefiningOp_some hd
    exact Nat.ne_of_lt (hwf.def_before_use d c opd concat o hopd hop hv ho)
  obtain ⟨s, -, hal, hbid, hs, hinfo⟩ : ∃ s, s.Inv tbl ∧
      s.m_aliasRelation = AliasRelation.empty ∧ 0 ≤ s.m_bufferId ∧
      sweepFrom concatOnly blk 0 (init tbl) = some s ∧
      (0 ≤ c → ∃ id, 0 ≤ id ∧
        s.m_memAnalysis.getBufferInfo c = { m_bufferId := id, m_offset := 0 } ∧
        s.m_memAnalysis.getBufferInfo d0 = { m_bufferId := id, m_offset := 0 } ∧
        s.m_memAnalysis.getBufferInfo d1 = { m_bufferId := id, m_offset := wrapInt32 (blk.numElements o0) } ∧
        s.m_memAnalysis.getBufferInfo d2 =
          { m_bufferId := id, m_offset := wrapInt32 (blk.numElements o0 + blk.numElements o1) }) := by
    obtain ⟨s, -, hinv, hq⟩ := sweepFrom_induct concatOnly blk tbl hres
      (fun q s => s.m_aliasRelation = AliasRelation.empty ∧ 0 ≤ s.m_bufferId ∧
        sweepFrom concatOnly blk q (init tbl) = some s ∧
        (q ≤ c → ∃ id, 0 ≤ id ∧
          s.m_memAnalysis.getBufferInfo c = { m_bufferId := id, m_offset := 0 } ∧
          s.m_memAnalysis.getBufferInfo d0 = { m_bufferId := id, m_offset := 0 } ∧
          s.m_memAnalysis.getBufferInfo d1 =
            { m_bufferId := id, m_offset := wrapInt32 (blk.numElements o0) } ∧
          s.m_memAnalysis.getBufferInfo d2 =
            { m_bufferId := id, m_offset := wrapInt32 (blk.numElements o0 + blk.numElements o1) }))
      (init tbl) (init_inv tbl)
      (fun q hlen => ⟨rfl, Int.le_refl 0, sweepFrom_end concatOnly blk hlen (init tbl),
        fun hqc => absurd hclt (by omega)⟩)
      (fun q op s s1 s2 hopq hinv hQ hd hv _ hmem hbid _ => by
        obtain ⟨qal, qbid, qs, qinfo⟩ := hQ
        have hflag := hinv.rel.flag
        have hlenq : s.isSafeInPlace op = true → op.results.length = 1 :=
          fun h => hres op (getElem?_mem_ops hopq) (hinv.table ▸ (isSafeInPlace_iff s op).mp h)
        obtain ⟨kal, kbid, kmem⟩ := dispatch_concat_only (rfl : concatOnly.clEnableNgInPlaceEltWise
          = false) hflag hlenq hd
        have hstepq : sweepFrom concatOnly blk q (init tbl) = some s2 := by
          rw [sweepFrom_step concatOnly blk hopq, qs]
          exact hv
        refine ⟨(visit_alias hd hv).trans (kal.trans qal), by rw [hbid]; omega, hstepq,
          fun hqc => ?_⟩
        rw [hmem]
        rcases Nat.lt_or_eq_of_le hqc with hlt | heq
        · obtain ⟨id, hid, g0, g1, g2, g3⟩ := qinfo (by omega)
          refine ⟨id, hid, ?_, ?_, ?_, ?_⟩
          · rw [kmem c (by rw [g0]; exact isValid_of_nonneg hid), g0]
          · rw [kmem d0 (by rw [g1]; exact isValid_of_nonneg hid), g1]
          · rw [kmem d1 (by rw [g2]; exact isValid_of_nonneg hid), g2]
          · rw [kmem d2 (by rw [g3]; exact isValid_of_nonneg hid), g3]
        · subst heq
          rw [hop] at hopq
          have hopeq := Option.some.inj hopq
          subst hopeq
          have hinval := hpre s qs
          have hvc := hinval q (by simp)
          have hv0 := hinval d0 (by simp)
          have hv1 := hinval d1 (by simp)
          have hv2 := hinval d2 (by simp)
          have hcan : ∀ w, AliasRelation.empty.canAlias result w = some true := fun _ => rfl
          have hacc : ConcatAccepted blk s q concat result := by
            refine ⟨by rw [hresult]; rfl, hb, axisLoop_true_of_unit haxis, ?_, ?_⟩
            · rw [qal, hoperands]
              simp [aliasLoop, hcan, hb0, hb1, hb2]
            · rw [hvc]
              simp only [Bool.false_eq_true, if_false]
              rw [hoperands]
              simp [unassignedLoop, hd0, hd1, hd2, MemoryAnalysis.getBufferInfoOf, hv0, hv1, hv2]
          have hsafeq : s.isSafeInPlace concat = true :=
            (isSafeInPlace_iff s concat).mpr (hinv.table.symm ▸ hsafe)
          have hdisp : dispatch concatOnly blk s q concat = processConcat blk s q concat := by
            unfold dispatch
            rw [hsafeq, hcon]
            rfl
          rw [hdisp, processConcat_accepted hacc, hvc] at hd
          simp only [Bool.false_eq_true, if_false] at hd
          obtain ⟨s3, e3, -, -, -, -, -, hself, hopnd⟩ := commitConcat_spec blk s q concat.operands
            (offsetLoop blk concat.operands).2 (-1) 0
            (operandsDefined_of_aliasLoop hacc.alias_ok)
          rw [hd] at e3
          have hs13 := Option.some.inj e3
          subst hs13
          simp only [if_true] at hself hopnd
          have hgetD0 : concat.operands.getD 0 0 = o0 := by rw [hoperands]; rfl
          have hgetD1 : concat.operands.getD 1 0 = o1 := by rw [hoperands]; rfl
          have hgetD2 : concat.operands.getD 2 0 = o2 := by rw [hoperands]; rfl
          have hlen3 : concat.operands.length = 3 := by rw [hoperands]; rfl
          have hcases : ∀ j, j < concat.operands.length → j = 0 ∨ j = 1 ∨ j = 2 := by
            intro j hj; omega
          refine ⟨s.m_bufferId, qbid, ?_, ?_, ?_, ?_⟩
          · apply hself
            intro i hi hdi
            have hm : concat.operands.getD i 0 ∈ concat.operands := by
              rw [List.getD_eq_getElem _ 0 hi]
              exact List.getElem_mem hi
            exact hdc _ hm q hdi rfl
          · have := hopnd 0 (by omega) d0 (by rw [hgetD0]; exact hd0) (fun j hj hjd => by
              rcases hcases j hj with e | e | e
              · exact e
              · rw [e, hgetD1, hd1] at hjd; exact absurd (Option.some.inj hjd).symm h01
              · rw [e, hgetD2, hd2] at hjd; exact absurd (Option.some.inj hjd).symm h02)
            rw [this, offsetLoop_getD blk concat.operands (by omega : 0 < concat.operands.length),
              wrapInt32_add_right]
            simp [Block.prefixCount, wrapInt32_zero]
          · have := hopnd 1 (by omega) d1 (by rw [hgetD1]; exact hd1) (fun j hj hjd => by
              rcases hcases j hj with e | e | e
              · rw [e, hgetD0, hd0] at hjd; exact absurd (Option.some.inj hjd) h01
              · exact e
              · rw [e, hgetD2, hd2] at hjd; exact absurd (Option.some.inj hjd).symm h12)
            rw [this, offsetLoop_getD blk concat.operands (by omega : 1 < concat.operands.length),
              wrapInt32_add_right]
            simp [Block.prefixCount, hoperands]
          · have := hopnd 2 (by omega) d2 (by rw [hgetD2]; exact hd2) (fun j hj hjd => by
              rcases hcases j hj with e | e | e
              · rw [e, hgetD0, hd0] at hjd; exact absurd (Option.some.inj hjd) h02
              · rw [e, hgetD1, hd1] at hjd; exact absurd (Option.some.inj hjd) h12
              · exact e)
            rw [this, offsetLoop_getD blk concat.operands (by omega : 2 < concat.operands.length),
              wrapInt32_add_right]
            simp [Block.prefixCount, hoperands]) 0
    exact ⟨s, hinv, hq⟩
  obtain ⟨id, hid, g0, g1, g2, g3⟩ := hinfo (Nat.zero_le c)
  exact ⟨s, id, (run_single_block concatOnly blk (init tbl) rfl).trans hs, hid, g0, g1, g2, g3,
    fun hfit => by rw [g2, wrapInt32_of_inInt32 hfit],
    fun hfit => by rw [g3, wrapInt32_of_inInt32 hfit]⟩

/-- Witness of C20: the concat of `concatBlock`, whose operands have 2, 3 and 4
elements. -/
theorem concat_end_to_end_witness :
    concatBlock.WellFormed ∧ concatBlock.ResultsChecked exampleTable ∧
    concatBlock.ops[3]? = some (concatOp 1 [0, 1, 2] 3) ∧
    [0, 1, 2].map concatBlock.getDefiningOp = [some 0, some 1, some 2] ∧
    [3, 0, 1, 2].map concatBlock.isInputOrOutputValue = [false, false, false, false] ∧
    concatBlock.shape 3 = [1, 9] ∧
    (∀ s, sweepFrom concatOnly concatBlock (3 + 1) (init exampleTable) = some s →
      ∀ o ∈ [3, 0, 1, 2], (s.m_memAnalysis.getBufferInfo o).isValid = false) ∧
    ∃ s id, run concatOnly [[concatBlock]] (init exampleTable) = some s ∧ 0 ≤ id ∧
      s.m_memAnalysis.getBufferInfo 3 = { m_bufferId := id, m_offset := 0 } ∧
      s.m_memAnalysis.getBufferInfo 0 = { m_bufferId := id, m_offset := 0 } ∧
      s.m_memAnalysis.getBufferInfo 1 =
        { m_bufferId := id, m_offset := wrapInt32 (concatBlock.numElements 0) } ∧
      s.m_memAnalysis.getBufferInfo 2 =
        { m_bufferId := id
          m_offset := wrapInt32 (concatBlock.numElements 0 + concatBlock.numElements 1) } ∧
      (InInt32 (concatBlock.numElements 0) →
        s.m_memAnalysis.getBufferInfo 1 =
          { m_bufferId := id, m_offset := concatBlock.numElements 0 }) ∧
      (InInt32 (concatBlock.numElements 0 + concatBlock.numElements 1) →
        s.m_memAnalysis.getBufferInfo 2 =
          { m_bufferId := id
            m_offset := concatBlock.numElements 0 + concatBlock.numElements 1 }) :=
  have hpre : ∀ s, sweepFrom concatOnly concatBlock (3 + 1) (init exampleTable) = some s →
      ∀ o ∈ [3, 0, 1, 2], (s.m_memAnalysis.getBufferInfo o).isValid = false := by
    intro s hs o _
    have hall : ∃ t, sweepFrom concatOnly concatBlock (3 + 1) (init exampleTable) = some t ∧
        ∀ o, (t.m_memAnalysis.getBufferInfo o).isValid = false := ⟨_, rfl, fun _ => rfl⟩
    obtain ⟨t, ht, hinval⟩ := hall
    rw [hs] at ht
    rw [Option.some.inj ht]
    exact hinval o
  ⟨Block.wellFormed_of_check (by decide), by unfold Block.ResultsChecked; decide, rfl,
    by decide, by decide, rfl, hpre,
    concat_end_to_end concatBlock exampleTable 3 (concatOp 1 [0, 1, 2] 3) 3 0 1 2 0 1 2
      (Block.wellFormed_of_check (by decide)) (by unfold Block.ResultsChecked; decide) rfl
      (by decide) rfl rfl rfl (by decide) (by decide) (by decide) (by decide) (by decide)
      (by decide) (by decide) (by decide) (by decide) hpre⟩

/-- The 32 bits of the offsets of a concat: in `hugeTripleBlock`, whose
concat has three operands of 3000000000 elements each, `run` gives the concat and
the three defining operations the buffer 0, and the second and third operand the
offsets -1294967296 and 1705032704. -/
theorem concat_scenario_wraps :
    ∃ s, run concatOnly [[hugeTripleBlock]] (init exampleTable) = some s ∧
      hugeTripleBlock.numElements 0 = 3000000000 ∧ hugeTripleBlock.numElements 1 = 3000000000 ∧
      s.m_memAnalysis.getBufferInfo 3 = { m_bufferId := 0, m_offset := 0 } ∧
      s.m_memAnalysis.getBufferInfo 0 = { m_bufferId := 0, m_offset := 0 } ∧
      s.m_memAnalysis.getBufferInfo 1 = { m_bufferId := 0, m_offset := -1294967296 } ∧
      s.m_memAnalysis.getBufferInfo 2 = { m_bufferId := 0, m_offset := 1705032704 } :=
  ⟨_, rfl, by decide⟩

end MemoryAssignment


/-! ## The helper classes from outside -/

namespace AliasRelation

/-- C21: the flag `m_needsTransitiveClosure` is clear in the relation of the
constructor and after every call of `insertNoAlias`, on any relation; so after
every sequence of `insertNoAlias` calls the check at the head of `canAlias` holds
and every query gets an answer. -/
theorem closure_never_pending :
    empty.m_needsTransitiveClosure = false ∧
    (∀ (r : AliasRelation) (a b : Value),
      (r.insertNoAlias a b).m_needsTransitiveClosure = false) ∧
    ∀ calls : List (Value × Value),
      (afterInserts calls).m_needsTransitiveClosure = false ∧
      ∀ x y, ∃ can, (afterInserts calls).canAlias x y = some can :=
  ⟨rfl, fun _ _ _ => rfl, fun calls =>
    ⟨(afterInserts_closed calls).flag,
      fun x y => MemoryAssignment.canAlias_isSome (afterInserts_closed calls).flag x y⟩⟩

/-- C22: for the relation after any sequence of `insertNoAlias` calls and every
further call `insertNoAlias(a, b)`: each value keeps its index, every matrix
entry that was 1 is still 1, and every pair for which `canAlias` answered false
still gets the answer false. -/
theorem relation_only_grows (calls : List (Value × Value)) (a b : Value) :
    (∀ w i, (afterInserts calls).m_valueToIdx.lookup w = some i →
      ((afterInserts calls).insertNoAlias a b).m_valueToIdx.lookup w = some i) ∧
    (∀ i j, (afterInserts calls).m_reachability.at i j = 1 →
      ((afterInserts calls).insertNoAlias a b).m_reachability.at i j = 1) ∧
    (∀ x y, (afterInserts calls).canAlias x y = some false →
      ((afterInserts calls).insertNoAlias a b).canAlias x y = some false) := by
  have hc := afterInserts_closed calls
  obtain ⟨hc2, -, hlook, hmono⟩ := insertNoAlias_spec hc.wf a b
  refine ⟨hlook, fun i j hij => ?_, fun x y hxy => ?_⟩
  · rcases hc2.wf.binary i j with h0 | h1
    · exact absurd h0 (hmono i j (by rw [hij]; exact one_ne_zero))
    · exact h1
  · obtain ⟨xi, yi, hx, hy⟩ := canAlias_false_known hxy
    exact canAlias_of_known hc2.wf.symmetric hc2.flag (hlook x xi hx) (hlook y yi hy)

/-- Witness of C22: the relation after `insertNoAlias(1, 2)` and the further call
`insertNoAlias(3, 4)`. -/
theorem relation_only_grows_witness :
    (afterInserts [(1, 2)]).m_valueToIdx.lookup 1 = some 0 ∧
    ((afterInserts [(1, 2)]).insertNoAlias 3 4).m_valueToIdx.lookup 1 = some 0 ∧
    (afterInserts [(1, 2)]).m_reachability.at 0 1 = 1 ∧
    ((afterInserts [(1, 2)]).insertNoAlias 3 4).m_reachability.at 0 1 = 1 ∧
    (afterInserts [(1, 2)]).canAlias 1 2 = some false ∧
    ((afterInserts [(1, 2)]).insertNoAlias 3 4).canAlias 1 2 = some false :=
  ⟨by decide, (relation_only_grows [(1, 2)] 3 4).1 1 0 (by decide), by decide,
    (relation_only_grows [(1, 2)] 3 4).2.1 0 1 (by decide), by decide,
    (relation_only_grows [(1, 2)] 3 4).2.2 1 2 (by decide)⟩

/-- C23: after any sequence of `insertNoAlias` calls, if `a` is an argument of
none of them, or `b` is an argument of none of them, `canAlias(a, b)` answers
true; every query on the relation of the constructor answers true. -/
theorem canAlias_conservative (calls : List (Value × Value)) (a b : Value)
    (h : (∀ c ∈ calls, c.1 ≠ a ∧ c.2 ≠ a) ∨ (∀ c ∈ calls, c.1 ≠ b ∧ c.2 ≠ b)) :
    (afterInserts calls).canAlias a b = some true ∧
    ∀ x y, empty.canAlias x y = some true := by
  refine ⟨?_, fun _ _ => rfl⟩
  apply canAlias_of_unknown (afterInserts_closed calls).flag
  rcases h with h | h
  · exact Or.inl (insertAll_lookup_none calls empty rfl h)
  · exact Or.inr (insertAll_lookup_none calls empty rfl h)

/-- Witness of C23: after `insertNoAlias(1, 2)` and `insertNoAlias(2, 3)` the
value 5 is unknown. -/
theorem canAlias_conservative_witness :
    ((∀ c ∈ [((1 : Value), (2 : Value)), (2, 3)], c.1 ≠ 5 ∧ c.2 ≠ 5) ∨
      (∀ c ∈ [((1 : Value), (2 : Value)), (2, 3)], c.1 ≠ 1 ∧ c.2 ≠ 1)) ∧
    (afterInserts [(1, 2), (2, 3)]).canAlias 5 1 = some true ∧
    ∀ x y, empty.canAlias x y = some true :=
  ⟨Or.inl (by decide), canAlias_conservative [(1, 2), (2, 3)] 5 1 (Or.inl (by decide))⟩

end AliasRelation

namespace LivenessAnalysis

/-- C24: in the tracker of a new pass and in the tracker after `reset`, whatever
was tracked before, `isLive` answers `false` for every value and `getLiveValues`
leaves an empty output sequence empty. -/
theorem unobserved_values_dead :
    (∀ v, empty.isLive v = false) ∧ empty.getLiveValues = [] ∧
    ∀ l : LivenessAnalysis, (∀ v, l.reset.isLive v = false) ∧ l.reset.getLiveValues = [] :=
  ⟨fun _ => rfl, rfl, fun _ => ⟨fun _ => rfl, rfl⟩⟩

/-- C25: after every sequence of calls of `reset`, `setLive` and `kill` on the
tracker of a new pass (none of which fails), for every value `v` the call
`setLive(v)` passes its size check, `isLive(v)` is true afterwards and `isLive(w)`
is unchanged for every other value `w`. -/
theorem setLive_postcondition (calls : List Call) :
    ∃ l, afterCalls calls empty = some l ∧
      ∀ v, ∃ l2, l.setLive v = some l2 ∧ l2.isLive v = true ∧
        ∀ w, w ≠ v → l2.isLive w = l.isLive w := by
  obtain ⟨l, e, w⟩ := afterCalls_wf calls empty_wf
  refine ⟨l, e, fun v => ?_⟩
  obtain ⟨l2, e2, -, h2⟩ := setLive_spec w v
  refine ⟨l2, e2, ?_, fun x hx => ?_⟩
  · rw [h2 v, if_pos rfl]
  · rw [h2 x, if_neg hx]

/-- C26: after every sequence of calls of `reset`, `setLive` and `kill` on the
tracker of a new pass, for every value `v`, after `kill(v)` `isLive(v)` is false
and `isLive(w)` is unchanged for every other value `w`; and if `v` has no index,
which is the case when no `setLive(v)` is among the calls, `kill(v)` leaves the
tracker as it is. -/
theorem kill_postcondition (calls : List Call) :
    ∃ l, afterCalls calls empty = some l ∧
      ∀ v, (l.kill v).isLive v = false ∧
        (∀ w, w ≠ v → (l.kill v).isLive w = l.isLive w) ∧
        (l.m_valueToIdx.lookup v = none → l.kill v = l) ∧
        ((∀ c ∈ calls, c ≠ Call.setLive v) → l.kill v = l) := by
  obtain ⟨l, e, w⟩ := afterCalls_wf calls empty_wf
  have hnone : ∀ v, l.m_valueToIdx.lookup v = none → l.kill v = l := by
    intro v hv
    unfold kill
    rw [hv]
  refine ⟨l, e, fun v => ⟨?_, fun x hx => ?_, hnone v, fun hc => ?_⟩⟩
  · rw [(kill_spec w v).2 v, if_pos rfl]
  · rw [(kill_spec w v).2 x, if_neg hx]
  · exact hnone v (afterCalls_unobserved calls e rfl hc)

/-- C27: after every sequence of calls of `reset`, `setLive` and `kill` on the
tracker of a new pass, `getLiveValues` on an empty output sequence gives a
sequence without duplicates that holds a value exactly when `isLive` answers
true for it. -/
theorem getLiveValues_exact (calls : List Call) :
    ∃ l, afterCalls calls empty = some l ∧ l.getLiveValues.Nodup ∧
      ∀ v, v ∈ l.getLiveValues ↔ l.isLive v = true := by
  obtain ⟨l, e, w⟩ := afterCalls_wf calls empty_wf
  exact ⟨l, e, getLiveValues_nodup w, fun v => LivenessAnalysis.mem_getLiveValues w v⟩

end LivenessAnalysis

namespace LivenessAnalysis

/-- Witness of C25: `setLive(3)` after `setLive(1)`, `kill(1)`, `setLive(2)`. -/
theorem setLive_postcondition_witness :
    ∃ l, afterCalls [Call.setLive 1, Call.kill 1, Call.setLive 2] empty = some l ∧
      ∀ v, ∃ l2, l.setLive v = some l2 ∧ l2.isLive v = true ∧
        ∀ w, w ≠ v → l2.isLive w = l.isLive w :=
  setLive_postcondition [Call.setLive 1, Call.kill 1, Call.setLive 2]

/-- Witness of C26: after `setLive(1)`, `setLive(2)` the value 3 has no index. -/
theorem kill_postcondition_witness :
    (∀ c ∈ [Call.setLive 1, Call.setLive 2], c ≠ Call.setLive 3) ∧
    ∃ l, afterCalls [Call.setLive 1, Call.setLive 2] empty = some l ∧
      ∀ v, (l.kill v).isLive v = false ∧
        (∀ w, w ≠ v → (l.kill v).isLive w = l.isLive w) ∧
        (l.m_valueToIdx.lookup v = none → l.kill v = l) ∧
        ((∀ c ∈ [Call.setLive 1, Call.setLive 2], c ≠ Call.setLive v) → l.kill v = l) :=
  ⟨by decide, kill_postcondition [Call.setLive 1, Call.setLive 2]⟩

end LivenessAnalysis

/-! ## Arity check, liveness at the decision, gating -/

namespace MemoryAssignment

/-- C28 (counterexample): the operation `(v1, v2) = relu v0` of `multiDefBlock` is
in the in-place table, is not a concat and has two results; with the master and
elementwise switches on, its reuse attempt on the state of a new pass fails the
check of line 368, and so does `run` on the region. -/
theorem multi_result_not_silent :
    multiDefBlock.ops[1]? = some (plainOp "ng.relu" [0] [1, 2]) ∧
    (init exampleTable).isSafeInPlace (plainOp "ng.relu" [0] [1, 2]) = true ∧
    dispatch eltwiseOnly multiDefBlock (init exampleTable) 1 (plainOp "ng.relu" [0] [1, 2])
      = none ∧
    run eltwiseOnly [[multiDefBlock]] (init exampleTable) = none := by
  decide

/-- C28 (amended): for an operation of the in-place table that is not a concat and
does not have exactly one result, with the elementwise switch on, the reuse
attempt fails the check at the head of `processDestructiveInPlace` in every state
with that table, and with the master switch on `run` fails on every region that
holds such an operation.  The silent returns of `processDestructiveInPlace` are
those of an operation with one result: when the result is an input or output
value the state is given back as it is. -/
theorem inplace_arity_check (sw : Switches) (blk : Block) (tbl : List (String × Bool))
    (q : Nat) (op : Operation) (hsafe : tbl.lookup op.name = some true)
    (hnc : op.isConcat = false) (helt : sw.clEnableNgInPlaceEltWise = true)
    (hlen : op.results.length ≠ 1) :
    (∀ s : MemoryAssignment, s.m_inplaceOps = tbl →
      processDestructiveInPlace blk s q op = none ∧ dispatch sw blk s q op = none ∧
      visit sw blk s q op = none) ∧
    (sw.clEnableNgInPlaceMemory = true → blk.ops[q]? = some op →
      run sw [[blk]] (init tbl) = none) ∧
    (∀ (s : MemoryAssignment) (i : Nat) (op2 : Operation) (result : Value),
      op2.results = [result] → blk.isInputOrOutputValue result = true →
      processDestructiveInPlace blk s i op2 = some s) := by
  have hfail : ∀ s : MemoryAssignment, s.m_inplaceOps = tbl →
      processDestructiveInPlace blk s q op = none ∧ dispatch sw blk s q op = none ∧
      visit sw blk s q op = none := by
    intro s hs
    have h1 : processDestructiveInPlace blk s q op = none := by
      unfold processDestructiveInPlace
      split
      · rename_i result hr
        rw [hr] at hlen
        exact absurd rfl hlen
      · rfl
    have h2 : dispatch sw blk s q op = none := by
      rw [dispatch_eltwise ((isSafeInPlace_iff s op).mpr (hs ▸ hsafe)) hnc helt]
      exact h1
    refine ⟨h1, h2, ?_⟩
    unfold visit
    rw [h2]
  refine ⟨hfail, fun hm hop => ?_, fun s i op2 result hr hio => ?_⟩
  · rw [run_single_block sw blk (init tbl) hm]
    cases hrun : sweepFrom sw blk 0 (init tbl) with
    | none => rfl
    | some s =>
        exfalso
        obtain ⟨t2, ht2⟩ := sweepFrom_some_of_zero sw blk (init tbl) hrun q
        rw [sweepFrom_step sw blk hop] at ht2
        cases hs : sweepFrom sw blk (q + 1) (init tbl) with
        | none => rw [hs] at ht2; cases ht2
        | some t =>
            rw [hs] at ht2
            have htab := sweepFrom_table_of_some sw blk (init tbl) (q + 1) t hs
            have hv : visit sw blk t q op = none := (hfail t htab).2.2
            change visit sw blk t q op = some t2 at ht2
            rw [hv] at ht2
            cases ht2
  · unfold processDestructiveInPlace
    rw [hr]
    simp only [hio, if_true]

/-- Witness of C28: the operation with two results of `multiDefBlock`. -/
theorem inplace_arity_check_witness :
    exampleTable.lookup (plainOp "ng.relu" [0] [1, 2]).name = some true ∧
    (plainOp "ng.relu" [0] [1, 2]).results.length ≠ 1 ∧
    ((∀ s : MemoryAssignment, s.m_inplaceOps = exampleTable →
      processDestructiveInPlace multiDefBlock s 1 (plainOp "ng.relu" [0] [1, 2]) = none ∧
      dispatch eltwiseOnly multiDefBlock s 1 (plainOp "ng.relu" [0] [1, 2]) = none ∧
      visit eltwiseOnly multiDefBlock s 1 (plainOp "ng.relu" [0] [1, 2]) = none) ∧
    (eltwiseOnly.clEnableNgInPlaceMemory = true →
      multiDefBlock.ops[1]? = some (plainOp "ng.relu" [0] [1, 2]) →
      run eltwiseOnly [[multiDefBlock]] (init exampleTable) = none) ∧
    (∀ (s : MemoryAssignment) (i : Nat) (op2 : Operation) (result : Value),
      op2.results = [result] → multiDefBlock.isInputOrOutputValue result = true →
      processDestructiveInPlace multiDefBlock s i op2 = some s)) :=
  ⟨by decide, by decide,
    inplace_arity_check eltwiseOnly multiDefBlock exampleTable 1 (plainOp "ng.relu" [0] [1, 2])
      (by decide) rfl rfl (by decide)⟩

/-- C29: in a well-formed region, for the operation `op` at position `p`: in the
state in which `run` makes the reuse attempt for `op`, `isLive(v)` is true exactly
when `v` is an operand of an operation after position `p` and not a result of an
operation after position `p`; after the round of `op` every operand of `op` is
live and every result of `op` is dead.  When every operation of the in-place table
has one result, the loop does reach `op` and completes its round. -/
theorem liveness_at_decision (sw : Switches) (blk : Block) (tbl : List (String × Bool))
    (hwf : blk.WellFormed) (p : Nat) (op : Operation) (hop : blk.ops[p]? = some op) :
    (∀ s, sweepFrom sw blk (p + 1) (init tbl) = some s →
      (∀ v, s.m_liveness.isLive v = true ↔
        (blk.usedFrom (p + 1) v = true ∧ blk.definedFrom (p + 1) v = false)) ∧
      ∀ s2, visit sw blk s p op = some s2 →
        (∀ v ∈ op.operands, s2.m_liveness.isLive v = true) ∧
        (∀ v ∈ op.results, s2.m_liveness.isLive v = false)) ∧
    (blk.ResultsChecked tbl →
      ∃ s s2, sweepFrom sw blk (p + 1) (init tbl) = some s ∧ visit sw blk s p op = some s2) := by
  constructor
  · intro s hs
    obtain ⟨w1, -, l1⟩ := sweepFrom_scan_of_some sw blk tbl hwf (p + 1) s hs
    refine ⟨fun v => ?_, fun s2 hv => ?_⟩
    · rw [l1 v]
      unfold Block.scanLive
      simp
    · obtain ⟨-, -, l2⟩ := visit_live w1 hv
      refine ⟨fun v hvo => ?_, fun v hvr => ?_⟩
      · rw [l2 v, if_pos hvo]
      · have hno : v ∉ op.operands := by
          intro hvo
          exact Nat.lt_irrefl p (hwf.def_before_use p p op op v hop hop hvr hvo)
        rw [l2 v, if_neg hno, if_pos hvr]
  · intro hres
    obtain ⟨s, hs, hinv, -⟩ := sweepFrom_live sw blk tbl hwf hres (init tbl) (init_inv tbl)
      (fun _ => rfl) (p + 1)
    obtain ⟨-, s2, -, e2, -⟩ := visit_spec sw blk hinv p op (hres op (getElem?_mem_ops hop))
    exact ⟨s, s2, hs, e2⟩

/-- Witness of C29: the operation `v3 = add v0 v1` of `pickBlock`, every switch
on. -/
theorem liveness_at_decision_witness :
    pickBlock.WellFormed ∧ pickBlock.ops[3]? = some (plainOp "ng.add" [0, 1] [3]) ∧
    pickBlock.ResultsChecked exampleTable ∧
    (∃ s, sweepFrom allOn pickBlock (3 + 1) (init exampleTable) = some s ∧
      (∀ v, s.m_liveness.isLive v = true ↔
        (pickBlock.usedFrom (3 + 1) v = true ∧ pickBlock.definedFrom (3 + 1) v = false)) ∧
      ∃ s2, visit allOn pickBlock s 3 (plainOp "ng.add" [0, 1] [3]) = some s2 ∧
        (∀ v ∈ (plainOp "ng.add" [0, 1] [3]).operands, s2.m_liveness.isLive v = true) ∧
        (∀ v ∈ (plainOp "ng.add" [0, 1] [3]).results, s2.m_liveness.isLive v = false)) :=
  have hwf : pickBlock.WellFormed := Block.wellFormed_of_check (by decide)
  have hres : pickBlock.ResultsChecked exampleTable := by unfold Block.ResultsChecked; decide
  have hall := liveness_at_decision allOn pickBlock exampleTable hwf 3
    (plainOp "ng.add" [0, 1] [3]) rfl
  ⟨hwf, rfl, hres,
    match hall.2 hres with
    | ⟨s, s2, hs, hv⟩ => ⟨s, hs, (hall.1 s hs).1, s2, hv, (hall.1 s hs).2 s2 hv⟩⟩

/-- C30: when the name of the operation is absent from the table or mapped to
false, or the operation is a concat and the concat switch is off, or it is not a
concat and the elementwise switch is off, the reuse attempt gives the state back
as it is, and the round of `run` only kills the results and marks the operands
live: map, counter and alias relation are unchanged.  With both reuse switches
off, `run` on a module with a function leaves the map of a new pass empty, the
counter 0 and the alias relation empty. -/
theorem switch_gating (sw : Switches) (blk : Block) (s : MemoryAssignment) (i : Nat)
    (op : Operation)
    (h : s.m_inplaceOps.lookup op.name = none ∨ s.m_inplaceOps.lookup op.name = some false ∨
      (op.isConcat = true ∧ sw.clEnableNgInPlaceConcat = false) ∨
      (op.isConcat = false ∧ sw.clEnableNgInPlaceEltWise = false)) :
    dispatch sw blk s i op = some s ∧
    visit sw blk s i op =
      ((s.m_liveness.killAll op.results).setLiveAll op.operands).map
        (fun live => { s with m_liveness := live }) ∧
    (∀ s2, visit sw blk s i op = some s2 →
      s2.m_memAnalysis = s.m_memAnalysis ∧ s2.m_bufferId = s.m_bufferId ∧
      s2.m_aliasRelation = s.m_aliasRelation) ∧
    (∀ (master : Bool) (module : ModuleOp) (tbl : List (String × Bool)),
      (module ≠ [] →
        ∃ s2, run (Switches.mk master false false) module (init tbl) = some s2 ∧
          s2.m_memAnalysis = [] ∧ s2.m_bufferId = 0 ∧
          s2.m_aliasRelation = AliasRelation.empty) ∧
      ∀ s2, run (Switches.mk master false false) module (init tbl) = some s2 →
        s2.m_memAnalysis = [] ∧ s2.m_bufferId = 0 ∧
        s2.m_aliasRelation = AliasRelation.empty) := by
  have hd : dispatch sw blk s i op = some s := dispatch_gated h
  have hv : visit sw blk s i op =
      ((s.m_liveness.killAll op.results).setLiveAll op.operands).map
        (fun live => { s with m_liveness := live }) := by
    unfold visit
    rw [hd]
    simp only []
    cases (s.m_liveness.killAll op.results).setLiveAll op.operands <;> rfl
  have hrun : ∀ (master : Bool) (module : ModuleOp) (tbl : List (String × Bool)), module ≠ [] →
      ∃ s2, run (Switches.mk master false false) module (init tbl) = some s2 ∧
        s2.m_memAnalysis = [] ∧ s2.m_bufferId = 0 ∧
        s2.m_aliasRelation = AliasRelation.empty := by
    intro master module tbl hne
    have hsame : ∃ s2, some (init tbl) = some s2 ∧ s2.m_memAnalysis = [] ∧ s2.m_bufferId = 0 ∧
        s2.m_aliasRelation = AliasRelation.empty := ⟨init tbl, rfl, rfl, rfl, rfl⟩
    cases master with
    | false => exact hsame
    | true =>
        unfold run
        simp only [Bool.not_true, Bool.false_eq_true, if_false]
        split
        · exact hsame
        · cases hlast : module.getLast? with
          | none => exact absurd (List.getLast?_eq_none_iff.mp hlast) hne
          | some f =>
              simp only []
              match f with
              | [] => exact hsame
              | [b] =>
                  obtain ⟨s2, e, -, m, c, a, -⟩ := sweepFrom_gated (Switches.mk true false false) b
                    (init tbl) rfl rfl LivenessAnalysis.empty_wf 0
                  exact ⟨s2, e, m, c, a⟩
              | _ :: _ :: _ => exact hsame
  refine ⟨hd, hv, fun s2 hs2 => ?_, fun master module tbl => ⟨hrun master module tbl, ?_⟩⟩
  · rw [hv] at hs2
    cases hl : (s.m_liveness.killAll op.results).setLiveAll op.operands with
    | none => rw [hl] at hs2; cases hs2
    | some live =>
        rw [hl] at hs2
        rw [← Option.some.inj hs2]
        exact ⟨rfl, rfl, rfl⟩
  · intro s2 hs2
    by_cases hne : module = []
    · subst hne
      cases master with
      | false =>
          rw [← Option.some.inj hs2]
          exact ⟨rfl, rfl, rfl⟩
      | true => cases hs2
    · obtain ⟨s3, e3, r3⟩ := hrun master module tbl hne
      rw [hs2] at e3
      rw [Option.some.inj e3]
      exact r3

/-- Witness of C30: the return of `chainBlock`, whose name is not in the table. -/
theorem switch_gating_witness :
    (init exampleTable).m_inplaceOps.lookup (returnOp [3]).name = none ∧
    dispatch allOn chainBlock (init exampleTable) 4 (returnOp [3]) = some (init exampleTable) ∧
    visit allOn chainBlock (init exampleTable) 4 (returnOp [3]) =
      (((init exampleTable).m_liveness.killAll (returnOp [3]).results).setLiveAll
        (returnOp [3]).operands).map
        (fun live => { init exampleTable with m_liveness := live }) ∧
    ∃ s2, run (Switches.mk true false false) [[chainBlock]] (init exampleTable) = some s2 ∧
      s2.m_memAnalysis = [] ∧ s2.m_bufferId = 0 ∧ s2.m_aliasRelation = AliasRelation.empty :=
  have hall := switch_gating allOn chainBlock (init exampleTable) 4 (returnOp [3])
    (Or.inl (by decide))
  ⟨by decide, hall.1, hall.2.1,
    (hall.2.2.2 true [[chainBlock]] exampleTable).1 (List.cons_ne_nil _ _)⟩

end MemoryAssignment


/-! ## The comparison operators of the output handle -/

namespace Output

/-- C39 (evaluation of the code): for the handles `a = (n, 1)` and `b = (n, 0)` of
one node, `a <= b` is true although neither `a < b` nor `a == b` is, and
`b >= a` is true although neither `b > a` nor `b == a` is.  For all handles,
`<=` and `>=` compare the node addresses only; `<` and `>` are the lexicographic
order and its converse, `==` is equality and `!=` its negation. -/
theorem le_ge_ignore_index :
    (∀ n : Nat, le ⟨n, 1⟩ ⟨n, 0⟩ = true ∧ lt ⟨n, 1⟩ ⟨n, 0⟩ = false ∧ eq ⟨n, 1⟩ ⟨n, 0⟩ = false ∧
      ge ⟨n, 0⟩ ⟨n, 1⟩ = true ∧ gt ⟨n, 0⟩ ⟨n, 1⟩ = false ∧ eq ⟨n, 0⟩ ⟨n, 1⟩ = false) ∧
    (∀ a b : Output, le a b = decide (a.m_node ≤ b.m_node) ∧
      ge a b = decide (a.m_node ≥ b.m_node)) ∧
    (∀ a b : Output, (lt a b = true ↔ lexLt a b) ∧ (gt a b = true ↔ lexLt b a) ∧
      (eq a b = true ↔ a = b) ∧ ne a b = !eq a b) := by
  refine ⟨fun n => ?_, fun a b => ⟨?_, ?_⟩, fun a b => ⟨?_, ?_, ?_, ?_⟩⟩
  · simp [le, lt, eq, ge, gt]
  · unfold le
    by_cases h : a.m_node ≤ b.m_node
    · simp [h]
    · have hne : a.m_node ≠ b.m_node := by omega
      simp [h, hne]
  · unfold ge
    by_cases h : a.m_node ≥ b.m_node
    · simp [h]
    · have hne : a.m_node ≠ b.m_node := by omega
      simp [h, hne]
  · unfold lt lexLt
    simp
  · unfold gt lexLt
    simp only [gt_iff_lt, Bool.or_eq_true, decide_eq_true_eq, Bool.and_eq_true, beq_iff_eq]
    constructor
    · rintro (h | ⟨h1, h2⟩)
      · exact Or.inl h
      · exact Or.inr ⟨h1.symm, h2⟩
    · rintro (h | ⟨h1, h2⟩)
      · exact Or.inl h
      · exact Or.inr ⟨h1.symm, h2⟩
  · unfold eq
    cases a
    cases b
    simp
  · unfold ne eq
    cases h1 : a.m_node == b.m_node <;> cases h2 : a.m_index == b.m_index <;> simp [bne, h1, h2]

end Output

/-! ## Abandoned reuse, selection, defining operations -/

namespace MemoryAssignment

/-- C31: for an operation with the single result `result`: if `result` is an
input or output value, or every operand is live or an input or output value,
`processDestructiveInPlace` gives the state back as it is (map, counter and alias
relation included); if `result` is not an input or output value and some operand
is dead and not an input or output value, the call carries out the assignment of
lines 400-423 for such an operand `u`: the operation and the defining operation
of `u` carry the same `BufferInfo` afterwards. -/
theorem inplace_abandon (blk : Block) (s : MemoryAssignment) (op : Nat)
    (operation : Operation) (result : Value) (hres : operation.results = [result]) :
    ((blk.isInputOrOutputValue result = true ∨
        ∀ opnd ∈ operation.operands,
          s.m_liveness.isLive opnd = true ∨ blk.isInputOrOutputValue opnd = true) →
      processDestructiveInPlace blk s op operation = some s) ∧
    ((blk.isInputOrOutputValue result = false ∧
        ∃ opnd ∈ operation.operands,
          s.m_liveness.isLive opnd = false ∧ blk.isInputOrOutputValue opnd = false) →
      ∃ u d s2, u ∈ operation.operands ∧ s.m_liveness.isLive u = false ∧
        blk.isInputOrOutputValue u = false ∧ blk.getDefiningOp u = some d ∧
        processDestructiveInPlace blk s op operation = some s2 ∧
        s2 = noAliasLive (assignInPlace blk s op u) u ∧
        s2.m_memAnalysis.getBufferInfo op = s2.m_memAnalysis.getBufferInfo d ∧
        ((s.m_memAnalysis.getBufferInfo op).isValid = false →
          s2.m_memAnalysis.getBufferInfo op = { m_bufferId := s.m_bufferId, m_offset := 0 } ∧
          s2.m_bufferId = s.m_bufferId + 1) ∧
        ((s.m_memAnalysis.getBufferInfo op).isValid = true →
          s2.m_memAnalysis.getBufferInfo op = s.m_memAnalysis.getBufferInfo op ∧
          s2.m_bufferId = s.m_bufferId)) := by
  constructor
  · intro h
    unfold processDestructiveInPlace
    rw [hres]
    simp only []
    rcases h with h | h
    · rw [if_pos h]
    · have hnone : (selectLoop blk s.m_liveness operation.operands).1 = none := by
        rw [selectLoop_eq, getLast?_filter_none]
        intro w hw
        rcases h w hw with h1 | h1
        · simp [h1]
        · simp [h1]
      rw [hnone]
      split <;> rfl
  · rintro ⟨hnb, opnd, hmem, hdead, hopnd⟩
    have hsome : ∃ u, (selectLoop blk s.m_liveness operation.operands).1 = some u := by
      cases hsel : (selectLoop blk s.m_liveness operation.operands).1 with
      | some u => exact ⟨u, rfl⟩
      | none =>
          rw [selectLoop_eq, getLast?_filter_none] at hsel
          have := hsel opnd hmem
          simp [hdead, hopnd] at this
    obtain ⟨u, hsel⟩ := hsome
    obtain ⟨hu, hud, hunb⟩ := selectLoop_some hsel
    obtain ⟨d, hd⟩ := isInputOrOutputValue_false_def hunb
    obtain ⟨e1, e2, e3, -⟩ := assignInPlace_spec blk s op u d hd
    exact ⟨u, d, _, hu, hud, hunb, hd, processDestructiveInPlace_accepted hres hnb hsel, rfl,
      e1, e3, e2⟩

/-- Witness of C31: `v3 = add v0 v1` of `pickBlock` in the state of a new pass,
in which both operands are dead. -/
theorem inplace_abandon_witness :
    (plainOp "ng.add" [0, 1] [3]).results = [3] ∧
    pickBlock.isInputOrOutputValue 3 = false ∧
    (∃ opnd ∈ (plainOp "ng.add" [0, 1] [3]).operands,
      (init exampleTable).m_liveness.isLive opnd = false ∧
      pickBlock.isInputOrOutputValue opnd = false) ∧
    ∃ u d s2, u ∈ (plainOp "ng.add" [0, 1] [3]).operands ∧
      (init exampleTable).m_liveness.isLive u = false ∧
      pickBlock.isInputOrOutputValue u = false ∧ pickBlock.getDefiningOp u = some d ∧
      processDestructiveInPlace pickBlock (init exampleTable) 3 (plainOp "ng.add" [0, 1] [3])
        = some s2 ∧
      s2 = noAliasLive (assignInPlace pickBlock (init exampleTable) 3 u) u ∧
      s2.m_memAnalysis.getBufferInfo 3 = s2.m_memAnalysis.getBufferInfo d ∧
      (((init exampleTable).m_memAnalysis.getBufferInfo 3).isValid = false →
        s2.m_memAnalysis.getBufferInfo 3
          = { m_bufferId := (init exampleTable).m_bufferId, m_offset := 0 } ∧
        s2.m_bufferId = (init exampleTable).m_bufferId + 1) ∧
      (((init exampleTable).m_memAnalysis.getBufferInfo 3).isValid = true →
        s2.m_memAnalysis.getBufferInfo 3 = (init exampleTable).m_memAnalysis.getBufferInfo 3 ∧
        s2.m_bufferId = (init exampleTable).m_bufferId) :=
  ⟨rfl, by decide, ⟨0, by decide, by decide, by decide⟩,
    (inplace_abandon pickBlock (init exampleTable) 3 (plainOp "ng.add" [0, 1] [3]) 3 rfl).2
      ⟨by decide, 0, by decide, by decide, by decide⟩⟩

/-- C33: the loop of lines 380-394 leaves `useCount` at `-1`; it selects no
operand exactly when every operand is live or an input or output value, and it
selects `u` exactly when `u` stands at a position of the operand list where it is
dead and not an input or output value and no later operand is; the selection is
the same in every region that has the same input and output values, whatever
the numbers of uses. -/
theorem selected_operand_is_last (blk : Block) (live : LivenessAnalysis)
    (operands : List Value) :
    (selectLoop blk live operands).2 = -1 ∧
    ((selectLoop blk live operands).1 = none ↔
      ∀ w ∈ operands, live.isLive w = true ∨ blk.isInputOrOutputValue w = true) ∧
    (∀ u, (selectLoop blk live operands).1 = some u ↔
      ∃ pre post, operands = pre ++ u :: post ∧
        (live.isLive u = false ∧ blk.isInputOrOutputValue u = false) ∧
        ∀ w ∈ post, live.isLive w = true ∨ blk.isInputOrOutputValue w = true) ∧
    (∀ blk2 : Block, (∀ v, blk2.isInputOrOutputValue v = blk.isInputOrOutputValue v) →
      (selectLoop blk2 live operands).1 = (selectLoop blk live operands).1) := by
  have hp : ∀ w, (!live.isLive w && !blk.isInputOrOutputValue w) = false ↔
      (live.isLive w = true ∨ blk.isInputOrOutputValue w = true) := by
    intro w
    cases live.isLive w <;> cases blk.isInputOrOutputValue w <;> simp
  have hq : ∀ w, (!live.isLive w && !blk.isInputOrOutputValue w) = true ↔
      (live.isLive w = false ∧ blk.isInputOrOutputValue w = false) := by
    intro w
    cases live.isLive w <;> cases blk.isInputOrOutputValue w <;> simp
  refine ⟨?_, ?_, fun u => ?_, fun blk2 hsame => ?_⟩
  · unfold selectLoop
    have := lastCandidate_fold (fun opnd => !live.isLive opnd && !blk.isInputOrOutputValue opnd)
      blk.countUses operands none
    simp only [] at this ⊢
    rw [this]
  · rw [selectLoop_eq, getLast?_filter_none]
    exact forall_congr' fun w => imp_congr_right fun _ => hp w
  · rw [selectLoop_eq, getLast?_filter_some]
    constructor
    · rintro ⟨pre, post, e, h1, h2⟩
      exact ⟨pre, post, e, (hq u).mp h1, fun w hw => (hp w).mp (h2 w hw)⟩
    · rintro ⟨pre, post, e, h1, h2⟩
      exact ⟨pre, post, e, (hq u).mpr h1, fun w hw => (hp w).mpr (h2 w hw)⟩
  · rw [selectLoop_eq, selectLoop_eq]
    congr 2
    funext w
    rw [hsame w]

/-- Witness of C33: the operands `[v0, v1]` of the `add` of `pickBlock` in the
tracker of a new pass; `v1` is selected although `v0` has fewer uses. -/
theorem selected_operand_is_last_witness :
    (selectLoop pickBlock LivenessAnalysis.empty [0, 1]).1 = some 1 ∧
    pickBlock.countUses 0 < pickBlock.countUses 1 ∧
    ∃ pre post, [0, 1] = pre ++ (1 : Value) :: post ∧
      (LivenessAnalysis.empty.isLive 1 = false ∧ pickBlock.isInputOrOutputValue 1 = false) ∧
      ∀ w ∈ post, LivenessAnalysis.empty.isLive w = true ∨
        pickBlock.isInputOrOutputValue w = true :=
  ⟨by decide, by decide,
    ((selected_operand_is_last pickBlock LivenessAnalysis.empty [0, 1]).2.2.1 1).mp (by decide)⟩

/-- C36: once the operand loop of `processConcat` has passed (lines 245-251),
every operand has a defining operation, and neither the loop of lines 283-301 nor
the commit loop of lines 356-362 fails its check `defOp != nullptr`; the operand
selected by `processDestructiveInPlace` has a defining operation; so with the
closure flag clear `processConcat` comes back for every concat with a result, and
`processDestructiveInPlace` for every operation with one result. -/
theorem defining_operation_present (blk : Block) (s : MemoryAssignment) (op : Nat)
    (operation : Operation) :
    (∀ result, aliasLoop blk s.m_aliasRelation result operation.operands = some true →
      (∀ opnd ∈ operation.operands, ∃ d, blk.getDefiningOp opnd = some d) ∧
      (∀ (m : MemoryAnalysis) (offs : List Int) (b o : Int),
        matchLoop blk m operation.operands offs b o (List.range operation.operands.length)
          ≠ none ∧
        commitLoop blk operation.operands offs b o (List.range operation.operands.length) m
          ≠ none)) ∧
    (∀ u, (selectLoop blk s.m_liveness operation.operands).1 = some u →
      ∃ d, blk.getDefiningOp u = some d) ∧
    (s.m_aliasRelation.m_needsTransitiveClosure = false → operation.results ≠ [] →
      ∃ s2, processConcat blk s op operation = some s2) ∧
    (operation.results.length = 1 →
      ∃ s2, processDestructiveInPlace blk s op operation = some s2) := by
  refine ⟨fun result ha => ⟨fun opnd hm => ?_, fun m offs b o => ⟨?_, ?_⟩⟩, fun u hsel => ?_,
    fun hf hres => ?_, fun hlen => ?_⟩
  · exact isInputOrOutputValue_false_def (aliasLoop_true ha opnd hm).2
  · exact matchLoop_ne_none blk m operation.operands offs b o (operandsDefined_of_aliasLoop ha)
      _ (fun i hi => List.mem_range.mp hi)
  · obtain ⟨m2, e, -⟩ := commitLoop_spec blk operation.operands offs b o
      (operandsDefined_of_aliasLoop ha) _ (fun i hi => List.mem_range.mp hi)
      (List.nodup_range _) m
    rw [e]
    exact Option.some_ne_none m2
  · exact isInputOrOutputValue_false_def (selectLoop_some hsel).2.2
  · obtain ⟨s2, e, -⟩ := processConcat_total blk s op operation hf hres
    exact ⟨s2, e⟩
  · obtain ⟨result, hr⟩ := List.length_eq_one.mp hlen
    unfold processDestructiveInPlace
    rw [hr]
    simp only []
    split
    · exact ⟨s, rfl⟩
    · split
      · exact ⟨s, rfl⟩
      · exact ⟨_, rfl⟩

/-- Witness of C36: the concat of `concatBlock` in the state of a new pass. -/
theorem defining_operation_present_witness :
    aliasLoop concatBlock (init exampleTable).m_aliasRelation 3
      (concatOp 1 [0, 1, 2] 3).operands = some true ∧
    (∀ opnd ∈ (concatOp 1 [0, 1, 2] 3).operands, ∃ d, concatBlock.getDefiningOp opnd = some d) ∧
    ∃ s2, processConcat concatBlock (init exampleTable) 3 (concatOp 1 [0, 1, 2] 3) = some s2 :=
  have hall := defining_operation_present concatBlock (init exampleTable) 3
    (concatOp 1 [0, 1, 2] 3)
  ⟨by decide, (hall.1 3 (by decide)).1, hall.2.2.1 rfl (by decide)⟩

end MemoryAssignment

/-! ## The alias relation as connectivity -/

namespace AliasRelation

/-- C32: after any sequence of `insertNoAlias` calls, for two values that have
each been an argument of some call (of the same call or not, the two values equal
or not), `canAlias` answers false. -/
theorem known_pairs_cannot_alias (calls : List (Value × Value)) (a b : Value)
    (ha : Seen calls a) (hb : Seen calls b) :
    (afterInserts calls).canAlias a b = some false := by
  have hex := afterInserts_exact calls
  obtain ⟨ai, hai⟩ := (hex.known a).mpr ha
  obtain ⟨bi, hbi⟩ := (hex.known b).mpr hb
  exact canAlias_of_known hex.closed.wf.symmetric hex.closed.flag hai hbi

/-- Witness of C32: after `insertNoAlias(1, 2)` and `insertNoAlias(3, 4)` the
values 1 and 3 are not connected, and `canAlias(1, 3)` is false. -/
theorem known_pairs_cannot_alias_witness :
    Seen [(1, 2), (3, 4)] 1 ∧ Seen [(1, 2), (3, 4)] 3 ∧ ¬ Connected [(1, 2), (3, 4)] 1 3 ∧
    (afterInserts [(1, 2), (3, 4)]).canAlias 1 3 = some false :=
  ⟨⟨(1, 2), by decide, Or.inl rfl⟩, ⟨(3, 4), by decide, Or.inl rfl⟩,
    fun hc => absurd (((afterInserts_exact [(1, 2), (3, 4)]).entry_iff
      (by decide : (afterInserts [(1, 2), (3, 4)]).m_valueToIdx.lookup 1 = some 0)
      (by decide : (afterInserts [(1, 2), (3, 4)]).m_valueToIdx.lookup 3 = some 2)).mpr hc)
      (by decide),
    known_pairs_cannot_alias [(1, 2), (3, 4)] 1 3 ⟨(1, 2), by decide, Or.inl rfl⟩
      ⟨(3, 4), by decide, Or.inl rfl⟩⟩

/-- C34: after any sequence of `insertNoAlias` calls, for all values `a` and `b`
with an index the entry `m_reachability[idx a][idx b]` is 1 exactly when `a` and
`b` lie in the same connected component of the undirected graph of the inserted
pairs; every diagonal entry of a known value is 1, the matrix is symmetric and
transitive, and every nonzero entry stands at the indices of two connected
values. -/
theorem closure_exact (calls : List (Value × Value)) :
    (∀ a b ai bi, (afterInserts calls).m_valueToIdx.lookup a = some ai →
      (afterInserts calls).m_valueToIdx.lookup b = some bi →
      ((afterInserts calls).m_reachability.at ai bi = 1 ↔ Connected calls a b)) ∧
    (∀ a ai, (afterInserts calls).m_valueToIdx.lookup a = some ai →
      (afterInserts calls).m_reachability.at ai ai = 1) ∧
    (afterInserts calls).m_reachability.Symmetric ∧
    (afterInserts calls).m_reachability.Transitive ∧
    (∀ i j, (afterInserts calls).m_reachability.at i j ≠ 0 →
      ∃ a b, (afterInserts calls).m_valueToIdx.lookup a = some i ∧
        (afterInserts calls).m_valueToIdx.lookup b = some j ∧ Connected calls a b) := by
  have hex := afterInserts_exact calls
  refine ⟨fun a b ai bi ha hb => hex.entry_iff ha hb, fun a ai ha => ?_,
    hex.closed.wf.symmetric, hex.closed.transitive, fun i j hij => ?_⟩
  · rcases hex.closed.wf.binary ai ai with h0 | h1
    · exact absurd h0 (hex.diag a ai ha)
    · exact h1
  · obtain ⟨hi, hj⟩ := at_ne_zero_lt hex.closed.wf.square hij
    obtain ⟨a, ha⟩ := hex.index.onto i hi
    obtain ⟨b, hb⟩ := hex.index.onto j hj
    exact ⟨a, b, ha, hb, hex.sound a b i j ha hb hij⟩

/-- Witness of C34: after `insertNoAlias(1, 2)`, `insertNoAlias(3, 4)` and
`insertNoAlias(2, 3)` the values 1 and 4 are connected and their entry is 1. -/
theorem closure_exact_witness :
    (afterInserts [(1, 2), (3, 4), (2, 3)]).m_valueToIdx.lookup 1 = some 0 ∧
    (afterInserts [(1, 2), (3, 4), (2, 3)]).m_valueToIdx.lookup 4 = some 3 ∧
    (afterInserts [(1, 2), (3, 4), (2, 3)]).m_reachability.at 0 3 = 1 ∧
    Connected [(1, 2), (3, 4), (2, 3)] 1 4 :=
  ⟨by decide, by decide, by decide,
    ((closure_exact [(1, 2), (3, 4), (2, 3)]).1 1 4 0 3 (by decide) (by decide)).mp (by decide)⟩

/-- C35: for the relation after any sequence of `insertNoAlias` calls and a
further call `insertNoAlias(a, b)`: afterwards the index map gives an index to
exactly the values that have been an argument, distinct values have distinct
indices, the indices are those below `m_maxIdx`, the matrix has `m_maxIdx` rows of
`m_maxIdx` entries, and `m_maxIdx` has grown by the number of values among `a` and
`b` without index before the call, which is at most 2 and is 1 for a new `a = b`;
`checkInvariance` passes. -/
theorem matrix_shape_invariant (calls : List (Value × Value)) (a b : Value) :
    (∀ v, (∃ i, ((afterInserts calls).insertNoAlias a b).m_valueToIdx.lookup v = some i) ↔
      Seen (calls ++ [(a, b)]) v) ∧
    (∀ v w i, ((afterInserts calls).insertNoAlias a b).m_valueToIdx.lookup v = some i →
      ((afterInserts calls).insertNoAlias a b).m_valueToIdx.lookup w = some i → v = w) ∧
    (∀ v i, ((afterInserts calls).insertNoAlias a b).m_valueToIdx.lookup v = some i →
      i < ((afterInserts calls).insertNoAlias a b).m_maxIdx) ∧
    (∀ i, i < ((afterInserts calls).insertNoAlias a b).m_maxIdx →
      ∃ v, ((afterInserts calls).insertNoAlias a b).m_valueToIdx.lookup v = some i) ∧
    ((afterInserts calls).insertNoAlias a b).m_reachability.length
      = ((afterInserts calls).insertNoAlias a b).m_maxIdx ∧
    (∀ row ∈ ((afterInserts calls).insertNoAlias a b).m_reachability,
      row.length = ((afterInserts calls).insertNoAlias a b).m_maxIdx) ∧
    ((afterInserts calls).insertNoAlias a b).m_maxIdx
      = (afterInserts calls).m_maxIdx + (afterInserts calls).unseenCount a b ∧
    (afterInserts calls).unseenCount a b ≤ 2 ∧
    (a = b → (afterInserts calls).m_valueToIdx.lookup a = none →
      (afterInserts calls).unseenCount a b = 1) ∧
    ((afterInserts calls).insertNoAlias a b).checkInvariance = true := by
  have hex := afterInserts_exact calls
  have hex2 := exact_insert hex a b
  obtain ⟨-, hgrow, -⟩ := insertNoAlias_index hex.index a b
  refine ⟨hex2.known, hex2.index.inj, hex2.index.idx_lt, hex2.index.onto,
    hex2.closed.wf.square.1, hex2.closed.wf.square.2, hgrow, ?_, fun hab hnone => ?_,
    checkInvariance_of_wf hex2.closed.wf⟩
  · unfold unseenCount
    split <;> split <;> omega
  · unfold unseenCount
    rw [if_pos hnone, if_neg (fun hx => hx.2 hab.symm)]

/-- Witness of C35: the call `insertNoAlias(5, 5)` after `insertNoAlias(1, 2)`. -/
theorem matrix_shape_invariant_witness :
    (afterInserts [(1, 2)]).m_valueToIdx.lookup 5 = none ∧
    (afterInserts [(1, 2)]).unseenCount 5 5 = 1 ∧
    ((afterInserts [(1, 2)]).insertNoAlias 5 5).m_maxIdx = (afterInserts [(1, 2)]).m_maxIdx + 1 :=
  ⟨by decide, (matrix_shape_invariant [(1, 2)] 5 5).2.2.2.2.2.2.2.2.1 rfl (by decide),
    by decide⟩

/-- C38: two sequences of `insertNoAlias` calls that are permutations of each
other give relations with the same known values, the same pairs of values with
entry 1, and the same answer of `canAlias` for every pair of values. -/
theorem insertion_order_irrelevant (calls1 calls2 : List (Value × Value))
    (h : calls1.Perm calls2) :
    (∀ v, (∃ i, (afterInserts calls1).m_valueToIdx.lookup v = some i) ↔
      (∃ i, (afterInserts calls2).m_valueToIdx.lookup v = some i)) ∧
    (∀ a b ai bi aj bj, (afterInserts calls1).m_valueToIdx.lookup a = some ai →
      (afterInserts calls1).m_valueToIdx.lookup b = some bi →
      (afterInserts calls2).m_valueToIdx.lookup a = some aj →
      (afterInserts calls2).m_valueToIdx.lookup b = some bj →
      ((afterInserts calls1).m_reachability.at ai bi = 1 ↔
        (afterInserts calls2).m_reachability.at aj bj = 1)) ∧
    (∀ a b, (afterInserts calls1).canAlias a b = (afterInserts calls2).canAlias a b) := by
  have h1 := afterInserts_exact calls1
  have h2 := afterInserts_exact calls2
  have hknown : ∀ v, (∃ i, (afterInserts calls1).m_valueToIdx.lookup v = some i) ↔
      (∃ i, (afterInserts calls2).m_valueToIdx.lookup v = some i) := fun v =>
    ((h1.known v).trans (seen_perm h v)).trans (h2.known v).symm
  refine ⟨hknown, fun a b ai bi aj bj ha1 hb1 ha2 hb2 => ?_, fun a b => ?_⟩
  · rw [h1.entry_iff ha1 hb1, h2.entry_iff ha2 hb2]
    exact connected_perm h a b
  · cases ha : (afterInserts calls1).m_valueToIdx.lookup a with
    | none =>
        have ha2 : (afterInserts calls2).m_valueToIdx.lookup a = none := by
          cases hx : (afterInserts calls2).m_valueToIdx.lookup a with
          | none => rfl
          | some j =>
              obtain ⟨i, hi⟩ := (hknown a).mpr ⟨j, hx⟩
              rw [ha] at hi
              cases hi
        rw [canAlias_of_unknown h1.closed.flag (Or.inl ha),
          canAlias_of_unknown h2.closed.flag (Or.inl ha2)]
    | some ai =>
        obtain ⟨aj, haj⟩ := (hknown a).mp ⟨ai, ha⟩
        cases hb : (afterInserts calls1).m_valueToIdx.lookup b with
        | none =>
            have hb2 : (afterInserts calls2).m_valueToIdx.lookup b = none := by
              cases hx : (afterInserts calls2).m_valueToIdx.lookup b with
              | none => rfl
              | some j =>
                  obtain ⟨i, hi⟩ := (hknown b).mpr ⟨j, hx⟩
                  rw [hb] at hi
                  cases hi
            rw [canAlias_of_unknown h1.closed.flag (Or.inr hb),
              canAlias_of_unknown h2.closed.flag (Or.inr hb2)]
        | some bi =>
            obtain ⟨bj, hbj⟩ := (hknown b).mp ⟨bi, hb⟩
            rw [canAlias_of_known h1.closed.wf.symmetric h1.closed.flag ha hb,
              canAlias_of_known h2.closed.wf.symmetric h2.closed.flag haj hbj]

/-- Witness of C38: the edges from 1 to the values 2, 3, 4 in two orders; the
indices of 2 and 4 differ between the two relations, their entries agree. -/
theorem insertion_order_irrelevant_witness :
    [((1 : Value), (2 : Value)), (1, 3), (1, 4)].Perm [(1, 4), (1, 3), (1, 2)] ∧
    (afterInserts [(1, 2), (1, 3), (1, 4)]).m_valueToIdx.lookup 2 = some 1 ∧
    (afterInserts [(1, 4), (1, 3), (1, 2)]).m_valueToIdx.lookup 2 = some 3 ∧
    ((afterInserts [(1, 2), (1, 3), (1, 4)]).m_reachability.at 1 3 = 1 ↔
      (afterInserts [(1, 4), (1, 3), (1, 2)]).m_reachability.at 3 1 = 1) ∧
    ∀ a b, (afterInserts [(1, 2), (1, 3), (1, 4)]).canAlias a b
      = (afterInserts [(1, 4), (1, 3), (1, 2)]).canAlias a b :=
  have hperm : [((1 : Value), (2 : Value)), (1, 3), (1, 4)].Perm [(1, 4), (1, 3), (1, 2)] := by
    decide
  ⟨hperm, by decide, by decide,
    (insertion_order_irrelevant _ _ hperm).2.1 2 4 1 3 3 1 (by decide) (by decide) (by decide)
      (by decide),
    (insertion_order_irrelevant _ _ hperm).2.2⟩

end AliasRelation

/-! ## The range of the assignments -/

namespace MemoryAssignment

/-- The range invariant needs offsets that do not overflow: in `hugeConcatBlock`,
whose element counts are not negative, `run` leaves the defining operation of the
second operand of the concat with the valid `BufferInfo` `{0, -1294967296}`. -/
theorem range_needs_no_overflow :
    (∀ v, 0 ≤ hugeConcatBlock.numElements v) ∧
    ∃ s, run allOn [[hugeConcatBlock]] (init exampleTable) = some s ∧
      (s.m_memAnalysis.getBufferInfo 1).isValid = true ∧
      s.m_memAnalysis.getBufferInfo 1 = { m_bufferId := 0, m_offset := -1294967296 } :=
  ⟨fun v => by
      show 0 ≤ (if v < 2 then (3000000000 : Int) else 6000000000)
      split <;> decide,
    _, rfl, by decide⟩

/-- C37: in every state the backward loop of `run` reaches, and in the state after
every reuse attempt, the counter `m_bufferId` is not negative and every valid
`BufferInfo` has an id from 0 up to the counter, the counter excluded; a reuse
attempt leaves the counter or adds one to it, and in the second case no operation
carried the id it gives out.  In a region whose values have element counts that
are not negative, when no offset overflows, every valid `BufferInfo` in these
states has moreover an offset that is not negative. -/
theorem assignment_range_invariant (sw : Switches) (blk : Block) (tbl : List (String × Bool)) :
    ((∀ p s, sweepFrom sw blk p (init tbl) = some s → s.IdInv) ∧
      (∀ q op t t1, blk.ops[q]? = some op → sweepFrom sw blk (q + 1) (init tbl) = some t →
        dispatch sw blk t q op = some t1 →
        t1.IdInv ∧ t.m_bufferId ≤ t1.m_bufferId ∧
        (t1.m_bufferId = t.m_bufferId ∨
          (t1.m_bufferId = t.m_bufferId + 1 ∧
            ∀ o, (t.m_memAnalysis.getBufferInfo o).isValid = true →
              (t.m_memAnalysis.getBufferInfo o).m_bufferId ≠ t.m_bufferId))) ∧
      (∀ s, run sw [[blk]] (init tbl) = some s →
        0 ≤ s.m_bufferId ∧
        ∀ o, (s.m_memAnalysis.getBufferInfo o).isValid = true →
          0 ≤ (s.m_memAnalysis.getBufferInfo o).m_bufferId ∧
          (s.m_memAnalysis.getBufferInfo o).m_bufferId < s.m_bufferId)) ∧
    ((∀ v, 0 ≤ blk.numElements v) → NoOverflow sw blk tbl →
      (∀ p s, sweepFrom sw blk p (init tbl) = some s → s.RangeInv) ∧
      (∀ q op t t1, blk.ops[q]? = some op → sweepFrom sw blk (q + 1) (init tbl) = some t →
        dispatch sw blk t q op = some t1 →
        t1.RangeInv ∧ t.m_bufferId ≤ t1.m_bufferId ∧
        (t1.m_bufferId = t.m_bufferId ∨
          (t1.m_bufferId = t.m_bufferId + 1 ∧
            ∀ o, (t.m_memAnalysis.getBufferInfo o).isValid = true →
              (t.m_memAnalysis.getBufferInfo o).m_bufferId ≠ t.m_bufferId))) ∧
      (∀ s, run sw [[blk]] (init tbl) = some s →
        0 ≤ s.m_bufferId ∧
        ∀ o, (s.m_memAnalysis.getBufferInfo o).isValid = true →
          0 ≤ (s.m_memAnalysis.getBufferInfo o).m_bufferId ∧
          (s.m_memAnalysis.getBufferInfo o).m_bufferId < s.m_bufferId ∧
          0 ≤ (s.m_memAnalysis.getBufferInfo o).m_offset)) := by
  have hfresh : ∀ q op t t1, sweepFrom sw blk (q + 1) (init tbl) = some t →
      dispatch sw blk t q op = some t1 →
      t1.IdInv ∧ t.m_bufferId ≤ t1.m_bufferId ∧
      (t1.m_bufferId = t.m_bufferId ∨
        (t1.m_bufferId = t.m_bufferId + 1 ∧
          ∀ o, (t.m_memAnalysis.getBufferInfo o).isValid = true →
            (t.m_memAnalysis.getBufferInfo o).m_bufferId ≠ t.m_bufferId)) := by
    intro q op t t1 ht hd
    obtain ⟨hc, hr⟩ := sweepFrom_ids sw blk tbl (q + 1) t ht
    obtain ⟨r1, b1, b2⟩ := dispatch_ids hc.flag hr hd
    refine ⟨r1, b1, ?_⟩
    by_cases e : t1.m_bufferId = t.m_bufferId
    · exact Or.inl e
    · refine Or.inr ⟨by omega, fun o ho => ?_⟩
      have := (hr.range o ho).2
      omega
  refine ⟨⟨fun p s h => (sweepFrom_ids sw blk tbl p s h).2,
    fun q op t t1 _ ht hd => hfresh q op t t1 ht hd, fun s hs => ?_⟩, fun hn hno =>
    ⟨fun p s h => (sweepFrom_range sw blk tbl hn hno p s h).2, fun q op t t1 hop ht hd => ?_,
      fun s hs => ?_⟩⟩
  · cases hm : sw.clEnableNgInPlaceMemory with
    | true =>
        rw [run_single_block sw blk (init tbl) hm] at hs
        have hr := (sweepFrom_ids sw blk tbl 0 s hs).2
        exact ⟨hr.counter, hr.range⟩
    | false =>
        unfold run at hs
        rw [hm] at hs
        simp only [Bool.not_false, if_true] at hs
        rw [← Option.some.inj hs]
        exact ⟨Int.le_refl 0, fun o ho => nomatch ho⟩
  · obtain ⟨hc, hr⟩ := sweepFrom_range sw blk tbl hn hno (q + 1) t ht
    obtain ⟨r1, -, -, -⟩ := dispatch_range hn hc.flag hr
      (fun hcon result hacc => hno q op t result hop ht hcon hacc) hd
    exact ⟨r1, (hfresh q op t t1 ht hd).2⟩
  · cases hm : sw.clEnableNgInPlaceMemory with
    | true =>
        rw [run_single_block sw blk (init tbl) hm] at hs
        have hr := (sweepFrom_range sw blk tbl hn hno 0 s hs).2
        exact ⟨hr.counter, hr.range⟩
    | false =>
        unfold run at hs
        rw [hm] at hs
        simp only [Bool.not_false, if_true] at hs
        rw [← Option.some.inj hs]
        exact ⟨Int.le_refl 0, fun o ho => nomatch ho⟩

/-- Witness of C37: `reusedConcatBlock` with every switch on; the operands of its
concat have 12 elements together. -/
theorem assignment_range_invariant_witness :
    (∀ v, 0 ≤ reusedConcatBlock.numElements v) ∧
    NoOverflow allOn reusedConcatBlock exampleTable ∧
    ∃ s, run allOn [[reusedConcatBlock]] (init exampleTable) = some s ∧
      0 ≤ s.m_bufferId ∧
      ∀ o, (s.m_memAnalysis.getBufferInfo o).isValid = true →
        0 ≤ (s.m_memAnalysis.getBufferInfo o).m_bufferId ∧
        (s.m_memAnalysis.getBufferInfo o).m_bufferId < s.m_bufferId ∧
        0 ≤ (s.m_memAnalysis.getBufferInfo o).m_offset :=
  have hn : ∀ v, 0 ≤ reusedConcatBlock.numElements v := by
    intro v
    show 0 ≤ (if v < 2 then (6 : Int) else 12)
    split <;> decide
  have hno : NoOverflow allOn reusedConcatBlock exampleTable :=
    noOverflow_of_bound allOn reusedConcatBlock exampleTable hn (by decide)
  ⟨hn, hno, _, rfl,
    ((assignment_range_invariant allOn reusedConcatBlock exampleTable).2 hn hno).2.2 _ rfl⟩

end MemoryAssignment

end NGraph
